import Mathlib

/-!
# Verification of the PERT scheduling engine (`pert_scheduler.py`)

A shallow embedding of the scheduling engine of this repository:
the task graph with Kahn topological sorting (`get_topological_sort`),
the CPM forward/backward passes (`calculate_earliest_dates`,
`calculate_latest_dates`), float computation and critical-path extraction
(`calculate_floats`, `get_critical_path`, `get_full_schedule`), and the
Activity-on-Arrow synthesis (`get_aoa_structure`).

Conventions of the embedding:
* Python floats are modelled as `ℚ` (exact rationals).
* Python dicts (which preserve insertion order) are modelled as association
  lists `List (String × α)` in insertion order; `alookup` is `dict.get`,
  `aset` is assignment to an existing key.
* `float('inf')` (used only for latest event times) is modelled as
  `Option ℚ` with `none` standing for `+∞`.
* Raising `ValueError` is modelled with `Except PertError`; the three
  distinct `ValueError` messages of the source are the three constructors
  of `PertError`.
* Display-only fields that format floats through Python's `repr`
  (the arrow labels built with f-strings) are omitted: no claim mentions
  them and their decimal rendering of binary floats has no exact
  counterpart for `ℚ`.
-/

namespace PertSpec

/-! ## Generic helpers -/

/-- Decidable equality of `Except` results (for concrete test inputs). -/
instance {ε α : Type} [DecidableEq ε] [DecidableEq α] :
    DecidableEq (Except ε α) :=
  fun a b =>
    match a, b with
    | .error e, .error f =>
      if h : e = f then .isTrue (by rw [h])
      else .isFalse (by intro hc; cases hc; exact h rfl)
    | .ok x, .ok y =>
      if h : x = y then .isTrue (by rw [h])
      else .isFalse (by intro hc; cases hc; exact h rfl)
    | .error _, .ok _ => .isFalse (by intro hc; cases hc)
    | .ok _, .error _ => .isFalse (by intro hc; cases hc)

/-- Value of a decimal digit character (`'0'` ↦ 0, …). -/
def digVal (c : Char) : ℕ := c.toNat - 48

/-- The decimal digit characters of a natural number, most significant
first.  This is the unfolded form of core's fuelled `Nat.toDigitsCore`;
the equivalence is proved below and is used to show `Nat.repr` injective
(the source builds junction ids with the f-string `f"J{counter}"`). -/
def natDigits (n : ℕ) : List Char :=
  if n < 10 then [Nat.digitChar n]
  else natDigits (n / 10) ++ [Nat.digitChar (n % 10)]
  termination_by n
  decreasing_by exact Nat.div_lt_self (by omega) (by omega)

/-- Stable insertion of `x` into `l`: `x` is placed before the first `y`
with `lt y x = false`.  Together with `sortByKey` this models Python's
stable `sorted`/`list.sort`. -/
def insertSorted {α : Type} (lt : α → α → Bool) (x : α) : List α → List α
  | [] => [x]
  | y :: l => if lt y x then y :: insertSorted lt x l else x :: y :: l

/-- Stable sort by a strict comparator, modelling Python's `sorted`. -/
def sortByKey {α : Type} (lt : α → α → Bool) (l : List α) : List α :=
  l.foldr (insertSorted lt) []

/-- First-occurrence deduplication, preserving order: this is the key set
of a Python `defaultdict` in insertion order. -/
def dedupF {α : Type} [DecidableEq α] : List α → List α
  | [] => []
  | x :: l => x :: dedupF (l.filter (fun y => y ≠ x))
  termination_by l => l.length
  decreasing_by
    simp only [List.length_cons]
    exact Nat.lt_succ_of_le (List.length_filter_le _ _)

/-- Association-list lookup (Python `dict[k]` / `k in dict`): the value
at the first matching key. -/
def alookup {α : Type} : List (String × α) → String → Option α
  | [], _ => none
  | kv :: l, k => if kv.1 = k then some kv.2 else alookup l k

/-- Association-list assignment to an existing key (Python `dict[k] = v`
where `k` is already a key). -/
def aset {α : Type} (l : List (String × α)) (k : String) (v : α) :
    List (String × α) :=
  l.map (fun kv => if kv.1 = k then (k, v) else kv)

/-- `Except` bind on a success reduces to the continuation. -/
theorem except_bind_ok {e a b : Type} (x : a) (f : a → Except e b) :
    ((Except.ok x : Except e a) >>= f) = f x := rfl

/-- `Except` bind on an error propagates the error. -/
theorem except_bind_error {e a b : Type} (err : e) (f : a → Except e b) :
    ((Except.error err : Except e a) >>= f) = Except.error err := rfl

/-- `Except` map on a success applies the function. -/
theorem except_map_ok {e a b : Type} (x : a) (f : a → b) :
    (f <$> (Except.ok x : Except e a)) = Except.ok (f x) := rfl

/-- `Except` map on an error propagates the error. -/
theorem except_map_error {e a b : Type} (err : e) (f : a → b) :
    (f <$> (Except.error err : Except e a)) = (Except.error err : Except e b) := rfl

/-- `pure` for `Except` is `Except.ok`. -/
theorem except_pure {e a : Type} (x : a) :
    (pure x : Except e a) = Except.ok x := rfl

/-! ## Data model (`Task`, errors) -/

/-- `Task` dataclass of `pert_scheduler.py`. -/
structure Task where
  id : String
  name : String
  duration : ℚ
  predecessors : List String
deriving DecidableEq

/-- The three `ValueError`s the scheduler can raise:
duplicate id at `add_task`, unknown predecessor at
`validate_dependencies`, and the cycle error of `get_topological_sort`. -/
inductive PertError where
  | duplicateTask (id : String)
  | unknownPredecessor (taskId predId : String)
  | cycleDetected
deriving DecidableEq

/-- `TaskSchedule` dataclass (rows of `get_full_schedule`). -/
structure TaskSchedule where
  taskId : String
  earliestStart : ℚ
  earliestFinish : ℚ
  latestStart : ℚ
  latestFinish : ℚ
  totalFloat : ℚ
  freeFloat : ℚ
  isCritical : Bool
deriving DecidableEq

/-- The ids of the stored tasks (`self.tasks.keys()`), in insertion
order. -/
def taskIds (tasks : List Task) : List String := tasks.map (·.id)

/-- `PertScheduler.add_task`: rejects duplicate ids, performs no other
validation (in particular it never inspects the duration). -/
def addTask (tasks : List Task) (id name : String) (duration : ℚ)
    (preds : List String) : Except PertError (List Task) :=
  if id ∈ taskIds tasks then .error (.duplicateTask id)
  else .ok (tasks ++ [⟨id, name, duration, preds⟩])

/-- Adding a list of task records in order (the loop of `traced_pert`). -/
def addTasks (tasks : List Task) : List Task → Except PertError (List Task)
  | [] => .ok tasks
  | r :: rs =>
    addTask tasks r.id r.name r.duration r.predecessors >>= fun tasks' =>
      addTasks tasks' rs

/-- `self.tasks[tid]` as a partial lookup (first task with the id). -/
def findTask : List Task → String → Option Task
  | [], _ => none
  | t :: ts, id => if t.id = id then some t else findTask ts id

/-- Predecessor list of the task with a given id (`[]` if absent; only
used on declared ids). -/
def predsOf (tasks : List Task) (id : String) : List String :=
  ((findTask tasks id).map (·.predecessors)).getD []

/-- Duration of the task with a given id (`0` if absent; only used on
declared ids). -/
def durOf (tasks : List Task) (id : String) : ℚ :=
  ((findTask tasks id).map (·.duration)).getD 0

/-- `PertScheduler._build_successors()[u]`: one entry `w.id` per
occurrence of `u` in `w.predecessors`, for each task `w` in insertion
order; the dict only has declared ids as keys. -/
def succOf (tasks : List Task) (u : String) : List String :=
  if u ∈ taskIds tasks then
    tasks.flatMap (fun w =>
      (w.predecessors.filter (fun p => p == u)).map (fun _ => w.id))
  else []

/-- Inner loop of `validate_dependencies` over one task's predecessors. -/
def validatePreds (tasks : List Task) (tid : String) :
    List String → Except PertError Unit
  | [] => .ok ()
  | p :: ps =>
    if p ∈ taskIds tasks then validatePreds tasks tid ps
    else .error (.unknownPredecessor tid p)

/-- `validate_dependencies` iterating over the stored tasks in order. -/
def validateDependenciesAux (tasks : List Task) :
    List Task → Except PertError Unit
  | [] => .ok ()
  | t :: ts =>
    validatePreds tasks t.id t.predecessors >>= fun _ =>
      validateDependenciesAux tasks ts

/-- `PertScheduler.validate_dependencies`. -/
def validateDependencies (tasks : List Task) : Except PertError Unit :=
  validateDependenciesAux tasks tasks

/-- `PertScheduler.validate_no_cycles`: its body in the source is only a
docstring, so it validates nothing and returns `None`. -/
def validateNoCycles (_ : List Task) : Except PertError Unit := .ok ()

/-! ## Kahn's algorithm (`get_topological_sort`) -/

/-- The inner `for v_id in successors[u_id]` loop: decrement each
successor's in-degree, enqueueing it when the degree reaches zero.
(The `.getD 0` branch is dead: every successor is a key of the degree
dict.) -/
def kahnVisit (deg : List (String × Int)) (queue : List String) :
    List String → List (String × Int) × List String
  | [] => (deg, queue)
  | w :: ws =>
    let d := (alookup deg w).getD 0 - 1
    let deg' := aset deg w d
    let queue' := if d = 0 then queue ++ [w] else queue
    kahnVisit deg' queue' ws

/-- The `while queue` loop, fuelled.  The fuel chosen in
`getTopologicalSort` strictly dominates the number of iterations the
Python loop can perform (each task is enqueued at most once, each pop
consumes one unit), so the fuel-exhausted branch is unreachable; it
returns the partial order, which then fails the length check exactly as
a genuine cycle does. -/
def kahnLoop (tasks : List Task) :
    ℕ → List (String × Int) → List String → List String → List String
  | 0, _, _, topo => topo
  | _ + 1, _, [], topo => topo
  | fuel + 1, deg, u :: rest, topo =>
    let p := kahnVisit deg rest (succOf tasks u)
    kahnLoop tasks fuel p.1 p.2 (topo ++ [u])

/-- Fuel bound for `kahnLoop`: number of tasks plus total number of
declared predecessor entries, plus one. -/
def kahnFuel (tasks : List Task) : ℕ :=
  tasks.length + (tasks.map (·.predecessors.length)).sum + 1

/-- `PertScheduler.get_topological_sort`: Kahn's algorithm; raises the
cycle `ValueError` iff fewer nodes are emitted than exist. -/
def getTopologicalSort (tasks : List Task) : Except PertError (List String) :=
  let deg0 := tasks.map (fun t => (t.id, (t.predecessors.length : Int)))
  let queue0 := (tasks.filter (fun t => t.predecessors.isEmpty)).map (·.id)
  let topo := kahnLoop tasks (kahnFuel tasks) deg0 queue0 []
  if topo.length = tasks.length then .ok topo else .error .cycleDetected

/-! ## CPM forward and backward passes -/

/-- The forward-pass start time: fold of `max` over the already-computed
predecessor finish times (skipping, as the source does, predecessors
absent from the accumulator), starting from `0.0`. -/
def esStep (acc : ℚ) : Option (ℚ × ℚ) → ℚ
  | some sf => max acc sf.2
  | none => acc

def esSpec (rows : List (String × ℚ × ℚ)) (preds : List String) : ℚ :=
  preds.foldl (fun acc p => esStep acc (alookup rows p)) 0

/-- One iteration of the forward pass. -/
def earliestRow (tasks : List Task) (rows : List (String × ℚ × ℚ))
    (tid : String) : List (String × ℚ × ℚ) :=
  let start := esSpec rows (predsOf tasks tid)
  rows ++ [(tid, start, start + durOf tasks tid)]

/-- `PertScheduler.calculate_earliest_dates`: rows `(id, (ES, EF))` in
topological order. -/
def calculateEarliestDates (tasks : List Task) :
    Except PertError (List (String × ℚ × ℚ)) := do
  let topo ← getTopologicalSort tasks
  pure (topo.foldl (earliestRow tasks) [])

/-- `max(finish for ...)` over the earliest-dates dict (`0` only in the
contexts that guard against emptiness first). -/
def maxFinish : List (String × ℚ × ℚ) → ℚ
  | [] => 0
  | r :: rs => (rs.map (·.2.2)).foldl max r.2.2

/-- `PertScheduler.get_project_duration`. -/
def getProjectDuration (tasks : List Task) : Except PertError ℚ := do
  let rows ← calculateEarliestDates tasks
  pure (maxFinish rows)

/-- The min of the already-computed start components over a successor
list (`none` plays `float('inf')` with no constraint yet, mirroring the
source's `has_successor_constraint` dance). -/
def optMin1 : Option ℚ → ℚ → Option ℚ
  | none, x => some x
  | some mv, x => some (min mv x)

def minStartHit (acc : Option ℚ) : Option (ℚ × ℚ) → Option ℚ
  | some sf => optMin1 acc sf.1
  | none => acc

def minStartOpt (rows : List (String × ℚ × ℚ)) (succs : List String) :
    Option ℚ :=
  succs.foldl (fun acc s => minStartHit acc (alookup rows s)) none

/-- One iteration of the backward pass: latest finish is the project
duration for a task without successors, otherwise the min of the
already-computed successors' latest starts. -/
def finishOfOpt (pd : ℚ) : Option ℚ → ℚ
  | some v => v
  | none => pd

def latestRow (tasks : List Task) (pd : ℚ) (rows : List (String × ℚ × ℚ))
    (tid : String) : List (String × ℚ × ℚ) :=
  let dur := durOf tasks tid
  let succs := succOf tasks tid
  let finish :=
    if succs.isEmpty then pd
    else finishOfOpt pd (minStartOpt rows succs)
  rows ++ [(tid, finish - dur, finish)]

/-- The body of `calculate_latest_dates` after the earliest dates are
known: `{}` for an empty dict, otherwise the backward fold over the
reversed topological order. -/
def latestAux (tasks : List Task) :
    List (String × ℚ × ℚ) → Except PertError (List (String × ℚ × ℚ))
  | [] => pure []
  | r :: rs => do
    let topo ← getTopologicalSort tasks
    pure (topo.reverse.foldl (latestRow tasks (maxFinish (r :: rs))) [])

/-- `PertScheduler.calculate_latest_dates`: rows `(id, (LS, LF))` in
reverse topological order; `[]` for an empty task set. -/
def calculateLatestDates (tasks : List Task) :
    Except PertError (List (String × ℚ × ℚ)) := do
  let earliest ← calculateEarliestDates tasks
  latestAux tasks earliest

/-- Round-half-to-even to an integer, Python's `round` tie rule. -/
def rne (q : ℚ) : ℤ :=
  let f := ⌊q⌋
  let r := q - (f : ℚ)
  if r < 1/2 then f
  else if 1/2 < r then f + 1
  else if f % 2 = 0 then f else f + 1

/-- Python's `round(q, 6)` on the exact rational value. -/
def round6 (q : ℚ) : ℚ := ((rne (q * 1000000) : ℚ)) / 1000000

/-- `PertScheduler.calculate_floats`: rows `(id, (totalFloat, freeFloat))`
in the iteration order of the earliest-dates dict (topological order). -/
def freeOfOpt (ef : ℚ) : Option ℚ → ℚ
  | some v => v - ef
  | none => 0 - ef

def calculateFloats (tasks : List Task) :
    Except PertError (List (String × ℚ × ℚ)) := do
  let earliest ← calculateEarliestDates tasks
  let latest ← calculateLatestDates tasks
  let pd := maxFinish earliest
  pure (earliest.foldl (fun acc row =>
    let tid := row.1
    let es := row.2.1
    let ef := row.2.2
    let ls := ((alookup latest tid).map (·.1)).getD 0
    let total := round6 (ls - es)
    let succs := succOf tasks tid
    let free :=
      if succs.isEmpty then pd - ef
      else freeOfOpt ef (minStartOpt earliest succs)
    acc ++ [(tid, total, round6 free)]) [])

/-- Earliest start looked up for the critical-path sort key
(`earliest[t_id][0]`; every critical id has a row). -/
def esKey (earliest : List (String × ℚ × ℚ)) (tid : String) : ℚ :=
  ((alookup earliest tid).map (·.1)).getD 0

/-- `PertScheduler.get_critical_path`: ids with `|totalFloat| < 1e-6`,
stably sorted by earliest start. -/
def getCriticalPath (tasks : List Task) : Except PertError (List String) := do
  let floats ← calculateFloats tasks
  let earliest ← calculateEarliestDates tasks
  let critical := (floats.filter (fun row => |row.2.1| < 1/1000000)).map (·.1)
  pure (sortByKey (fun a b => esKey earliest a < esKey earliest b) critical)

/-- `PertScheduler.get_full_schedule`: one `TaskSchedule` per stored task
(lookups never miss on the reachable inputs), stably sorted by earliest
start. -/
def getFullSchedule (tasks : List Task) :
    Except PertError (List TaskSchedule) := do
  let earliest ← calculateEarliestDates tasks
  let latest ← calculateLatestDates tasks
  let floats ← calculateFloats tasks
  let items := tasks.map (fun t =>
    let esef := (alookup earliest t.id).getD (0, 0)
    let lslf := (alookup latest t.id).getD (0, 0)
    let tfff := (alookup floats t.id).getD (0, 0)
    TaskSchedule.mk t.id esef.1 esef.2 lslf.1 lslf.2 tfff.1 tfff.2
      (|tfff.1| < 1/1000000))
  pure (sortByKey (fun a b => a.earliestStart < b.earliestStart) items)

/-! ## Activity-on-Arrow synthesis (`get_aoa_structure`) -/

/-- An arrow of the internal `edges` list (before renumbering).
The display label is omitted (see the module docstring). -/
structure AoaEdge where
  source : String
  target : String
  taskId : Option String
  duration : ℚ
  isDummy : Bool
deriving DecidableEq

/-- A node of the final `nodes` output.  `letv` is the latest event time
(`None`-as-`∞` only before relaxation reaches the event). -/
structure AoaNode where
  id : String
  label : String
  eet : ℚ
  letv : Option ℚ
deriving DecidableEq

/-- An arrow of the final `edges` output. -/
structure AoaOutEdge where
  id : String
  source : String
  target : String
  isDummy : Bool
  taskId : Option String
  duration : ℚ
deriving DecidableEq

/-- Predecessor signature of a task: `tuple(sorted(task.predecessors))`. -/
def sigOf (t : Task) : List String :=
  sortByKey (fun a b => a < b) t.predecessors

/-- Signature of the task with the given id (only used on declared
ids). -/
def sigOfId (tasks : List Task) (tid : String) : List String :=
  ((findTask tasks tid).map sigOf).getD []

/-- The distinct signatures in first-occurrence order over the
topological order: the key list of the `pred_signatures` defaultdict. -/
def sigList (tasks : List Task) (topo : List String) : List (List String) :=
  dedupF (topo.map (sigOfId tasks))

/-- The nonempty signatures in order; the `junction_counter` numbers
exactly these. -/
def nonemptySigs (tasks : List Task) (topo : List String) :
    List (List String) :=
  (sigList tasks topo).filter (fun s => !s.isEmpty)

/-- Index of the first occurrence of `x` (the length of the list when
absent); an executable rendering of `List.indexOf`. -/
def posOf {α : Type} [DecidableEq α] : List α → α → ℕ
  | [], _ => 0
  | s :: ss, x => if s = x then 0 else posOf ss x + 1

/-- `junctions[signature]`: the start event for the empty signature,
otherwise the junction id `f"J{counter}"` in creation order. -/

def jid (tasks : List Task) (topo : List String) (s : List String) : String :=
  if s.isEmpty then "Start"
  else "J" ++ Nat.repr (posOf (nonemptySigs tasks topo) s + 1)

/-- State of the junction-connection loop: the `task_end_nodes` dict and
the dummy arcs appended so far. -/
structure ConnectState where
  endNodes : List (String × String)
  dummies : List AoaEdge
deriving DecidableEq

/-- Connecting one predecessor `p` to a junction: if `p` has no end node
yet, the junction becomes its end node and nothing else changes;
otherwise a zero-duration dummy arc from its existing end node to the
junction is appended. -/
def connectHit (junction : String) (st : ConnectState) (p : String) :
    Option String → ConnectState
  | none => { st with endNodes := st.endNodes ++ [(p, junction)] }
  | some e => { st with dummies := st.dummies ++ [⟨e, junction, none, 0, true⟩] }

def connectPred (junction : String) (st : ConnectState) (p : String) :
    ConnectState :=
  connectHit junction st p (alookup st.endNodes p)

/-- Processing one signature: the empty signature is skipped (`continue`);
otherwise each listed predecessor is connected to this signature's
junction. -/
def connectSig (tasks : List Task) (topo : List String) (st : ConnectState)
    (s : List String) : ConnectState :=
  if s.isEmpty then st else s.foldl (connectPred (jid tasks topo s)) st

/-- The whole junction-creation/connection loop over the signatures. -/
def buildConnect (tasks : List Task) (topo : List String) : ConnectState :=
  (sigList tasks topo).foldl (connectSig tasks topo) ⟨[], []⟩

/-- `task_start_nodes[tid]`: the junction of the task's own signature. -/
def startNodeOf (tasks : List Task) (topo : List String) (tid : String) :
    String :=
  jid tasks topo (sigOfId tasks tid)

/-- `task_end_nodes[tid]` after the cleanup loop: tasks never used as a
predecessor get the shared end event `"Fin"`. -/
def endNodeOf (st : ConnectState) (tid : String) : String :=
  (alookup st.endNodes tid).getD "Fin"

/-- Real-arc emission: one arc per stored task from its start junction to
its end node, skipping degenerate self-loops. -/
def realEdges (tasks : List Task) (topo : List String) (st : ConnectState) :
    List AoaEdge :=
  tasks.foldl (fun acc t =>
    let src := startNodeOf tasks topo t.id
    let tgt := endNodeOf st t.id
    if src = tgt then acc
    else acc ++ [⟨src, tgt, some t.id, t.duration, false⟩]) []

/-- The internal `edges` list: dummies (appended during the signature
loop) followed by the real arcs. -/
def aoaEdges (tasks : List Task) (topo : List String) : List AoaEdge :=
  let st := buildConnect tasks topo
  st.dummies ++ realEdges tasks topo st

/-- The internal `events` dict keys in insertion order: start event,
junctions in creation order, end event. -/
def eventIds (tasks : List Task) (topo : List String) : List String :=
  "Start" :: ((nonemptySigs tasks topo).map (jid tasks topo) ++ ["Fin"])

/-- One EET relaxation step over one arc
(`if eet[u] + dur > eet[v]: eet[v] = eet[u] + dur`). -/
def eetStep2 (acc : List (String × ℚ)) (tgt : String) (dur : ℚ) :
    Option ℚ → Option ℚ → List (String × ℚ)
  | some a, some b =>
    if b < a + dur then aset acc tgt (a + dur) else acc
  | some _, none => acc
  | none, _ => acc

def relaxEetStep (acc : List (String × ℚ)) (e : AoaEdge) :
    List (String × ℚ) :=
  eetStep2 acc e.target e.duration (alookup acc e.source) (alookup acc e.target)

/-- One full pass of EET relaxation over all arcs. -/
def relaxEetPass (edges : List AoaEdge) (acc : List (String × ℚ)) :
    List (String × ℚ) :=
  edges.foldl relaxEetStep acc

/-- `k` passes of EET relaxation. -/
def relaxEetIter (edges : List AoaEdge) :
    ℕ → List (String × ℚ) → List (String × ℚ)
  | 0, acc => acc
  | k + 1, acc => relaxEetIter edges k (relaxEetPass edges acc)

/-- The EET table after the source's `len(events) + 2` relaxation passes,
starting from all zeros. -/
def eetTable (tasks : List Task) (topo : List String) : List (String × ℚ) :=
  relaxEetIter (aoaEdges tasks topo) ((eventIds tasks topo).length + 2)
    ((eventIds tasks topo).map (fun v => (v, 0)))

/-- `project_duration = events["Fin"]["eet"]`. -/
def projectDurationAoa (tasks : List Task) (topo : List String) : ℚ :=
  (alookup (eetTable tasks topo) "Fin").getD 0

/-- `x - d` on `Option ℚ` with `none = +∞` (so `∞ - d = ∞`). -/
def subE (x : Option ℚ) (d : ℚ) : Option ℚ := x.map (fun v => v - d)

/-- Strict `<` on `Option ℚ` with `none = +∞`. -/
def ltE : Option ℚ → Option ℚ → Bool
  | some a, some b => a < b
  | some _, none => true
  | none, _ => false

/-- One LET relaxation step over one arc
(`if let[v] - dur < let[u]: let[u] = let[v] - dur`). -/
def letStep2 (acc : List (String × Option ℚ)) (src : String) (dur : ℚ) :
    Option (Option ℚ) → Option (Option ℚ) → List (String × Option ℚ)
  | some lu, some lv =>
    if ltE (subE lv dur) lu then aset acc src (subE lv dur) else acc
  | some _, none => acc
  | none, _ => acc

def relaxLetStep (acc : List (String × Option ℚ)) (e : AoaEdge) :
    List (String × Option ℚ) :=
  letStep2 acc e.source e.duration (alookup acc e.source) (alookup acc e.target)

/-- One full pass of LET relaxation over all arcs. -/
def relaxLetPass (edges : List AoaEdge) (acc : List (String × Option ℚ)) :
    List (String × Option ℚ) :=
  edges.foldl relaxLetStep acc

/-- `k` passes of LET relaxation. -/
def relaxLetIter (edges : List AoaEdge) :
    ℕ → List (String × Option ℚ) → List (String × Option ℚ)
  | 0, acc => acc
  | k + 1, acc => relaxLetIter edges k (relaxLetPass edges acc)

/-- The LET table after `len(events) + 2` passes, starting from `+∞`
everywhere except the end event, initialized to the project duration. -/
def letTable (tasks : List Task) (topo : List String) :
    List (String × Option ℚ) :=
  let pd := projectDurationAoa tasks topo
  relaxLetIter (aoaEdges tasks topo) ((eventIds tasks topo).length + 2)
    ((eventIds tasks topo).map (fun v =>
      (v, if v = "Fin" then some pd else none)))

/-- The event records right after both relaxations, in dict insertion
order, before display renumbering.  Labels are as created: `"Début"` for
the start event, `"Fin"` for the end event, `""` for junctions. -/
def preNodes (tasks : List Task) (topo : List String) : List AoaNode :=
  let eet := eetTable tasks topo
  let lt := letTable tasks topo
  (eventIds tasks topo).map (fun v =>
    ⟨v, if v = "Start" then "Début" else if v = "Fin" then "Fin" else "",
      (alookup eet v).getD 0, (alookup lt v).getD none⟩)

/-- The sort key of the final renumbering:
`key=lambda x: (x["eet"], x["id"])`. -/
def nodeLt (a b : AoaNode) : Bool :=
  a.eet < b.eet || (a.eet == b.eet && a.id < b.id)

/-- `sorted(events.values(), key=...)`. -/
def sortedNodes (tasks : List Task) (topo : List String) : List AoaNode :=
  sortByKey nodeLt (preNodes tasks topo)

/-- State of the renumbering loop: the display counter, the final node
list, and the `node_id_map`. -/
structure RenumberState where
  counter : ℕ
  nodes : List AoaNode
  idMap : List (String × String)
deriving DecidableEq

/-- One step of the renumbering loop over the sorted events. -/
def renumberStep (st : RenumberState) (n : AoaNode) : RenumberState :=
  if n.label = "Début" then
    ⟨st.counter, st.nodes ++ [⟨"start", "Début", 0, some 0⟩],
      st.idMap ++ [(n.id, "start")]⟩
  else if n.label = "Fin" then
    ⟨st.counter, st.nodes ++ [⟨"end", "Fin", n.eet, n.letv⟩],
      st.idMap ++ [(n.id, "end")]⟩
  else
    ⟨st.counter + 1,
      st.nodes ++ [⟨"n" ++ Nat.repr st.counter, Nat.repr st.counter,
        n.eet, n.letv⟩],
      st.idMap ++ [(n.id, "n" ++ Nat.repr st.counter)]⟩

/-- The renumbering loop (counter starts at 1). -/
def renumber (tasks : List Task) (topo : List String) : RenumberState :=
  (sortedNodes tasks topo).foldl renumberStep ⟨1, [], []⟩

/-- Python's `enumerate`, starting at `i`. -/
def enumFrom {α : Type} (i : ℕ) : List α → List (ℕ × α)
  | [] => []
  | x :: xs => (i, x) :: enumFrom (i + 1) xs

/-- The final `edges` output: internal arcs with endpoints renamed by
`node_id_map` and ids `f"e{i}"`.  (The `.getD` default is dead: every
endpoint is an event id.) -/

def finalEdges (idMap : List (String × String)) (edges : List AoaEdge) :
    List AoaOutEdge :=
  (enumFrom 0 edges).map (fun ie =>
    ⟨"e" ++ Nat.repr ie.1,
      (alookup idMap ie.2.source).getD ie.2.source,
      (alookup idMap ie.2.target).getD ie.2.target,
      ie.2.isDummy, ie.2.taskId, ie.2.duration⟩)

/-- `PertScheduler.get_aoa_structure`. -/
def getAoaStructure (tasks : List Task) :
    Except PertError (List AoaNode × List AoaOutEdge) := do
  let topo ← getTopologicalSort tasks
  let st := renumber tasks topo
  pure (st.nodes, finalEdges st.idMap (aoaEdges tasks topo))

/-- Decimal rendering of `0`. -/
theorem nat_repr_0 : Nat.repr 0 = "0" := rfl

/-- Decimal rendering of `1`. -/
theorem nat_repr_1 : Nat.repr 1 = "1" := rfl

/-- Decimal rendering of `2`. -/
theorem nat_repr_2 : Nat.repr 2 = "2" := rfl

/-- Decimal rendering of `3`. -/
theorem nat_repr_3 : Nat.repr 3 = "3" := rfl

/-- Decimal rendering of `4`. -/
theorem nat_repr_4 : Nat.repr 4 = "4" := rfl

/-- Decimal rendering of `5`. -/
theorem nat_repr_5 : Nat.repr 5 = "5" := rfl

/-- Decimal rendering of `6`. -/
theorem nat_repr_6 : Nat.repr 6 = "6" := rfl

/-- Decimal rendering of `7`. -/
theorem nat_repr_7 : Nat.repr 7 = "7" := rfl

/-- Decimal rendering of `8`. -/
theorem nat_repr_8 : Nat.repr 8 = "8" := rfl

/-- Decimal rendering of `9`. -/
theorem nat_repr_9 : Nat.repr 9 = "9" := rfl

/-! ## Proof-support definitions -/

/-- The declared precedence relation: `edgeRel tasks u v` iff some stored
task `v` lists `u` among its predecessors. -/
def edgeRel (tasks : List Task) (u v : String) : Prop :=
  ∃ t ∈ tasks, t.id = v ∧ u ∈ t.predecessors

/-- The precedence relation contains a (nonempty) cycle. -/
def hasCycle (tasks : List Task) : Prop :=
  ∃ u c, List.Chain (edgeRel tasks) u (c ++ [u])

/-- Rank of an event: its index in the event list.  Every synthesized arc
strictly increases the rank (proved below), which is the acyclicity of
the event graph. -/
def rankOf (tasks : List Task) (topo : List String) (v : String) : ℕ :=
  (eventIds tasks topo).indexOf v

/-- Fuelled longest-path value to an event (`0` floor): the ideal EET.
At fuel exceeding the rank this stabilizes to the relaxation fixpoint. -/
def eetIdeal (edges : List AoaEdge) : ℕ → String → ℚ
  | 0, _ => 0
  | k + 1, v =>
    ((edges.filter (fun e => e.target == v)).map
      (fun e => eetIdeal edges k e.source + e.duration)).foldl max 0

/-- `min` on `Option ℚ` with `none = +∞`. -/
def minE : Option ℚ → Option ℚ → Option ℚ
  | none, y => y
  | some a, none => some a
  | some a, some b => some (min a b)

/-- Fuelled ideal LET from a given initialization. -/
def letIdeal (edges : List AoaEdge) (init : String → Option ℚ) :
    ℕ → String → Option ℚ
  | 0, v => init v
  | k + 1, v =>
    ((edges.filter (fun e => e.source == v)).map
      (fun e => subE (letIdeal edges init k e.target) e.duration)).foldl
      minE (init v)

/-- Number of in-degree decrements node `v` has received after popping the
nodes of `topo`: one per occurrence of `v` in a popped node's successor
list. -/
def popCount (tasks : List Task) (topo : List String) (v : String) : ℕ :=
  (topo.map (fun u => (succOf tasks u).count v)).sum

/-- Invariant of the Kahn loop at loop boundaries (`topo` popped so far,
`queue` pending, `deg` the current in-degree dict). -/
structure KahnInv (tasks : List Task) (deg : List (String × Int))
    (queue : List String) (topo : List String) : Prop where
  degKeys : deg.map Prod.fst = taskIds tasks
  nodup : (topo ++ queue).Nodup
  subTopo : ∀ v ∈ topo, v ∈ taskIds tasks
  subQueue : ∀ v ∈ queue, v ∈ taskIds tasks
  degEq : ∀ t ∈ tasks, alookup deg t.id =
    some ((t.predecessors.length : Int) - popCount tasks topo t.id)
  memIff : ∀ t ∈ tasks, (t.id ∈ topo ∨ t.id ∈ queue) ↔
    ((t.predecessors.length : Int) - popCount tasks topo t.id ≤ 0)
  qpreds : ∀ v ∈ queue, ∀ p ∈ predsOf tasks v, p ∈ topo
  tpreds : ∀ v ∈ topo, ∀ p ∈ predsOf tasks v,
    p ∈ topo ∧ topo.indexOf p < topo.indexOf v

/-- Invariant in the middle of the successor-decrement fold: `u` has just
been appended to `topo` and `ws` is the not-yet-processed suffix of its
successor list. -/
structure KahnMidInv (tasks : List Task) (deg : List (String × Int))
    (queue : List String) (topo : List String) (ws : List String) : Prop where
  degKeys : deg.map Prod.fst = taskIds tasks
  nodup : (topo ++ queue).Nodup
  subTopo : ∀ v ∈ topo, v ∈ taskIds tasks
  subQueue : ∀ v ∈ queue, v ∈ taskIds tasks
  wsSub : ∀ w ∈ ws, w ∈ taskIds tasks
  degEq : ∀ t ∈ tasks, alookup deg t.id =
    some ((t.predecessors.length : Int) - popCount tasks topo t.id
      + ws.count t.id)
  memIff : ∀ t ∈ tasks, (t.id ∈ topo ∨ t.id ∈ queue) ↔
    ((t.predecessors.length : Int) - popCount tasks topo t.id
      + ws.count t.id ≤ 0)
  qpreds : ∀ v ∈ queue, ∀ p ∈ predsOf tasks v, p ∈ topo
  tpreds : ∀ v ∈ topo, ∀ p ∈ predsOf tasks v,
    p ∈ topo ∧ topo.indexOf p < topo.indexOf v

/-! ## Lemmas: association lists -/

theorem string_beq_eq_decide (a b : String) : (a == b) = decide (a = b) := by
  by_cases h : a = b <;> simp [h]

theorem alookup_nil {α : Type} (k : String) : alookup ([] : List (String × α)) k = none := rfl

theorem alookup_cons {α : Type} (kv : String × α) (l : List (String × α)) (k : String) :
    alookup (kv :: l) k = if kv.1 = k then some kv.2 else alookup l k := rfl

theorem alookup_append {α : Type} (l l' : List (String × α)) (k : String) :
    alookup (l ++ l') k =
      match alookup l k with
      | some v => some v
      | none => alookup l' k := by
  induction l with
  | nil => simp [alookup_nil, alookup]
  | cons kv l ih =>
    by_cases h : kv.1 = k <;> simp [alookup_cons, h, ih]

theorem alookup_append_left {α : Type} {l : List (String × α)} (l' : List (String × α))
    {k : String} {v : α} (h : alookup l k = some v) :
    alookup (l ++ l') k = some v := by
  rw [alookup_append, h]

theorem alookup_append_right {α : Type} {l : List (String × α)} (l' : List (String × α))
    {k : String} (h : alookup l k = none) :
    alookup (l ++ l') k = alookup l' k := by
  rw [alookup_append, h]

theorem alookup_eq_none_iff {α : Type} (l : List (String × α)) (k : String) :
    alookup l k = none ↔ k ∉ l.map Prod.fst := by
  induction l with
  | nil => simp [alookup_nil]
  | cons kv l ih =>
    rw [alookup_cons]
    by_cases h : kv.1 = k
    · simp only [if_pos h, List.map_cons, List.mem_cons]
      constructor
      · intro hfalse; exact absurd hfalse (by simp)
      · intro hnot; exact absurd (Or.inl h.symm) hnot
    · simp only [if_neg h, List.map_cons, List.mem_cons, ih]
      constructor
      · intro hnot hor
        rcases hor with hor | hor
        · exact h hor.symm
        · exact hnot hor
      · intro hnot hx; exact hnot (Or.inr hx)

theorem alookup_isSome_iff {α : Type} (l : List (String × α)) (k : String) :
    (alookup l k).isSome ↔ k ∈ l.map Prod.fst := by
  rcases h : alookup l k with _ | v
  · simp only [Option.isSome_none, Bool.false_eq_true, false_iff]
    exact (alookup_eq_none_iff l k).mp h
  · simp only [Option.isSome_some, true_iff]
    by_contra hmem
    rw [(alookup_eq_none_iff l k).mpr hmem] at h
    exact Option.noConfusion h

theorem alookup_mem {α : Type} {l : List (String × α)} {k : String} {v : α}
    (h : alookup l k = some v) : (k, v) ∈ l := by
  induction l with
  | nil => simp [alookup_nil] at h
  | cons kv l ih =>
    rw [alookup_cons] at h
    by_cases hk : kv.1 = k
    · rw [if_pos hk] at h
      have hv : kv.2 = v := Option.some.inj h
      have : kv = (k, v) := by
        calc kv = (kv.1, kv.2) := rfl
          _ = (k, v) := by rw [hk, hv]
      rw [← this]
      exact List.mem_cons_self kv l
    · rw [if_neg hk] at h
      exact List.mem_cons_of_mem _ (ih h)

theorem aset_cons {α : Type} (kv : String × α) (l : List (String × α)) (k : String) (v : α) :
    aset (kv :: l) k v = (if kv.1 = k then (k, v) else kv) :: aset l k v := by
  by_cases h : kv.1 = k <;> simp [aset, h]

theorem aset_keys {α : Type} (l : List (String × α)) (k : String) (v : α) :
    (aset l k v).map Prod.fst = l.map Prod.fst := by
  induction l with
  | nil => rfl
  | cons kv l ih =>
    rw [aset_cons]
    by_cases h : kv.1 = k
    · rw [if_pos h]
      simp only [List.map_cons, ih]
      rw [← h]
    · rw [if_neg h]
      simp only [List.map_cons, ih]

theorem alookup_aset {α : Type} (l : List (String × α)) (k k' : String) (v : α) :
    alookup (aset l k v) k' =
      if k' = k then (alookup l k).map (fun _ => v) else alookup l k' := by
  induction l with
  | nil => by_cases h : k' = k <;> simp [aset, alookup_nil, h]
  | cons kv l ih =>
    by_cases hk : kv.1 = k <;> by_cases hk' : k' = k
    · subst hk'
      simp [aset_cons, alookup_cons, hk, ih]
    · simp [aset_cons, alookup_cons, hk, hk', Ne.symm hk', ih]
    · subst hk'
      simp [aset_cons, alookup_cons, hk, ih]
    · simp [aset_cons, alookup_cons, hk, hk', ih]

theorem alookup_aset_self {α : Type} (l : List (String × α)) (k : String) (v v' : α)
    (h : alookup l k = some v') : alookup (aset l k v) k = some v := by
  simp [alookup_aset, h]

theorem alookup_aset_ne {α : Type} (l : List (String × α)) {k k' : String} (v : α)
    (h : k' ≠ k) : alookup (aset l k v) k' = alookup l k' := by
  simp [alookup_aset, h]

/-! ## Lemmas: stable insertion sort -/

theorem insertSorted_perm {α : Type} (lt : α → α → Bool) (x : α) (l : List α) :
    (insertSorted lt x l).Perm (x :: l) := by
  induction l with
  | nil => exact List.Perm.refl _
  | cons y l ih =>
    by_cases h : lt y x
    · simp only [insertSorted, h, if_pos]
      exact ((ih.cons y).trans (List.Perm.swap x y l))
    · simp only [insertSorted, h, if_neg, Bool.false_eq_true, not_false_iff]
      exact List.Perm.refl _

theorem sortByKey_perm {α : Type} (lt : α → α → Bool) (l : List α) :
    (sortByKey lt l).Perm l := by
  induction l with
  | nil => exact List.Perm.refl _
  | cons x l ih =>
    have h1 : sortByKey lt (x :: l) = insertSorted lt x (sortByKey lt l) := rfl
    rw [h1]
    exact (insertSorted_perm lt x _).trans (ih.cons x)

theorem mem_sortByKey {α : Type} (lt : α → α → Bool) (l : List α) (x : α) :
    x ∈ sortByKey lt l ↔ x ∈ l :=
  (sortByKey_perm lt l).mem_iff

theorem length_sortByKey {α : Type} (lt : α → α → Bool) (l : List α) :
    (sortByKey lt l).length = l.length :=
  (sortByKey_perm lt l).length_eq

theorem insertSorted_pairwise {α : Type} (lt : α → α → Bool)
    (htot : ∀ a b, lt a b = true → lt b a = false)
    (htrans : ∀ a b c, lt b a = false → lt c b = false → lt c a = false)
    (x : α) (l : List α) (hl : l.Pairwise (fun a b => lt b a = false)) :
    (insertSorted lt x l).Pairwise (fun a b => lt b a = false) := by
  induction l with
  | nil => simp [insertSorted]
  | cons y l ih =>
    rcases List.pairwise_cons.mp hl with ⟨hy, hl'⟩
    by_cases h : lt y x
    · simp only [insertSorted, h, if_pos]
      refine List.pairwise_cons.mpr ⟨?_, ih hl'⟩
      intro z hz
      rcases List.mem_cons.mp ((insertSorted_perm lt x l).mem_iff.mp hz) with hzx | hzl
      · subst hzx; exact htot y z h
      · exact hy z hzl
    · simp only [insertSorted, h, if_neg, Bool.false_eq_true, not_false_iff]
      refine List.pairwise_cons.mpr ⟨?_, hl⟩
      intro z hz
      rcases List.mem_cons.mp hz with hzy | hzl
      · subst hzy
        exact Bool.eq_false_iff.mpr h
      · exact htrans x y z (Bool.eq_false_iff.mpr h) (hy z hzl)

theorem sortByKey_pairwise {α : Type} (lt : α → α → Bool)
    (htot : ∀ a b, lt a b = true → lt b a = false)
    (htrans : ∀ a b c, lt b a = false → lt c b = false → lt c a = false)
    (l : List α) :
    (sortByKey lt l).Pairwise (fun a b => lt b a = false) := by
  induction l with
  | nil => simp [sortByKey]
  | cons x l ih => exact insertSorted_pairwise lt htot htrans x _ ih

/-! ## Lemmas: `List.indexOf` over a lawful `BEq` -/

theorem idx_cons_self {α : Type} [BEq α] [LawfulBEq α] (a : α) (l : List α) :
    (a :: l).indexOf a = 0 := by
  simp [List.indexOf, List.findIdx_cons]

theorem idx_cons_ne {α : Type} [BEq α] [LawfulBEq α] {a b : α} (l : List α)
    (h : a ≠ b) : (a :: l).indexOf b = l.indexOf b + 1 := by
  have hb : (a == b) = false := beq_eq_false_iff_ne.mpr h
  simp [List.indexOf, List.findIdx_cons, hb]

theorem idx_lt_of_mem {α : Type} [BEq α] [LawfulBEq α] {x : α} :
    ∀ {l : List α}, x ∈ l → l.indexOf x < l.length := by
  intro l
  induction l with
  | nil => intro hx; simp at hx
  | cons a r ih =>
    intro hx
    by_cases hax : a = x
    · subst hax
      rw [idx_cons_self]
      simp
    · rw [idx_cons_ne r hax, List.length_cons]
      have hx' : x ∈ r := by
        rcases List.mem_cons.mp hx with h1 | h1
        · exact absurd h1.symm hax
        · exact h1
      exact Nat.succ_lt_succ (ih hx')

theorem idx_append_left {α : Type} [BEq α] [LawfulBEq α] {x : α} (l' : List α) :
    ∀ {l : List α}, x ∈ l → (l ++ l').indexOf x = l.indexOf x := by
  intro l
  induction l with
  | nil => intro hx; simp at hx
  | cons a r ih =>
    intro hx
    by_cases hax : a = x
    · subst hax
      rw [List.cons_append, idx_cons_self, idx_cons_self]
    · have hx' : x ∈ r := by
        rcases List.mem_cons.mp hx with h1 | h1
        · exact absurd h1.symm hax
        · exact h1
      rw [List.cons_append, idx_cons_ne _ hax, idx_cons_ne _ hax, ih hx']

theorem idx_append_not_mem {α : Type} [BEq α] [LawfulBEq α] {x : α} (l' : List α) :
    ∀ {l : List α}, x ∉ l → (l ++ l').indexOf x = l.length + l'.indexOf x := by
  intro l
  induction l with
  | nil => intro _; simp
  | cons a r ih =>
    intro hx
    have hax : a ≠ x := fun hc => hx (hc ▸ List.mem_cons_self a r)
    have hx' : x ∉ r := fun hc => hx (List.mem_cons_of_mem a hc)
    rw [List.cons_append, idx_cons_ne _ hax, ih hx', List.length_cons]
    omega

/-! ## Lemmas: first-occurrence deduplication -/

theorem mem_dedupF {α : Type} [DecidableEq α] (l : List α) (x : α) :
    x ∈ dedupF l ↔ x ∈ l := by
  suffices H : ∀ (n : ℕ) (l : List α), l.length ≤ n → ∀ x : α,
      (x ∈ dedupF l ↔ x ∈ l) from H l.length l le_rfl x
  intro n
  induction n with
  | zero =>
    intro l hl x
    cases l with
    | nil => simp [dedupF]
    | cons z r => simp at hl
  | succ n ih =>
    intro l hl x
    cases l with
    | nil => simp [dedupF]
    | cons z r =>
      have hlen : (r.filter (fun y => y ≠ z)).length ≤ n := by
        have h1 : (r.filter (fun y => y ≠ z)).length ≤ r.length :=
          List.length_filter_le _ _
        have h2 : r.length ≤ n := by simpa using Nat.le_of_succ_le_succ hl
        omega
      have ihr := ih _ hlen x
      rw [dedupF]
      constructor
      · intro hmem
        rcases List.mem_cons.mp hmem with hz | hmem2
        · exact hz ▸ List.mem_cons_self z r
        · have hfil := ihr.mp hmem2
          exact List.mem_cons_of_mem z (List.mem_filter.mp hfil).1
      · intro hmem
        rcases List.mem_cons.mp hmem with hz | hr
        · exact hz ▸ List.mem_cons_self z _
        · by_cases hxz : x = z
          · exact hxz ▸ List.mem_cons_self z _
          · refine List.mem_cons_of_mem z (ihr.mpr ?_)
            exact List.mem_filter.mpr ⟨hr, decide_eq_true hxz⟩

theorem nodup_dedupF {α : Type} [DecidableEq α] (l : List α) :
    (dedupF l).Nodup := by
  suffices H : ∀ (n : ℕ) (l : List α), l.length ≤ n → (dedupF l).Nodup from
    H l.length l le_rfl
  intro n
  induction n with
  | zero =>
    intro l hl
    cases l with
    | nil => simp [dedupF]
    | cons z r => simp at hl
  | succ n ih =>
    intro l hl
    cases l with
    | nil => simp [dedupF]
    | cons z r =>
      have hlen : (r.filter (fun y => y ≠ z)).length ≤ n := by
        have h1 : (r.filter (fun y => y ≠ z)).length ≤ r.length :=
          List.length_filter_le _ _
        have h2 : r.length ≤ n := by simpa using Nat.le_of_succ_le_succ hl
        omega
      rw [dedupF]
      refine List.nodup_cons.mpr ⟨?_, ih _ hlen⟩
      intro hz
      have hfil := (mem_dedupF _ z).mp hz
      have hdec := (List.mem_filter.mp hfil).2
      rw [decide_eq_true_eq] at hdec
      exact hdec rfl

theorem indexOf_filter_lt {α : Type} [BEq α] [LawfulBEq α] (p : α → Bool)
    {x y : α} (hxy : x ≠ y) (hpx : p x = true) :
    ∀ {r : List α}, x ∈ r → r.indexOf x < r.indexOf y →
      (r.filter p).indexOf x < (r.filter p).indexOf y := by
  intro r
  induction r with
  | nil => intro hx; simp at hx
  | cons a r ih =>
    intro hx h
    by_cases hax : a = x
    · subst hax
      rw [List.filter_cons_of_pos hpx, idx_cons_self]
      rw [idx_cons_ne _ hxy]
      exact Nat.succ_pos _
    · by_cases hay : a = y
      · subst hay
        rw [idx_cons_self] at h
        exact absurd h (Nat.not_lt_zero _)
      · have hx' : x ∈ r := by
          rcases List.mem_cons.mp hx with h1 | h1
          · exact absurd h1.symm hax
          · exact h1
        rw [idx_cons_ne _ hax, idx_cons_ne _ hay] at h
        have h' : r.indexOf x < r.indexOf y := by omega
        by_cases hpa : p a
        · rw [List.filter_cons_of_pos hpa, idx_cons_ne _ hax, idx_cons_ne _ hay]
          exact Nat.succ_lt_succ (ih hx' h')
        · rw [List.filter_cons_of_neg (by simpa using hpa)]
          exact ih hx' h'

theorem indexOf_dedupF_lt {α : Type} [DecidableEq α] [BEq α] [LawfulBEq α]
    {x y : α} (hxy : x ≠ y) :
    ∀ {l : List α}, x ∈ l → l.indexOf x < l.indexOf y →
      (dedupF l).indexOf x < (dedupF l).indexOf y := by
  suffices H : ∀ (n : ℕ) (l : List α), l.length ≤ n → x ∈ l →
      l.indexOf x < l.indexOf y →
      (dedupF l).indexOf x < (dedupF l).indexOf y by
    intro l hx h
    exact H l.length l le_rfl hx h
  intro n
  induction n with
  | zero =>
    intro l hl hx
    cases l with
    | nil => simp at hx
    | cons z r => simp at hl
  | succ n ih =>
    intro l hl hx h
    cases l with
    | nil => simp at hx
    | cons z r =>
      have hlen : (r.filter (fun w => w ≠ z)).length ≤ n := by
        have h1 : (r.filter (fun w => w ≠ z)).length ≤ r.length :=
          List.length_filter_le _ _
        have h2 : r.length ≤ n := by simpa using Nat.le_of_succ_le_succ hl
        omega
      rw [dedupF]
      by_cases hzx : z = x
      · subst hzx
        rw [idx_cons_self, idx_cons_ne _ hxy]
        exact Nat.succ_pos _
      · by_cases hzy : z = y
        · subst hzy
          rw [idx_cons_self] at h
          exact absurd h (Nat.not_lt_zero _)
        · have hx' : x ∈ r := by
            rcases List.mem_cons.mp hx with h1 | h1
            · exact absurd h1.symm hzx
            · exact h1
          rw [idx_cons_ne _ hzx, idx_cons_ne _ hzy] at h
          have h' : r.indexOf x < r.indexOf y := by omega
          have hxz : x ≠ z := fun hc => hzx hc.symm
          have hfx : x ∈ r.filter (fun w => w ≠ z) :=
            List.mem_filter.mpr ⟨hx', decide_eq_true hxz⟩
          have hfilt := indexOf_filter_lt (fun w => decide (w ≠ z)) hxy
            (decide_eq_true hxz) hx' h'
          have hdd := ih (r.filter (fun w => w ≠ z)) hlen hfx hfilt
          rw [idx_cons_ne _ hzx, idx_cons_ne _ hzy]
          exact Nat.succ_lt_succ hdd

theorem indexOf_map_le {α β : Type} [BEq α] [LawfulBEq α] [BEq β] [LawfulBEq β]
    (f : α → β) {x : α} :
    ∀ {l : List α}, x ∈ l → (l.map f).indexOf (f x) ≤ l.indexOf x := by
  intro l
  induction l with
  | nil => intro hx; simp at hx
  | cons a r ih =>
    intro hx
    by_cases hax : a = x
    · subst hax
      rw [List.map_cons, idx_cons_self, idx_cons_self]
    · rw [idx_cons_ne _ hax]
      by_cases hfa : f a = f x
      · rw [List.map_cons, ← hfa, idx_cons_self]
        exact Nat.zero_le _
      · rw [List.map_cons, idx_cons_ne _ hfa]
        have hx' : x ∈ r := by
          rcases List.mem_cons.mp hx with h1 | h1
          · exact absurd h1.symm hax
          · exact h1
        exact Nat.succ_le_succ (ih hx')

theorem indexOf_map_exists {α β : Type} [BEq α] [LawfulBEq α] [BEq β] [LawfulBEq β]
    (f : α → β) {S : β} :
    ∀ {l : List α}, S ∈ l.map f →
      ∃ u ∈ l, f u = S ∧ (l.map f).indexOf S = l.indexOf u := by
  intro l
  induction l with
  | nil => intro hS; simp at hS
  | cons a r ih =>
    intro hS
    by_cases hfa : f a = S
    · refine ⟨a, List.mem_cons_self a r, hfa, ?_⟩
      rw [List.map_cons, ← hfa, idx_cons_self, idx_cons_self]
    · rw [List.map_cons] at hS
      have hS' : S ∈ r.map f := by
        rcases List.mem_cons.mp hS with h1 | h1
        · exact absurd h1.symm hfa
        · exact h1
      rcases ih hS' with ⟨u, hu, hfu, hidx⟩
      have hau : a ≠ u := fun hc => hfa (hc ▸ hfu)
      refine ⟨u, List.mem_cons_of_mem a hu, hfu, ?_⟩
      rw [List.map_cons, idx_cons_ne _ hfa, idx_cons_ne _ hau, hidx]

/-! ## Lemmas: injectivity of `Nat.repr` -/

theorem natDigits_ne_nil (n : ℕ) : natDigits n ≠ [] := by
  rw [natDigits]
  by_cases h : n < 10
  · simp [h]
  · simp [h]

theorem toDigitsCore_eq_natDigits :
    ∀ (fuel : ℕ) (n : ℕ) (ds : List Char), n < 10 ^ fuel → 0 < fuel →
      Nat.toDigitsCore 10 fuel n ds = natDigits n ++ ds := by
  intro fuel
  induction fuel with
  | zero => intro n ds _ h0; exact absurd h0 (by omega)
  | succ fuel ih =>
    intro n ds hlt _
    rw [Nat.toDigitsCore]
    by_cases h : n / 10 = 0
    · have hn : n < 10 := by omega
      simp only [h, if_pos rfl]
      rw [natDigits, if_pos hn, Nat.mod_eq_of_lt hn]
      rfl
    · have hn : ¬n < 10 := by
        intro hc
        exact h (Nat.div_eq_of_lt hc)
      have hfuel : 0 < fuel := by
        rcases Nat.eq_zero_or_pos fuel with hf | hf
        · subst hf
          rw [pow_one] at hlt
          exact absurd hlt hn
        · exact hf
      have hlt' : n < 10 * 10 ^ fuel := by
        rw [pow_succ] at hlt
        omega
      have hdiv : n / 10 < 10 ^ fuel := Nat.div_lt_of_lt_mul hlt'
      simp only [h, if_false]
      rw [ih (n / 10) (Nat.digitChar (n % 10) :: ds) hdiv hfuel]
      conv_rhs => rw [natDigits]
      rw [if_neg hn, List.append_assoc]
      rfl

theorem toDigits_eq_natDigits (n : ℕ) : Nat.toDigits 10 n = natDigits n := by
  have h1 : n < 10 ^ (n + 1) := by
    calc n < 10 ^ n := Nat.lt_pow_self (by omega) n
      _ ≤ 10 ^ (n + 1) := Nat.pow_le_pow_right (by omega) (Nat.le_succ n)
  have := toDigitsCore_eq_natDigits (n + 1) n [] h1 (Nat.succ_pos n)
  rw [Nat.toDigits, this, List.append_nil]

theorem digVal_digitChar {n : ℕ} (h : n < 10) : digVal (Nat.digitChar n) = n := by
  interval_cases n <;> rfl

theorem valFrom_natDigits (n : ℕ) :
    ∀ a : ℕ, (natDigits n).foldl (fun acc c => 10 * acc + digVal c) a =
      a * 10 ^ (natDigits n).length + n := by
  induction n using Nat.strong_induction_on with
  | _ n ih =>
    intro a
    by_cases h : n < 10
    · rw [natDigits, if_pos h]
      simp [List.foldl, digVal_digitChar h, Nat.mul_comm]
    · rw [natDigits, if_neg h]
      rw [List.foldl_append]
      have hdiv : n / 10 < n := Nat.div_lt_self (by omega) (by omega)
      rw [ih (n / 10) hdiv a]
      simp only [List.foldl]
      rw [digVal_digitChar (Nat.mod_lt n (by omega))]
      rw [List.length_append, List.length_cons, List.length_nil]
      rw [pow_succ]
      have := Nat.div_add_mod n 10
      ring_nf
      omega

theorem natDigits_inj {m n : ℕ} (h : natDigits m = natDigits n) : m = n := by
  have hm := valFrom_natDigits m 0
  have hn := valFrom_natDigits n 0
  rw [h] at hm
  rw [hm] at hn
  simpa using hn

theorem nat_repr_inj {m n : ℕ} (h : Nat.repr m = Nat.repr n) : m = n := by
  have hdata : (Nat.toDigits 10 m) = (Nat.toDigits 10 n) := by
    have := congrArg String.data h
    simpa [Nat.repr, List.asString] using this
  rw [toDigits_eq_natDigits, toDigits_eq_natDigits] at hdata
  exact natDigits_inj hdata

theorem string_data_inj {s t : String} (h : s.data = t.data) : s = t := by
  cases s
  cases t
  simp only at h
  rw [h]

theorem string_append_nat_repr_inj (s : String) {m n : ℕ}
    (h : s ++ Nat.repr m = s ++ Nat.repr n) : m = n := by
  have hdata := congrArg String.data h
  simp only [String.data_append] at hdata
  exact nat_repr_inj (string_data_inj (List.append_cancel_left hdata))

/-! ## Lemmas: task lookup and successors -/

theorem mem_taskIds {tasks : List Task} {v : String} :
    v ∈ taskIds tasks ↔ ∃ t ∈ tasks, t.id = v := by
  simp [taskIds]

theorem taskIds_cons (a : Task) (rest : List Task) :
    taskIds (a :: rest) = a.id :: taskIds rest := rfl

theorem nodup_taskIds_cons {a : Task} {rest : List Task}
    (hids : (taskIds (a :: rest)).Nodup) :
    a.id ∉ taskIds rest ∧ (taskIds rest).Nodup := by
  rw [taskIds_cons] at hids
  exact ⟨(List.nodup_cons.mp hids).1, (List.nodup_cons.mp hids).2⟩

theorem findTask_cons (a : Task) (rest : List Task) (v : String) :
    findTask (a :: rest) v = if a.id = v then some a else findTask rest v := rfl

theorem findTask_some {tasks : List Task} {v : String} {t : Task}
    (h : findTask tasks v = some t) : t ∈ tasks ∧ t.id = v := by
  induction tasks with
  | nil => exact absurd h (by simp [findTask])
  | cons a rest ih =>
    rw [findTask_cons] at h
    by_cases ha : a.id = v
    · rw [if_pos ha] at h
      have := Option.some.inj h
      subst this
      exact ⟨List.mem_cons_self a rest, ha⟩
    · rw [if_neg ha] at h
      rcases ih h with ⟨h1, h2⟩
      exact ⟨List.mem_cons_of_mem a h1, h2⟩

theorem findTask_eq {tasks : List Task} (hids : (taskIds tasks).Nodup)
    {t : Task} (ht : t ∈ tasks) : findTask tasks t.id = some t := by
  induction tasks with
  | nil => simp at ht
  | cons a rest ih =>
    rcases List.mem_cons.mp ht with h1 | h1
    · subst h1
      simp [findTask, List.find?_cons]
    · have hids' : (taskIds rest).Nodup := (nodup_taskIds_cons hids).2
      have hane : a.id ≠ t.id := by
        intro hc
        have : a.id ∈ taskIds rest :=
          mem_taskIds.mpr ⟨t, h1, hc.symm⟩
        exact (nodup_taskIds_cons hids).1 this
      rw [findTask_cons, if_neg hane]
      exact ih hids' h1

theorem findTask_mem_isSome {tasks : List Task} {v : String}
    (h : v ∈ taskIds tasks) : ∃ t, findTask tasks v = some t ∧ t ∈ tasks ∧ t.id = v := by
  rcases mem_taskIds.mp h with ⟨t, ht, rfl⟩
  clear h
  induction tasks with
  | nil => simp at ht
  | cons a rest ih =>
    by_cases ha : a.id = t.id
    · refine ⟨a, ?_, List.mem_cons_self a rest, ha⟩
      rw [findTask_cons, if_pos ha]
    · rcases List.mem_cons.mp ht with h1 | h1
      · subst h1
        exact absurd rfl ha
      · rcases ih h1 with ⟨t', hf, hmem, hid⟩
        refine ⟨t', ?_, List.mem_cons_of_mem a hmem, hid⟩
        rw [findTask_cons, if_neg ha]
        exact hf

theorem predsOf_eq {tasks : List Task} (hids : (taskIds tasks).Nodup)
    {t : Task} (ht : t ∈ tasks) : predsOf tasks t.id = t.predecessors := by
  rw [predsOf, findTask_eq hids ht]
  rfl

theorem durOf_eq {tasks : List Task} (hids : (taskIds tasks).Nodup)
    {t : Task} (ht : t ∈ tasks) : durOf tasks t.id = t.duration := by
  rw [durOf, findTask_eq hids ht]
  rfl

theorem sigOfId_eq {tasks : List Task} (hids : (taskIds tasks).Nodup)
    {t : Task} (ht : t ∈ tasks) : sigOfId tasks t.id = sigOf t := by
  rw [sigOfId, findTask_eq hids ht]
  rfl

theorem mem_succOf {tasks : List Task} {u v : String}
    (h : v ∈ succOf tasks u) : v ∈ taskIds tasks := by
  rw [succOf] at h
  by_cases hu : u ∈ taskIds tasks
  · rw [if_pos hu] at h
    rcases List.mem_flatMap.mp h with ⟨w, hw, hv⟩
    rcases List.mem_map.mp hv with ⟨_, _, rfl⟩
    exact mem_taskIds.mpr ⟨w, hw, rfl⟩
  · rw [if_neg hu] at h
    simp at h

theorem count_map_const {α β : Type} [BEq β] [LawfulBEq β] [DecidableEq β]
    (l : List α) (c v : β) :
    ((l.map (fun _ => c)).count v) = if c = v then l.length else 0 := by
  induction l with
  | nil => simp
  | cons a l ih =>
    by_cases h : c = v
    · subst h
      simp only [List.map_cons, List.count_cons, ih, if_pos rfl, List.length_cons]
      simp
    · simp only [List.map_cons, List.count_cons, ih, if_neg h, List.length_cons]
      have : (c == v) = false := beq_eq_false_iff_ne.mpr h
      simp [this]

theorem count_succOf {tasks : List Task} (hids : (taskIds tasks).Nodup)
    {tv : Task} (htv : tv ∈ tasks) (u : String) (hu : u ∈ taskIds tasks) :
    (succOf tasks u).count tv.id = tv.predecessors.count u := by
  rw [succOf, if_pos hu]
  clear hu
  induction tasks with
  | nil => simp at htv
  | cons a rest ih =>
    have hids' : (taskIds rest).Nodup := (nodup_taskIds_cons hids).2
    rw [List.flatMap_cons, List.count_append]
    rcases List.mem_cons.mp htv with h1 | h1
    · subst h1
      have hrest : ∀ w ∈ rest, w.id ≠ tv.id := by
        intro w hw hc
        exact (nodup_taskIds_cons hids).1 (mem_taskIds.mpr ⟨w, hw, hc⟩)
      have hzero : (rest.flatMap (fun w =>
          (w.predecessors.filter (fun p => p == u)).map (fun _ => w.id))).count tv.id = 0 := by
        rw [List.count_eq_zero]
        intro hc
        rcases List.mem_flatMap.mp hc with ⟨w, hw, hv⟩
        rcases List.mem_map.mp hv with ⟨_, _, hid⟩
        exact hrest w hw hid
      rw [hzero, count_map_const, if_pos rfl, Nat.add_zero]
      have hc : List.count u tv.predecessors =
          tv.predecessors.countP (fun p => p == u) := rfl
      rw [hc, List.countP_eq_length_filter]
    · have hane : tv.id ≠ a.id := by
        intro hc
        exact (nodup_taskIds_cons hids).1 (mem_taskIds.mpr ⟨tv, h1, hc⟩)
      rw [count_map_const, if_neg (fun hc => hane hc.symm), ih hids' h1, Nat.zero_add]

theorem popCount_nil (tasks : List Task) (v : String) :
    popCount tasks [] v = 0 := rfl

theorem popCount_cons (tasks : List Task) (u : String) (topo : List String)
    (v : String) :
    popCount tasks (u :: topo) v = (succOf tasks u).count v + popCount tasks topo v := by
  simp [popCount]

theorem popCount_append (tasks : List Task) (topo topo' : List String)
    (v : String) :
    popCount tasks (topo ++ topo') v = popCount tasks topo v + popCount tasks topo' v := by
  simp [popCount]

theorem countP_mem_cons {l : List String} {u : String} {topo : List String}
    (hu : u ∉ topo) :
    l.countP (fun p => p ∈ u :: topo) =
      l.count u + l.countP (fun p => p ∈ topo) := by
  induction l with
  | nil => simp
  | cons a l ih =>
    rw [List.countP_cons, List.countP_cons, List.count_cons, ih]
    by_cases hau : a = u
    · subst hau
      have h1 : decide (a ∈ a :: topo) = true := by simp
      have h2 : decide (a ∈ topo) = false := by simpa using hu
      simp [h1, h2]
      omega
    · have h3 : (a == u) = false := beq_eq_false_iff_ne.mpr hau
      by_cases hat : a ∈ topo
      · have h1 : decide (a ∈ u :: topo) = true := by simp [hat]
        have h2 : decide (a ∈ topo) = true := by simpa using hat
        simp [h1, h2, h3]
        omega
      · have h1 : decide (a ∈ u :: topo) = false := by simp [hau, hat]
        have h2 : decide (a ∈ topo) = false := by simpa using hat
        simp [h1, h2, h3, hau]

theorem popCount_eq_countP {tasks : List Task} (hids : (taskIds tasks).Nodup)
    {tv : Task} (htv : tv ∈ tasks) :
    ∀ {topo : List String}, topo.Nodup → (∀ v ∈ topo, v ∈ taskIds tasks) →
      popCount tasks topo tv.id =
        tv.predecessors.countP (fun p => p ∈ topo) := by
  intro topo
  induction topo with
  | nil => intro _ _; simp [popCount_nil]
  | cons u topo ih =>
    intro hnd hsub
    have hu : u ∈ taskIds tasks := hsub u (List.mem_cons_self u topo)
    rw [popCount_cons, count_succOf hids htv u hu,
      countP_mem_cons (List.nodup_cons.mp hnd).1,
      ih (List.nodup_cons.mp hnd).2 (fun v hv => hsub v (List.mem_cons_of_mem u hv))]

theorem popCount_le_length {tasks : List Task} (hids : (taskIds tasks).Nodup)
    {tv : Task} (htv : tv ∈ tasks) {topo : List String} (hnd : topo.Nodup)
    (hsub : ∀ v ∈ topo, v ∈ taskIds tasks) :
    popCount tasks topo tv.id ≤ tv.predecessors.length := by
  rw [popCount_eq_countP hids htv hnd hsub]
  exact List.countP_le_length _

theorem nodup_snoc {α : Type} {l : List α} {x : α} (hl : l.Nodup) (hx : x ∉ l) :
    (l ++ [x]).Nodup := by
  rw [List.nodup_append]
  refine ⟨hl, List.nodup_singleton x, ?_⟩
  intro a ha hax
  rw [List.mem_singleton] at hax
  exact hx (hax ▸ ha)

theorem taskId_inj {tasks : List Task} (hids : (taskIds tasks).Nodup)
    {t t' : Task} (ht : t ∈ tasks) (ht' : t' ∈ tasks) (h : t.id = t'.id) :
    t = t' := by
  have h1 := findTask_eq hids ht
  have h2 := findTask_eq hids ht'
  rw [h] at h1
  rw [h1] at h2
  exact Option.some.inj h2

/-! ## Lemmas: the Kahn loop invariant -/

theorem kahnVisit_midInv {tasks : List Task} (hids : (taskIds tasks).Nodup) :
    ∀ (ws : List String) (deg : List (String × Int)) (queue topo : List String),
      KahnMidInv tasks deg queue topo ws →
      KahnMidInv tasks (kahnVisit deg queue ws).1 (kahnVisit deg queue ws).2
        topo [] := by
  intro ws
  induction ws with
  | nil => intro deg queue topo h; exact h
  | cons w ws ih =>
    intro deg queue topo inv
    have hw : w ∈ taskIds tasks := inv.wsSub w (List.mem_cons_self w ws)
    rcases findTask_mem_isSome hw with ⟨tw, hfw, htw, hidw⟩
    subst hidw
    have hnodupTopo : topo.Nodup := (List.nodup_append.mp inv.nodup).1
    have hsubTopo := inv.subTopo
    have hdegw := inv.degEq tw htw
    have hcnt : List.count tw.id (tw.id :: ws) = List.count tw.id ws + 1 :=
      List.count_cons_self _ _
    rw [kahnVisit]
    have hgetD : (alookup deg tw.id).getD 0 =
        (tw.predecessors.length : Int) - popCount tasks topo tw.id
          + List.count tw.id (tw.id :: ws) := by
      rw [hdegw]
      rfl
    set d : Int := (alookup deg tw.id).getD 0 - 1 with hd
    have hdval : d = (tw.predecessors.length : Int) - popCount tasks topo tw.id
        + List.count tw.id ws := by
      rw [hd, hgetD, hcnt]
      push_cast
      ring
    set deg' : List (String × Int) := aset deg tw.id d with hdeg'
    have hdegKeys' : deg'.map Prod.fst = taskIds tasks := by
      rw [hdeg', aset_keys]
      exact inv.degKeys
    have hcount_ne : ∀ t : Task, t.id ≠ tw.id →
        List.count t.id (tw.id :: ws) = List.count t.id ws := by
      intro t hne
      have hb : (tw.id == t.id) = false :=
        beq_eq_false_iff_ne.mpr (fun hc => hne hc.symm)
      rw [List.count_cons, hb]
      simp
    have hlookup' : ∀ t ∈ tasks, alookup deg' t.id =
        some ((t.predecessors.length : Int) - popCount tasks topo t.id
          + ws.count t.id) := by
      intro t ht
      by_cases hne : t.id = tw.id
      · have heq : t = tw := taskId_inj hids ht htw hne
        subst heq
        rw [hdeg', alookup_aset, if_pos rfl, hdegw]
        have hmap : Option.map (fun _ : Int => d)
            (some ((t.predecessors.length : Int) - popCount tasks topo t.id
              + List.count t.id (t.id :: ws))) = some d := rfl
        rw [hmap, hdval]
      · rw [hdeg', alookup_aset, if_neg hne, inv.degEq t ht, hcount_ne t hne]
    by_cases hdz : d = 0
    · -- the node reaches in-degree zero and is enqueued
      rw [if_pos hdz]
      have hnotmem : ¬(tw.id ∈ topo ∨ tw.id ∈ queue) := by
        rw [inv.memIff tw htw]
        have : (tw.predecessors.length : Int) - popCount tasks topo tw.id
            + List.count tw.id (tw.id :: ws) = d + 1 := by
          rw [hdval, hcnt]
          push_cast
          ring
        rw [this, hdz]
        omega
      have hwnot : tw.id ∉ topo ++ queue := by
        intro hc
        exact hnotmem (List.mem_append.mp hc)
      have hple := popCount_le_length hids htw hnodupTopo hsubTopo
      have hzero : ws.count tw.id = 0 ∧
          popCount tasks topo tw.id = tw.predecessors.length := by
        rw [hdz] at hdval
        omega
      have hallpred : ∀ p ∈ tw.predecessors, p ∈ topo := by
        have hpc := popCount_eq_countP hids htw hnodupTopo hsubTopo
        rw [hzero.2] at hpc
        have hlen := List.countP_eq_length.mp hpc.symm
        intro p hp
        exact of_decide_eq_true (hlen p hp)
      refine ih deg' (queue ++ [tw.id]) topo
        ⟨hdegKeys', ?_, inv.subTopo, ?_, ?_, hlookup', ?_, ?_, inv.tpreds⟩
      · rw [← List.append_assoc]
        exact nodup_snoc inv.nodup hwnot
      · intro v hv
        rcases List.mem_append.mp hv with h1 | h1
        · exact inv.subQueue v h1
        · rw [List.mem_singleton.mp h1]
          exact hw
      · intro v hv
        exact inv.wsSub v (List.mem_cons_of_mem _ hv)
      · intro t ht
        by_cases hne : t.id = tw.id
        · have heq : t = tw := taskId_inj hids ht htw hne
          subst heq
          constructor
          · intro _
            rw [← hdval, hdz]
          · intro _
            right
            exact List.mem_append.mpr (Or.inr (List.mem_singleton.mpr rfl))
        · constructor
          · intro hmem
            have hmem2 : t.id ∈ topo ∨ t.id ∈ queue := by
              rcases hmem with h1 | h1
              · exact Or.inl h1
              · rcases List.mem_append.mp h1 with h2 | h2
                · exact Or.inr h2
                · exact absurd (List.mem_singleton.mp h2) hne
            have := (inv.memIff t ht).mp hmem2
            rw [hcount_ne t hne] at this
            exact this
          · intro hle
            have := (inv.memIff t ht).mpr (by rw [hcount_ne t hne]; exact hle)
            rcases this with h1 | h1
            · exact Or.inl h1
            · exact Or.inr (List.mem_append.mpr (Or.inl h1))
      · intro v hv p hp
        rcases List.mem_append.mp hv with h1 | h1
        · exact inv.qpreds v h1 p hp
        · rw [List.mem_singleton.mp h1] at hp
          rw [predsOf_eq hids htw] at hp
          exact hallpred p hp
    · -- no enqueue: the degree stays away from zero
      rw [if_neg hdz]
      refine ih deg' queue topo
        ⟨hdegKeys', inv.nodup, inv.subTopo, inv.subQueue, ?_, hlookup', ?_,
          inv.qpreds, inv.tpreds⟩
      · intro v hv
        exact inv.wsSub v (List.mem_cons_of_mem _ hv)
      · intro t ht
        by_cases hne : t.id = tw.id
        · have heq : t = tw := taskId_inj hids ht htw hne
          subst heq
          constructor
          · intro hmem
            have h2 := (inv.memIff _ ht).mp hmem
            rw [hcnt] at h2
            push_cast at h2 ⊢
            omega
          · intro hle
            apply (inv.memIff _ ht).mpr
            rw [hcnt]
            push_cast at hle hdval ⊢
            omega
        · rw [inv.memIff t ht, hcount_ne t hne]

theorem kahnMidInv_nil {tasks : List Task} {deg : List (String × Int)}
    {queue topo : List String} (inv : KahnMidInv tasks deg queue topo []) :
    KahnInv tasks deg queue topo := by
  refine ⟨inv.degKeys, inv.nodup, inv.subTopo, inv.subQueue, ?_, ?_,
    inv.qpreds, inv.tpreds⟩
  · intro t ht
    have := inv.degEq t ht
    simpa using this
  · intro t ht
    have := inv.memIff t ht
    simpa using this

theorem kahnInv_pop {tasks : List Task} (hids : (taskIds tasks).Nodup)
    {deg : List (String × Int)} {u : String} {rest topo : List String}
    (inv : KahnInv tasks deg (u :: rest) topo) :
    KahnMidInv tasks deg rest (topo ++ [u]) (succOf tasks u) := by
  have hu : u ∈ taskIds tasks := inv.subQueue u (List.mem_cons_self u rest)
  have hassoc : (topo ++ [u]) ++ rest = topo ++ (u :: rest) := by
    rw [List.append_assoc]
    rfl
  have hunot : u ∉ topo := by
    have hnd := inv.nodup
    rw [List.nodup_append] at hnd
    intro hc
    exact hnd.2.2 hc (List.mem_cons_self u rest)
  have hpc : ∀ v : String, popCount tasks (topo ++ [u]) v =
      popCount tasks topo v + (succOf tasks u).count v := by
    intro v
    rw [popCount_append]
    simp [popCount]
  refine ⟨inv.degKeys, ?_, ?_, ?_, ?_, ?_, ?_, ?_, ?_⟩
  · rw [hassoc]
    exact inv.nodup
  · intro v hv
    rcases List.mem_append.mp hv with h1 | h1
    · exact inv.subTopo v h1
    · rw [List.mem_singleton.mp h1]
      exact hu
  · intro v hv
    exact inv.subQueue v (List.mem_cons_of_mem u hv)
  · intro w hw
    exact mem_succOf hw
  · intro t ht
    rw [inv.degEq t ht, hpc]
    congr 1
    push_cast
    ring
  · intro t ht
    have hval : (t.predecessors.length : Int) - popCount tasks (topo ++ [u]) t.id
        + (succOf tasks u).count t.id =
        (t.predecessors.length : Int) - popCount tasks topo t.id := by
      rw [hpc]
      push_cast
      ring
    rw [hval]
    have hsets : (t.id ∈ topo ++ [u] ∨ t.id ∈ rest) ↔
        (t.id ∈ topo ∨ t.id ∈ u :: rest) := by
      constructor
      · rintro (h1 | h1)
        · rcases List.mem_append.mp h1 with h2 | h2
          · exact Or.inl h2
          · exact Or.inr (List.mem_singleton.mp h2 ▸ List.mem_cons_self u rest)
        · exact Or.inr (List.mem_cons_of_mem u h1)
      · rintro (h1 | h1)
        · exact Or.inl (List.mem_append.mpr (Or.inl h1))
        · rcases List.mem_cons.mp h1 with h2 | h2
          · exact Or.inl (List.mem_append.mpr (Or.inr (by simp [h2])))
          · exact Or.inr h2
    rw [hsets]
    exact inv.memIff t ht
  · intro v hv p hp
    exact List.mem_append.mpr (Or.inl (inv.qpreds v (List.mem_cons_of_mem u hv) p hp))
  · intro v hv p hp
    rcases List.mem_append.mp hv with h1 | h1
    · rcases inv.tpreds v h1 p hp with ⟨hp1, hp2⟩
      refine ⟨List.mem_append.mpr (Or.inl hp1), ?_⟩
      rw [idx_append_left [u] hp1, idx_append_left [u] h1]
      exact hp2
    · rw [List.mem_singleton.mp h1] at hp ⊢
      have hptopo := inv.qpreds u (List.mem_cons_self u rest) p hp
      refine ⟨List.mem_append.mpr (Or.inl hptopo), ?_⟩
      rw [idx_append_left [u] hptopo, idx_append_not_mem [u] hunot,
        idx_cons_self]
      have := idx_lt_of_mem (x := p) hptopo
      omega

theorem kahnLoop_inv {tasks : List Task} (hids : (taskIds tasks).Nodup) :
    ∀ (fuel : ℕ) (deg : List (String × Int)) (queue topo : List String),
      KahnInv tasks deg queue topo →
      ∃ deg' queue', KahnInv tasks deg' queue'
        (kahnLoop tasks fuel deg queue topo) := by
  intro fuel
  induction fuel with
  | zero =>
    intro deg queue topo h
    exact ⟨deg, queue, h⟩
  | succ fuel ih =>
    intro deg queue topo h
    cases queue with
    | nil => exact ⟨deg, [], h⟩
    | cons u rest =>
      have hmid := kahnVisit_midInv hids (succOf tasks u) deg rest (topo ++ [u])
        (kahnInv_pop hids h)
      exact ih _ _ _ (kahnMidInv_nil hmid)

theorem alookup_map_tasks {tasks : List Task} {α : Type}
    (hids : (taskIds tasks).Nodup) (f : Task → α) {t : Task} (ht : t ∈ tasks) :
    alookup (tasks.map (fun t => (t.id, f t))) t.id = some (f t) := by
  induction tasks with
  | nil => simp at ht
  | cons a rest ih =>
    rw [List.map_cons, alookup_cons]
    rcases List.mem_cons.mp ht with h1 | h1
    · subst h1
      rw [if_pos rfl]
    · have hne : a.id ≠ t.id := by
        intro hc
        exact (nodup_taskIds_cons hids).1 (mem_taskIds.mpr ⟨t, h1, hc.symm⟩)
      rw [if_neg hne]
      exact ih (nodup_taskIds_cons hids).2 h1

theorem kahnInv_init {tasks : List Task} (hids : (taskIds tasks).Nodup) :
    KahnInv tasks (tasks.map (fun t => (t.id, (t.predecessors.length : Int))))
      ((tasks.filter (fun t => t.predecessors.isEmpty)).map (·.id)) [] := by
  refine ⟨?_, ?_, ?_, ?_, ?_, ?_, ?_, ?_⟩
  · rw [List.map_map]
    rfl
  · rw [List.nil_append]
    have hsub : List.Sublist
        ((tasks.filter (fun t => t.predecessors.isEmpty)).map (·.id))
        (taskIds tasks) :=
      (List.filter_sublist tasks).map (·.id)
    exact hsub.nodup hids
  · intro v hv
    simp at hv
  · intro v hv
    rcases List.mem_map.mp hv with ⟨t, ht, rfl⟩
    exact mem_taskIds.mpr ⟨t, (List.mem_filter.mp ht).1, rfl⟩
  · intro t ht
    rw [alookup_map_tasks hids _ ht]
    simp [popCount_nil]
  · intro t ht
    simp only [List.not_mem_nil, false_or]
    rw [popCount_nil]
    constructor
    · intro hmem
      rcases List.mem_map.mp hmem with ⟨t', ht', hid⟩
      have ht'2 := List.mem_filter.mp ht'
      have : t' = t := taskId_inj hids ht'2.1 ht hid
      subst this
      have : t'.predecessors = [] := by
        simpa [List.isEmpty_iff] using ht'2.2
      simp [this]
    · intro hle
      have : t.predecessors.length = 0 := by omega
      have hempty : t.predecessors = [] := List.length_eq_zero.mp this
      refine List.mem_map.mpr ⟨t, List.mem_filter.mpr ⟨ht, ?_⟩, rfl⟩
      simp [hempty]
  · intro v hv p hp
    rcases List.mem_map.mp hv with ⟨t, ht, rfl⟩
    have ht2 := List.mem_filter.mp ht
    have hempty : t.predecessors = [] := by
      simpa [List.isEmpty_iff] using ht2.2
    rw [predsOf_eq hids ht2.1, hempty] at hp
    simp at hp
  · intro v hv
    simp at hv

theorem getTopo_cases (tasks : List Task) :
    (∃ order, getTopologicalSort tasks = .ok order) ∨
      getTopologicalSort tasks = .error .cycleDetected := by
  rw [getTopologicalSort]
  by_cases h : (kahnLoop tasks (kahnFuel tasks)
      (tasks.map (fun t => (t.id, (t.predecessors.length : Int))))
      ((tasks.filter (fun t => t.predecessors.isEmpty)).map (·.id))
      []).length = tasks.length
  · left
    exact ⟨_, by rw [if_pos h]⟩
  · right
    rw [if_neg h]

theorem getTopo_ok_inv {tasks : List Task} (hids : (taskIds tasks).Nodup)
    {order : List String} (h : getTopologicalSort tasks = .ok order) :
    (∃ deg' queue', KahnInv tasks deg' queue' order) ∧
      order.length = tasks.length := by
  rw [getTopologicalSort] at h
  by_cases hlen : (kahnLoop tasks (kahnFuel tasks)
      (tasks.map (fun t => (t.id, (t.predecessors.length : Int))))
      ((tasks.filter (fun t => t.predecessors.isEmpty)).map (·.id))
      []).length = tasks.length
  · rw [if_pos hlen] at h
    have horder := Except.ok.inj h
    subst horder
    exact ⟨kahnLoop_inv hids _ _ _ _ (kahnInv_init hids), hlen⟩
  · rw [if_neg hlen] at h
    exact absurd h (by simp)

theorem topo_facts {tasks : List Task} (hids : (taskIds tasks).Nodup)
    {order : List String} (h : getTopologicalSort tasks = .ok order) :
    order.Nodup ∧ (∀ v ∈ order, v ∈ taskIds tasks) ∧
      (∀ v ∈ taskIds tasks, v ∈ order) ∧
      (∀ t ∈ tasks, ∀ p ∈ t.predecessors, p ∈ taskIds tasks ∧ p ∈ order ∧
        order.indexOf p < order.indexOf t.id) := by
  rcases getTopo_ok_inv hids h with ⟨⟨deg', queue', inv⟩, hlen⟩
  have hnd : order.Nodup := (List.nodup_append.mp inv.nodup).1
  have hsub : ∀ v ∈ order, v ∈ taskIds tasks := inv.subTopo
  have hlen2 : (taskIds tasks).length = order.length := by
    rw [hlen]
    simp [taskIds]
  have hperm : order.Perm (taskIds tasks) :=
    (hnd.subperm (fun v hv => hsub v hv)).perm_of_length_le (le_of_eq hlen2)
  have hcompl : ∀ v ∈ taskIds tasks, v ∈ order := fun v hv => hperm.mem_iff.mpr hv
  refine ⟨hnd, hsub, hcompl, ?_⟩
  intro t ht p hp
  have htid : t.id ∈ order := hcompl t.id (mem_taskIds.mpr ⟨t, ht, rfl⟩)
  have := inv.tpreds t.id htid p (by rw [predsOf_eq hids ht]; exact hp)
  exact ⟨hsub p this.1, this.1, this.2⟩

theorem getTopo_unknown_pred {tasks : List Task} (hids : (taskIds tasks).Nodup)
    {t : Task} {p : String} (ht : t ∈ tasks) (hp : p ∈ t.predecessors)
    (hnp : p ∉ taskIds tasks) :
    getTopologicalSort tasks = .error .cycleDetected := by
  rcases getTopo_cases tasks with ⟨order, hok⟩ | herr
  · exfalso
    have := (topo_facts hids hok).2.2.2 t ht p hp
    exact hnp this.1
  · exact herr

theorem getTopo_ok_no_cycle {tasks : List Task} (hids : (taskIds tasks).Nodup)
    {order : List String} (h : getTopologicalSort tasks = .ok order) :
    ¬hasCycle tasks := by
  rintro ⟨u, c, hchain⟩
  have facts := topo_facts hids h
  have hedge : ∀ a b, edgeRel tasks a b → order.indexOf a < order.indexOf b := by
    rintro a b ⟨t, ht, rfl, hab⟩
    exact (facts.2.2.2 t ht a hab).2.2
  have hkey : ∀ (l : List String) (x : String),
      List.Chain (edgeRel tasks) x (l ++ [u]) →
      order.indexOf x < order.indexOf u := by
    intro l
    induction l with
    | nil =>
      intro x hch
      rw [List.nil_append] at hch
      exact hedge x u (List.chain_cons.mp hch).1
    | cons v l ih =>
      intro x hch
      rw [List.cons_append] at hch
      rcases List.chain_cons.mp hch with ⟨h1, h2⟩
      exact Nat.lt_trans (hedge x v h1) (ih v h2)
  exact Nat.lt_irrefl _ (hkey c u hchain)

theorem getTopo_cycle {tasks : List Task} (hids : (taskIds tasks).Nodup)
    (hcyc : hasCycle tasks) :
    getTopologicalSort tasks = .error .cycleDetected := by
  rcases getTopo_cases tasks with ⟨order, hok⟩ | herr
  · exact absurd hcyc (getTopo_ok_no_cycle hids hok)
  · exact herr

/-! ## Lemmas: positions in a duplicate-free order -/

theorem mem_prefix_of_idx_lt {l l1 l2 : List String} {x y : String}
    (hnd : l.Nodup) (hsplit : l = l1 ++ x :: l2) (hy : y ∈ l)
    (hidx : l.indexOf y < l.indexOf x) : y ∈ l1 := by
  subst hsplit
  have hxnot : x ∉ l1 := by
    intro hc
    rw [List.nodup_append] at hnd
    exact hnd.2.2 hc (List.mem_cons_self x l2)
  have hxidx : (l1 ++ x :: l2).indexOf x = l1.length := by
    rw [idx_append_not_mem _ hxnot, idx_cons_self]
    omega
  by_contra hnot
  have hyx : y ≠ x := by
    intro hc
    subst hc
    exact Nat.lt_irrefl _ hidx
  have : (l1 ++ x :: l2).indexOf y = l1.length + (x :: l2).indexOf y := by
    rw [idx_append_not_mem _ hnot]
  rw [this, hxidx] at hidx
  omega

theorem mem_suffix_of_idx_lt {l l1 l2 : List String} {x y : String}
    (hnd : l.Nodup) (hsplit : l = l1 ++ x :: l2) (hy : y ∈ l)
    (hidx : l.indexOf x < l.indexOf y) : y ∈ l2 := by
  subst hsplit
  have hxnot : x ∉ l1 := by
    intro hc
    rw [List.nodup_append] at hnd
    exact hnd.2.2 hc (List.mem_cons_self x l2)
  have hxidx : (l1 ++ x :: l2).indexOf x = l1.length := by
    rw [idx_append_not_mem _ hxnot, idx_cons_self]
    omega
  have hyne : y ≠ x := by
    intro hc
    subst hc
    exact Nat.lt_irrefl _ hidx
  by_cases hy1 : y ∈ l1
  · have : (l1 ++ x :: l2).indexOf y = l1.indexOf y := idx_append_left _ hy1
    have hlt := idx_lt_of_mem hy1
    rw [this, hxidx] at hidx
    omega
  · rcases List.mem_append.mp hy with hc | hc
    · exact absurd hc hy1
    · rcases List.mem_cons.mp hc with hc2 | hc2
      · exact absurd hc2 hyne
      · exact hc2

/-! ## Lemmas: folds of `max` and `min` -/

theorem foldl_max_init_le (l : List ℚ) (a : ℚ) : a ≤ l.foldl max a := by
  induction l generalizing a with
  | nil => exact le_refl a
  | cons x l ih => exact le_trans (le_max_left a x) (ih (max a x))

theorem foldl_max_le_of_mem {l : List ℚ} {x : ℚ} (hx : x ∈ l) (a : ℚ) :
    x ≤ l.foldl max a := by
  induction l generalizing a with
  | nil => simp at hx
  | cons y l ih =>
    rcases List.mem_cons.mp hx with h1 | h1
    · subst h1
      exact le_trans (le_max_right a x) (foldl_max_init_le l (max a x))
    · exact ih h1 (max a y)

theorem foldl_max_cases (l : List ℚ) (a : ℚ) :
    l.foldl max a = a ∨ l.foldl max a ∈ l := by
  induction l generalizing a with
  | nil => exact Or.inl rfl
  | cons x l ih =>
    rw [List.foldl_cons]
    rcases ih (max a x) with h1 | h1
    · rcases max_cases a x with ⟨hm, _⟩ | ⟨hm, _⟩
      · exact Or.inl (by rw [h1, hm])
      · refine Or.inr ?_
        rw [h1, hm]
        exact List.mem_cons_self x l
    · exact Or.inr (List.mem_cons_of_mem x h1)

/-! ## Lemmas: reference validation -/

theorem validatePreds_ok_iff (tasks : List Task) (tid : String) :
    ∀ preds : List String,
      (validatePreds tasks tid preds = .ok () ↔
        ∀ p ∈ preds, p ∈ taskIds tasks) := by
  intro preds
  induction preds with
  | nil => simp [validatePreds]
  | cons p ps ih =>
    rw [validatePreds]
    by_cases hp : p ∈ taskIds tasks
    · rw [if_pos hp]
      rw [ih]
      constructor
      · intro hall q hq
        rcases List.mem_cons.mp hq with h1 | h1
        · exact h1 ▸ hp
        · exact hall q h1
      · intro hall q hq
        exact hall q (List.mem_cons_of_mem p hq)
    · rw [if_neg hp]
      constructor
      · intro hc
        exact absurd hc (by simp)
      · intro hall
        exact absurd (hall p (List.mem_cons_self p ps)) hp

theorem validatePreds_error (tasks : List Task) (tid : String) :
    ∀ preds : List String, ∀ e, validatePreds tasks tid preds = .error e →
      ∃ p ∈ preds, e = .unknownPredecessor tid p ∧ p ∉ taskIds tasks := by
  intro preds
  induction preds with
  | nil => intro e he; simp [validatePreds] at he
  | cons p ps ih =>
    intro e he
    rw [validatePreds] at he
    by_cases hp : p ∈ taskIds tasks
    · rw [if_pos hp] at he
      rcases ih e he with ⟨q, hq, hqe, hqn⟩
      exact ⟨q, List.mem_cons_of_mem p hq, hqe, hqn⟩
    · rw [if_neg hp] at he
      exact ⟨p, List.mem_cons_self p ps,
        (Except.error.inj he).symm, hp⟩

theorem validateDependenciesAux_ok_iff (tasks : List Task) :
    ∀ ts : List Task,
      (validateDependenciesAux tasks ts = .ok () ↔
        ∀ t ∈ ts, ∀ p ∈ t.predecessors, p ∈ taskIds tasks) := by
  intro ts
  induction ts with
  | nil => simp [validateDependenciesAux]
  | cons t ts ih =>
    rcases hv : validatePreds tasks t.id t.predecessors with e | u
    · simp only [validateDependenciesAux, hv, except_bind_error]
      constructor
      · intro hc
        exact absurd hc (by simp)
      · intro hall
        exfalso
        have hok : validatePreds tasks t.id t.predecessors = .ok () :=
          (validatePreds_ok_iff tasks t.id t.predecessors).mpr
            (hall t (List.mem_cons_self t ts))
        rw [hok] at hv
        exact Except.noConfusion hv
    · simp only [validateDependenciesAux, hv, except_bind_ok]
      rw [ih]
      have htok : ∀ p ∈ t.predecessors, p ∈ taskIds tasks := by
        apply (validatePreds_ok_iff tasks t.id t.predecessors).mp
        rw [hv]
      constructor
      · intro hall t' ht'
        rcases List.mem_cons.mp ht' with h1 | h1
        · subst h1
          exact htok
        · exact hall t' h1
      · intro hall t' ht'
        exact hall t' (List.mem_cons_of_mem t ht')

theorem validateDependencies_ok_iff (tasks : List Task) :
    validateDependencies tasks = .ok () ↔
      ∀ t ∈ tasks, ∀ p ∈ t.predecessors, p ∈ taskIds tasks := by
  rw [validateDependencies]
  exact validateDependenciesAux_ok_iff tasks tasks

theorem validateDependencies_error_of_unknown {tasks : List Task}
    (hbad : ∃ t ∈ tasks, ∃ p ∈ t.predecessors, p ∉ taskIds tasks) :
    ∃ tid p, validateDependencies tasks = .error (.unknownPredecessor tid p) ∧
      p ∉ taskIds tasks := by
  rcases hres : validateDependencies tasks with e | u
  · -- some error was raised: show it is an unknown-predecessor error
    have H : ∀ ts : List Task, ∀ e, validateDependenciesAux tasks ts = .error e →
        ∃ tid p, e = PertError.unknownPredecessor tid p ∧ p ∉ taskIds tasks := by
      intro ts
      induction ts with
      | nil => intro e he; simp [validateDependenciesAux] at he
      | cons t ts ih =>
        intro e he
        rcases hv : validatePreds tasks t.id t.predecessors with e' | u
        · simp only [validateDependenciesAux, hv, except_bind_error] at he
          rcases validatePreds_error tasks t.id t.predecessors e' hv with
            ⟨p, _, hpe, hpn⟩
          exact ⟨t.id, p, (Except.error.inj he).symm ▸ hpe, hpn⟩
        · simp only [validateDependenciesAux, hv, except_bind_ok] at he
          exact ih e he
    rw [validateDependencies] at hres
    rcases H tasks e hres with ⟨tid, p, rfl, hpn⟩
    exact ⟨tid, p, rfl, hpn⟩
  · exfalso
    rcases hbad with ⟨t, ht, p, hp, hpn⟩
    have := (validateDependencies_ok_iff tasks).mp (by
      rcases u with _
      exact hres)
    exact hpn (this t ht p hp)

/-! ## Lemmas: the forward pass -/

theorem alookup_mem_of_key {α : Type} {rows : List (String × α)} {k : String}
    (h : k ∈ rows.map Prod.fst) : ∃ v, alookup rows k = some v := by
  have hs := (alookup_isSome_iff rows k).mpr h
  rcases hres : alookup rows k with _ | v
  · rw [hres] at hs
    simp at hs
  · exact ⟨v, rfl⟩

theorem alookup_key_of_some {α : Type} {rows : List (String × α)} {k : String}
    {v : α} (h : alookup rows k = some v) : k ∈ rows.map Prod.fst := by
  have : (alookup rows k).isSome := by rw [h]; rfl
  exact (alookup_isSome_iff rows k).mp this

theorem alookup_of_mem_nodup {α : Type} {rows : List (String × α)}
    (hnd : (rows.map Prod.fst).Nodup) {k : String} {v : α}
    (h : (k, v) ∈ rows) : alookup rows k = some v := by
  induction rows with
  | nil => simp at h
  | cons kv rows ih =>
    rcases List.mem_cons.mp h with h1 | h1
    · rw [← h1, alookup_cons, if_pos rfl]
    · rw [alookup_cons]
      have hk : k ∈ rows.map Prod.fst := by
        exact List.mem_map.mpr ⟨(k, v), h1, rfl⟩
      have hne : kv.1 ≠ k := by
        intro hc
        exact (List.nodup_cons.mp hnd).1 (hc ▸ hk)
      rw [if_neg hne]
      exact ih (List.nodup_cons.mp hnd).2 h1

theorem esSpec_stable {rows ext : List (String × ℚ × ℚ)} {preds : List String}
    (h : ∀ p ∈ preds, p ∈ rows.map Prod.fst) :
    esSpec (rows ++ ext) preds = esSpec rows preds := by
  rw [esSpec, esSpec]
  suffices H : ∀ (ps : List String) (acc : ℚ), (∀ p ∈ ps, p ∈ rows.map Prod.fst) →
      ps.foldl (fun acc p =>
        match alookup (rows ++ ext) p with
        | some sf => max acc sf.2
        | none => acc) acc =
      ps.foldl (fun acc p =>
        match alookup rows p with
        | some sf => max acc sf.2
        | none => acc) acc from H preds 0 h
  intro ps
  induction ps with
  | nil => intro acc _; rfl
  | cons p ps ih =>
    intro acc hall
    rcases alookup_mem_of_key (hall p (List.mem_cons_self p ps)) with ⟨v, hv⟩
    rw [List.foldl_cons, List.foldl_cons, hv, alookup_append_left ext hv]
    exact ih _ (fun q hq => hall q (List.mem_cons_of_mem p hq))

theorem esSpec_eq_map_foldl {rows : List (String × ℚ × ℚ)} {preds : List String}
    (h : ∀ p ∈ preds, p ∈ rows.map Prod.fst) :
    esSpec rows preds =
      (preds.map (fun p => ((alookup rows p).getD (0, 0)).2)).foldl max 0 := by
  rw [esSpec]
  suffices H : ∀ (ps : List String) (acc : ℚ), (∀ p ∈ ps, p ∈ rows.map Prod.fst) →
      ps.foldl (fun acc p =>
        match alookup rows p with
        | some sf => max acc sf.2
        | none => acc) acc =
      (ps.map (fun p => ((alookup rows p).getD (0, 0)).2)).foldl max acc from
    H preds 0 h
  intro ps
  induction ps with
  | nil => intro acc _; rfl
  | cons p ps ih =>
    intro acc hall
    rcases alookup_mem_of_key (hall p (List.mem_cons_self p ps)) with ⟨v, hv⟩
    rw [List.foldl_cons, List.map_cons, List.foldl_cons, hv]
    have : ((some v).getD ((0 : ℚ), (0 : ℚ))).2 = v.2 := rfl
    rw [this]
    exact ih _ (fun q hq => hall q (List.mem_cons_of_mem p hq))

theorem mem_processed_closure {order processed l : List String}
    (hnd : order.Nodup) (hsplit : order = processed ++ l) {a b : String}
    (ha : a ∈ processed) (hb : b ∈ order)
    (hidx : order.indexOf b < order.indexOf a) : b ∈ processed := by
  have halen : order.indexOf a < processed.length := by
    rw [hsplit, idx_append_left _ ha]
    exact idx_lt_of_mem ha
  by_contra hbnot
  have hbl : b ∈ l := by
    rw [hsplit] at hb
    rcases List.mem_append.mp hb with h1 | h1
    · exact absurd h1 hbnot
    · exact h1
  have : order.indexOf b = processed.length + l.indexOf b := by
    rw [hsplit, idx_append_not_mem _ hbnot]
  omega

theorem earliest_fold_spec {tasks : List Task} (hids : (taskIds tasks).Nodup)
    (hval : ∀ t ∈ tasks, ∀ p ∈ t.predecessors, p ∈ taskIds tasks)
    {order : List String} (horder : getTopologicalSort tasks = .ok order) :
    ∀ (l processed : List String) (rows : List (String × ℚ × ℚ)),
      order = processed ++ l →
      rows.map Prod.fst = processed →
      (∀ t ∈ tasks, ∀ v, alookup rows t.id = some v →
        v = (esSpec rows t.predecessors,
             esSpec rows t.predecessors + t.duration)) →
      ((l.foldl (earliestRow tasks) rows).map Prod.fst = processed ++ l ∧
        (∀ t ∈ tasks, ∀ v,
          alookup (l.foldl (earliestRow tasks) rows) t.id = some v →
          v = (esSpec (l.foldl (earliestRow tasks) rows) t.predecessors,
               esSpec (l.foldl (earliestRow tasks) rows) t.predecessors
                 + t.duration))) := by
  have hfacts := topo_facts hids horder
  intro l
  induction l with
  | nil =>
    intro processed rows hsplit hkeys hself
    rw [List.foldl_nil]
    exact ⟨by rw [hkeys, List.append_nil], hself⟩
  | cons tid l ih =>
    intro processed rows hsplit hkeys hself
    have hnd : order.Nodup := hfacts.1
    have htidmem : tid ∈ order := by
      rw [hsplit]
      exact List.mem_append.mpr (Or.inr (List.mem_cons_self tid l))
    have htid : tid ∈ taskIds tasks := hfacts.2.1 tid htidmem
    rcases findTask_mem_isSome htid with ⟨tcur, hfcur, htcur, hidcur⟩
    have htidnot : tid ∉ processed := by
      intro hc
      rw [hsplit, List.nodup_append] at hnd
      exact hnd.2.2 hc (List.mem_cons_self tid l)
    -- all predecessors of the current task are already processed
    have hpreds_proc : ∀ p ∈ tcur.predecessors, p ∈ processed := by
      intro p hp
      have hfact := hfacts.2.2.2 tcur htcur p hp
      rw [hidcur] at hfact
      exact mem_prefix_of_idx_lt hnd hsplit
        (hfacts.2.2.1 p (hfact.1)) hfact.2.2
    -- the appended row
    have hrow : earliestRow tasks rows tid =
        rows ++ [(tid, esSpec rows tcur.predecessors,
          esSpec rows tcur.predecessors + tcur.duration)] := by
      rw [earliestRow]
      rw [← hidcur, predsOf_eq hids htcur, durOf_eq hids htcur, hidcur]
    have hkeys' : (earliestRow tasks rows tid).map Prod.fst =
        processed ++ [tid] := by
      rw [hrow, List.map_append, hkeys]
      rfl
    have hnone : alookup rows tid = none :=
      (alookup_eq_none_iff rows tid).mpr (by rw [hkeys]; exact htidnot)
    have hself' : ∀ t ∈ tasks, ∀ v,
        alookup (earliestRow tasks rows tid) t.id = some v →
        v = (esSpec (earliestRow tasks rows tid) t.predecessors,
             esSpec (earliestRow tasks rows tid) t.predecessors
               + t.duration) := by
      intro t ht v hv
      by_cases hne : t.id = tid
      · have heq : t = tcur := taskId_inj hids ht htcur (hne.trans hidcur.symm)
        subst heq
        rw [hrow, alookup_append_right _ (hne ▸ hnone), hne, alookup_cons] at hv
        rw [if_pos rfl] at hv
        have hes : esSpec (earliestRow tasks rows tid) t.predecessors =
            esSpec rows t.predecessors := by
          rw [hrow]
          exact esSpec_stable (fun p hp => by
            rw [hkeys]
            exact hpreds_proc p hp)
        rw [hes]
        exact (Option.some.inj hv).symm
      · rw [hrow, alookup_append] at hv
        rcases hw : alookup rows t.id with _ | w
        · rw [hw] at hv
          simp only [alookup_cons, if_neg (fun hc : tid = t.id => hne hc.symm)] at hv
          rw [alookup_nil] at hv
          exact absurd hv (by simp)
        · rw [hw] at hv
          have hv2 : w = v := Option.some.inj hv
          subst hv2
          have hold := hself t ht w hw
          have htproc : t.id ∈ processed := by
            rw [← hkeys]
            exact alookup_key_of_some hw
          have hpreds_t : ∀ p ∈ t.predecessors, p ∈ processed := by
            intro p hp
            have hfact := hfacts.2.2.2 t ht p hp
            exact mem_processed_closure hnd hsplit htproc
              (hfacts.2.2.1 p hfact.1) hfact.2.2
          have hes : esSpec (earliestRow tasks rows tid) t.predecessors =
              esSpec rows t.predecessors := by
            rw [hrow]
            exact esSpec_stable (fun p hp => by
              rw [hkeys]
              exact hpreds_t p hp)
          rw [hes]
          exact hold
    have hsplit' : order = (processed ++ [tid]) ++ l := by
      rw [hsplit, List.append_assoc]
      rfl
    have := ih (processed ++ [tid]) (earliestRow tasks rows tid) hsplit'
      hkeys' hself'
    rw [List.foldl_cons]
    refine ⟨?_, this.2⟩
    rw [this.1, List.append_assoc]
    rfl

theorem calculateEarliestDates_spec {tasks : List Task}
    (hids : (taskIds tasks).Nodup)
    (hval : ∀ t ∈ tasks, ∀ p ∈ t.predecessors, p ∈ taskIds tasks)
    {rows : List (String × ℚ × ℚ)}
    (h : calculateEarliestDates tasks = .ok rows) :
    ∃ order, getTopologicalSort tasks = .ok order ∧
      rows.map Prod.fst = order ∧
      (∀ t ∈ tasks, ∀ v, alookup rows t.id = some v →
        v = (esSpec rows t.predecessors,
             esSpec rows t.predecessors + t.duration)) := by
  rcases htopo : getTopologicalSort tasks with e | order
  · rw [calculateEarliestDates, htopo] at h
    exact absurd h (by simp [Except.bind])
  · rw [calculateEarliestDates, htopo] at h
    have hrows : rows = order.foldl (earliestRow tasks) [] := by
      have := h
      simp only [Except.bind, Except.pure] at this
      exact (Except.ok.inj this).symm
    subst hrows
    have := earliest_fold_spec hids hval htopo order [] [] (by simp) rfl
      (by intro t ht v hv; rw [alookup_nil] at hv; exact absurd hv (by simp))
    exact ⟨order, rfl, by simpa using this.1, this.2⟩

theorem rows_entry_task {tasks : List Task} (hids : (taskIds tasks).Nodup)
    {order : List String} (horder : getTopologicalSort tasks = .ok order)
    {rows : List (String × ℚ × ℚ)} (hkeys : rows.map Prod.fst = order)
    {row : String × ℚ × ℚ} (hrow : row ∈ rows) :
    ∃ t ∈ tasks, t.id = row.1 ∧ alookup rows row.1 = some row.2 := by
  rcases row with ⟨k, v⟩
  have hfacts := topo_facts hids horder
  have hk : k ∈ order := by
    rw [← hkeys]
    exact List.mem_map.mpr ⟨(k, v), hrow, rfl⟩
  have hkid : k ∈ taskIds tasks := hfacts.2.1 _ hk
  rcases mem_taskIds.mp hkid with ⟨t, ht, hid⟩
  have hnd : (rows.map Prod.fst).Nodup := by
    rw [hkeys]
    exact hfacts.1
  exact ⟨t, ht, hid, alookup_of_mem_nodup hnd hrow⟩

/-- **C3** — forward pass: for every validated acyclic task set, every
task's row in `calculate_earliest_dates` satisfies
`EF = ES + duration` and `ES = max(0, max over predecessors of their EF)`
(so `ES = 0` when there are no predecessors), and
`get_project_duration` returns the maximum `EF` over all tasks (`0` for
an empty set). -/
theorem claim_C3 (tasks : List Task) (hids : (taskIds tasks).Nodup)
    (hval : validateDependencies tasks = .ok ())
    (rows : List (String × ℚ × ℚ)) (pd : ℚ)
    (hrows : calculateEarliestDates tasks = .ok rows)
    (hpd : getProjectDuration tasks = .ok pd) :
    (∀ t ∈ tasks, ∃ es ef, alookup rows t.id = some (es, ef) ∧
      ef = es + t.duration ∧
      es = (t.predecessors.map
        (fun p => ((alookup rows p).getD (0, 0)).2)).foldl max 0 ∧
      (t.predecessors = [] → es = 0)) ∧
    ((tasks = [] → pd = 0) ∧
     (∀ t ∈ tasks, ∀ es ef, alookup rows t.id = some (es, ef) → ef ≤ pd) ∧
     (tasks ≠ [] → ∃ t ∈ tasks, ∃ es ef,
        alookup rows t.id = some (es, ef) ∧ pd = ef)) := by
  have hv := (validateDependencies_ok_iff tasks).mp hval
  rcases calculateEarliestDates_spec hids hv hrows with ⟨order, htopo, hkeys, hself⟩
  have hfacts := topo_facts hids htopo
  have hkeymem : ∀ t ∈ tasks, t.id ∈ rows.map Prod.fst := by
    intro t ht
    rw [hkeys]
    exact hfacts.2.2.1 t.id (mem_taskIds.mpr ⟨t, ht, rfl⟩)
  have hpredkeys : ∀ t ∈ tasks, ∀ p ∈ t.predecessors, p ∈ rows.map Prod.fst := by
    intro t ht p hp
    rw [hkeys]
    exact hfacts.2.2.1 p (hv t ht p hp)
  have hmain : ∀ t ∈ tasks, ∃ es ef, alookup rows t.id = some (es, ef) ∧
      ef = es + t.duration ∧
      es = (t.predecessors.map
        (fun p => ((alookup rows p).getD (0, 0)).2)).foldl max 0 ∧
      (t.predecessors = [] → es = 0) := by
    intro t ht
    rcases alookup_mem_of_key (hkeymem t ht) with ⟨v, hv2⟩
    have hval2 := hself t ht v hv2
    refine ⟨esSpec rows t.predecessors,
      esSpec rows t.predecessors + t.duration, by rw [hv2, hval2], rfl, ?_, ?_⟩
    · exact esSpec_eq_map_foldl (hpredkeys t ht)
    · intro hempty
      rw [hempty]
      rfl
  refine ⟨hmain, ?_, ?_, ?_⟩
  · -- empty set
    intro hempty
    subst hempty
    have : rows = [] := by
      have h1 : rows.map Prod.fst = [] := by
        rw [hkeys]
        have := (getTopo_ok_inv hids htopo).2
        exact List.length_eq_zero.mp (by simpa using this)
      exact List.map_eq_nil_iff.mp h1
    subst this
    rw [getProjectDuration, hrows] at hpd
    exact (Except.ok.inj hpd).symm
  · -- every finish is at most the project duration
    intro t ht es ef hlook
    have hmem : (t.id, es, ef) ∈ rows := alookup_mem hlook
    cases hrowsnil : rows with
    | nil => rw [hrowsnil] at hmem; simp at hmem
    | cons r rs =>
      rw [getProjectDuration, hrows, hrowsnil] at hpd
      have hpdval : pd = maxFinish (r :: rs) := (Except.ok.inj hpd).symm
      rw [hrowsnil] at hmem
      rcases List.mem_cons.mp hmem with h1 | h1
      · rw [hpdval, maxFinish, ← h1]
        exact foldl_max_init_le _ _
      · rw [hpdval, maxFinish]
        exact foldl_max_le_of_mem (List.mem_map.mpr ⟨(t.id, es, ef), h1, rfl⟩) _
  · -- the maximum is attained by some task
    intro hne
    cases hrowsnil : rows with
    | nil =>
      exfalso
      rcases List.exists_mem_of_ne_nil tasks hne with ⟨t, ht⟩
      have := hkeymem t ht
      rw [hrowsnil] at this
      simp at this
    | cons r rs =>
      rw [getProjectDuration, hrows, hrowsnil] at hpd
      have hpdval : pd = maxFinish (r :: rs) := (Except.ok.inj hpd).symm
      have hget : ∃ row ∈ rows, pd = row.2.2 := by
        rw [hpdval, maxFinish]
        rcases foldl_max_cases (rs.map (·.2.2)) r.2.2 with h1 | h1
        · exact ⟨r, by rw [hrowsnil]; exact List.mem_cons_self r rs, h1⟩
        · rcases List.mem_map.mp h1 with ⟨row, hrowm, hval2⟩
          exact ⟨row, by rw [hrowsnil]; exact List.mem_cons_of_mem r hrowm,
            hval2.symm⟩
      rcases hget with ⟨row, hrowm, hpd2⟩
      rcases rows_entry_task hids htopo hkeys hrowm with ⟨t, ht, hid, hlook⟩
      refine ⟨t, ht, row.2.1, row.2.2, ?_, hpd2⟩
      rw [hid, ← hrowsnil]
      exact hlook

/-! ## Lemmas: the backward pass -/

theorem mem_succOf_inv {tasks : List Task} {u v : String}
    (h : v ∈ succOf tasks u) :
    ∃ w ∈ tasks, w.id = v ∧ u ∈ w.predecessors := by
  rw [succOf] at h
  by_cases hu : u ∈ taskIds tasks
  · rw [if_pos hu] at h
    rcases List.mem_flatMap.mp h with ⟨w, hw, hv⟩
    rcases List.mem_map.mp hv with ⟨p, hp, rfl⟩
    rcases List.mem_filter.mp hp with ⟨hpmem, hpeq⟩
    refine ⟨w, hw, rfl, ?_⟩
    have : p = u := by
      rw [string_beq_eq_decide] at hpeq
      exact of_decide_eq_true hpeq
    rw [← this]
    exact hpmem
  · rw [if_neg hu] at h
    simp at h

theorem mem_succOf_of_pred {tasks : List Task} {w : Task}
    (hw : w ∈ tasks) {u : String} (hu : u ∈ taskIds tasks)
    (hp : u ∈ w.predecessors) : w.id ∈ succOf tasks u := by
  rw [succOf, if_pos hu]
  refine List.mem_flatMap.mpr ⟨w, hw, ?_⟩
  refine List.mem_map.mpr ⟨u, ?_, rfl⟩
  refine List.mem_filter.mpr ⟨hp, ?_⟩
  rw [string_beq_eq_decide]
  exact decide_eq_true rfl

/-- The latest-finish value the source assigns:
`project_duration` for a task with no successors, otherwise the minimum
recorded latest start among its successors. -/
def lfSpec (rows : List (String × ℚ × ℚ)) (pd : ℚ) (succs : List String) : ℚ :=
  if succs.isEmpty then pd else finishOfOpt pd (minStartOpt rows succs)

theorem minStartOpt_stable {rows ext : List (String × ℚ × ℚ)}
    {succs : List String} (h : ∀ s ∈ succs, s ∈ rows.map Prod.fst) :
    minStartOpt (rows ++ ext) succs = minStartOpt rows succs := by
  rw [minStartOpt, minStartOpt]
  suffices H : ∀ (ss : List String) (acc : Option ℚ),
      (∀ s ∈ ss, s ∈ rows.map Prod.fst) →
      ss.foldl (fun acc s => minStartHit acc (alookup (rows ++ ext) s)) acc =
      ss.foldl (fun acc s => minStartHit acc (alookup rows s)) acc from
    H succs none h
  intro ss
  induction ss with
  | nil => intro acc _; rfl
  | cons s ss ih =>
    intro acc hall
    rcases alookup_mem_of_key (hall s (List.mem_cons_self s ss)) with ⟨v, hv⟩
    rw [List.foldl_cons, List.foldl_cons, hv, alookup_append_left ext hv]
    exact ih _ (fun q hq => hall q (List.mem_cons_of_mem s hq))

theorem lfSpec_stable {rows ext : List (String × ℚ × ℚ)} {succs : List String}
    (h : ∀ s ∈ succs, s ∈ rows.map Prod.fst) (pd : ℚ) :
    lfSpec (rows ++ ext) pd succs = lfSpec rows pd succs := by
  rw [lfSpec, lfSpec, minStartOpt_stable h]

theorem mem_suffix_closure {order l1 l2 : List String}
    (hnd : order.Nodup) (hsplit : order = l1 ++ l2) {a b : String}
    (ha : a ∈ l2) (hb : b ∈ order)
    (hidx : order.indexOf a < order.indexOf b) : b ∈ l2 := by
  subst hsplit
  have hanot : a ∉ l1 := by
    rw [List.nodup_append] at hnd
    intro hc
    exact hnd.2.2 hc ha
  by_cases hb1 : b ∈ l1
  · exfalso
    have hbidx : (l1 ++ l2).indexOf b = l1.indexOf b := idx_append_left _ hb1
    have haidx : (l1 ++ l2).indexOf a = l1.length + l2.indexOf a :=
      idx_append_not_mem _ hanot
    have := idx_lt_of_mem hb1
    omega
  · rcases List.mem_append.mp hb with hc | hc
    · exact absurd hc hb1
    · exact hc

theorem minFold_spec (rows : List (String × ℚ × ℚ)) :
    ∀ (succs : List String) (acc : Option ℚ) (m : ℚ),
      succs.foldl (fun acc s => minStartHit acc (alookup rows s)) acc =
        some m →
      (acc = some m ∨
        ∃ s ∈ succs, ∃ w, alookup rows s = some w ∧ m = w.1) ∧
      (∀ a, acc = some a → m ≤ a) ∧
      (∀ s ∈ succs, ∀ w, alookup rows s = some w → m ≤ w.1) := by
  intro succs
  induction succs with
  | nil =>
    intro acc m h
    rw [List.foldl_nil] at h
    refine ⟨Or.inl h, fun a ha => ?_, by simp⟩
    rw [h] at ha
    rw [Option.some.inj ha]
  | cons s ss ih =>
    intro acc m h
    rw [List.foldl_cons] at h
    rcases hs : alookup rows s with _ | w
    · rw [hs] at h
      have hstep : minStartHit acc none = acc := rfl
      rw [hstep] at h
      rcases ih acc m h with ⟨hat, hacc, hall⟩
      refine ⟨?_, hacc, ?_⟩
      · rcases hat with h1 | ⟨s', hs', w', hw', hm⟩
        · exact Or.inl h1
        · exact Or.inr ⟨s', List.mem_cons_of_mem s hs', w', hw', hm⟩
      · intro s' hs' w' hw'
        rcases List.mem_cons.mp hs' with h1 | h1
        · subst h1
          rw [hs] at hw'
          exact absurd hw' (by simp)
        · exact hall s' h1 w' hw'
    · rw [hs] at h
      rcases acc with _ | a
      · have hstep : minStartHit none (some w) = some w.1 := rfl
        rw [hstep] at h
        rcases ih _ m h with ⟨hat, hacc, hall⟩
        refine ⟨?_, by simp, ?_⟩
        · rcases hat with h1 | ⟨s', hs', w', hw', hm⟩
          · exact Or.inr ⟨s, List.mem_cons_self s ss, w, hs,
              (Option.some.inj h1).symm⟩
          · exact Or.inr ⟨s', List.mem_cons_of_mem s hs', w', hw', hm⟩
        · intro s' hs' w' hw'
          rcases List.mem_cons.mp hs' with h1 | h1
          · subst h1
            rw [hs] at hw'
            rw [← Option.some.inj hw']
            exact hacc w.1 rfl
          · exact hall s' h1 w' hw'
      · have hstep : minStartHit (some a) (some w) = some (min a w.1) := rfl
        rw [hstep] at h
        rcases ih _ m h with ⟨hat, hacc, hall⟩
        have hm_le : m ≤ min a w.1 := hacc _ rfl
        refine ⟨?_, ?_, ?_⟩
        · rcases hat with h1 | ⟨s', hs', w', hw', hm⟩
          · have hmin : m = min a w.1 := (Option.some.inj h1).symm
            rcases min_cases a w.1 with ⟨hc, _⟩ | ⟨hc, _⟩
            · exact Or.inl (by rw [hmin, hc])
            · exact Or.inr ⟨s, List.mem_cons_self s ss, w, hs, by rw [hmin, hc]⟩
          · exact Or.inr ⟨s', List.mem_cons_of_mem s hs', w', hw', hm⟩
        · intro a' ha'
          have : a' = a := (Option.some.inj ha').symm
          subst this
          exact le_trans hm_le (min_le_left _ _)
        · intro s' hs' w' hw'
          rcases List.mem_cons.mp hs' with h1 | h1
          · subst h1
            rw [hs] at hw'
            rw [← Option.some.inj hw']
            exact le_trans hm_le (min_le_right _ _)
          · exact hall s' h1 w' hw'

theorem minFold_isSome (rows : List (String × ℚ × ℚ)) :
    ∀ (succs : List String) (acc : Option ℚ),
      (∀ s ∈ succs, s ∈ rows.map Prod.fst) →
      (succs ≠ [] ∨ acc.isSome) →
      (succs.foldl (fun acc s => minStartHit acc (alookup rows s)) acc).isSome := by
  intro succs
  induction succs with
  | nil =>
    intro acc _ hne
    rcases hne with h | h
    · exact absurd rfl h
    · exact h
  | cons s ss ih =>
    intro acc hall _
    rw [List.foldl_cons]
    rcases alookup_mem_of_key (hall s (List.mem_cons_self s ss)) with ⟨v, hv⟩
    rw [hv]
    rcases acc with _ | a
    · exact ih (some v.1) (fun q hq => hall q (List.mem_cons_of_mem s hq))
        (Or.inr rfl)
    · exact ih (some (min a v.1)) (fun q hq => hall q (List.mem_cons_of_mem s hq))
        (Or.inr rfl)

theorem latest_fold_spec {tasks : List Task} (hids : (taskIds tasks).Nodup)
    {order : List String} (horder : getTopologicalSort tasks = .ok order)
    (pd : ℚ) :
    ∀ (l processed : List String) (rows : List (String × ℚ × ℚ)),
      order.reverse = processed ++ l →
      rows.map Prod.fst = processed →
      (∀ t ∈ tasks, ∀ v, alookup rows t.id = some v →
        v = (lfSpec rows pd (succOf tasks t.id) - t.duration,
             lfSpec rows pd (succOf tasks t.id))) →
      ((l.foldl (latestRow tasks pd) rows).map Prod.fst = processed ++ l ∧
        (∀ t ∈ tasks, ∀ v,
          alookup (l.foldl (latestRow tasks pd) rows) t.id = some v →
          v = (lfSpec (l.foldl (latestRow tasks pd) rows) pd
                 (succOf tasks t.id) - t.duration,
               lfSpec (l.foldl (latestRow tasks pd) rows) pd
                 (succOf tasks t.id)))) := by
  have hfacts := topo_facts hids horder
  have hnd : order.Nodup := hfacts.1
  have hndr : order.reverse.Nodup := List.nodup_reverse.mpr hnd
  intro l
  induction l with
  | nil =>
    intro processed rows hsplit hkeys hself
    rw [List.foldl_nil]
    exact ⟨by rw [hkeys, List.append_nil], hself⟩
  | cons tid l ih =>
    intro processed rows hsplit hkeys hself
    have htidmem : tid ∈ order := by
      rw [← List.mem_reverse, hsplit]
      exact List.mem_append.mpr (Or.inr (List.mem_cons_self tid l))
    have htid : tid ∈ taskIds tasks := hfacts.2.1 tid htidmem
    rcases findTask_mem_isSome htid with ⟨tcur, hfcur, htcur, hidcur⟩
    have htidnot : tid ∉ processed := by
      intro hc
      rw [hsplit, List.nodup_append] at hndr
      exact hndr.2.2 hc (List.mem_cons_self tid l)
    -- the forward order splits around `tid` with `processed.reverse` after it
    have hsplitfwd : order = l.reverse ++ tid :: processed.reverse := by
      have : order = order.reverse.reverse := (List.reverse_reverse order).symm
      rw [this, hsplit]
      simp
    -- all successors of the current task are already processed
    have hsucc_proc : ∀ s ∈ succOf tasks tid, s ∈ processed := by
      intro s hsmem
      rcases mem_succOf_inv hsmem with ⟨w, hw, hwid, hwpred⟩
      have hfact := hfacts.2.2.2 w hw tid hwpred
      have hidx : order.indexOf tid < order.indexOf s := by
        rw [← hwid]
        exact hfact.2.2
      have : s ∈ processed.reverse :=
        mem_suffix_of_idx_lt hnd hsplitfwd
          (hfacts.2.2.1 s (by rw [← hwid]; exact mem_taskIds.mpr ⟨w, hw, rfl⟩))
          hidx
      rw [← List.mem_reverse]
      exact this
    -- the appended row
    have hrow : latestRow tasks pd rows tid =
        rows ++ [(tid, lfSpec rows pd (succOf tasks tid) - durOf tasks tid,
          lfSpec rows pd (succOf tasks tid))] := rfl
    have hkeys' : (latestRow tasks pd rows tid).map Prod.fst =
        processed ++ [tid] := by
      rw [hrow, List.map_append, hkeys]
      rfl
    have hnone : alookup rows tid = none :=
      (alookup_eq_none_iff rows tid).mpr (by rw [hkeys]; exact htidnot)
    have hself' : ∀ t ∈ tasks, ∀ v,
        alookup (latestRow tasks pd rows tid) t.id = some v →
        v = (lfSpec (latestRow tasks pd rows tid) pd
               (succOf tasks t.id) - t.duration,
             lfSpec (latestRow tasks pd rows tid) pd
               (succOf tasks t.id)) := by
      intro t ht v hv
      by_cases hne : t.id = tid
      · have heq : t = tcur := taskId_inj hids ht htcur (hne.trans hidcur.symm)
        subst heq
        rw [hrow, alookup_append_right _ (hne ▸ hnone), hne, alookup_cons] at hv
        rw [if_pos rfl] at hv
        have hlf : lfSpec (latestRow tasks pd rows tid) pd
            (succOf tasks t.id) = lfSpec rows pd (succOf tasks t.id) := by
          rw [hrow]
          exact lfSpec_stable (fun s hs => by
            rw [hkeys]
            exact hsucc_proc s (hne ▸ hs)) pd
        rw [hlf]
        have hdur : durOf tasks tid = t.duration := by
          rw [← hne]
          exact durOf_eq hids ht
        rw [← Option.some.inj hv, hne, hdur]
      · rw [hrow, alookup_append] at hv
        rcases hw : alookup rows t.id with _ | w
        · rw [hw] at hv
          simp only [alookup_cons, if_neg (fun hc : tid = t.id => hne hc.symm)] at hv
          rw [alookup_nil] at hv
          exact absurd hv (by simp)
        · rw [hw] at hv
          have hv2 : w = v := Option.some.inj hv
          subst hv2
          have hold := hself t ht w hw
          have htproc : t.id ∈ processed := by
            rw [← hkeys]
            exact alookup_key_of_some hw
          have hsucc_t : ∀ s ∈ succOf tasks t.id, s ∈ processed := by
            intro s hs
            rcases mem_succOf_inv hs with ⟨w', hw', hwid', hwpred'⟩
            have hfact := hfacts.2.2.2 w' hw' t.id hwpred'
            have hidx : order.indexOf t.id < order.indexOf s := by
              rw [← hwid']
              exact hfact.2.2
            have hsplit2 : order = (l.reverse ++ [tid]) ++ processed.reverse := by
              rw [hsplitfwd, List.append_assoc]
              rfl
            have : s ∈ processed.reverse :=
              mem_suffix_closure hnd hsplit2 (List.mem_reverse.mpr htproc)
                (hfacts.2.2.1 s
                  (by rw [← hwid']; exact mem_taskIds.mpr ⟨w', hw', rfl⟩))
                hidx
            rw [← List.mem_reverse]
            exact this
          have hlf : lfSpec (latestRow tasks pd rows tid) pd
              (succOf tasks t.id) = lfSpec rows pd (succOf tasks t.id) := by
            rw [hrow]
            exact lfSpec_stable (fun s hs => by
              rw [hkeys]
              exact hsucc_t s hs) pd
          rw [hlf]
          exact hold
    have hsplit' : order.reverse = (processed ++ [tid]) ++ l := by
      rw [hsplit, List.append_assoc]
      rfl
    have := ih (processed ++ [tid]) (latestRow tasks pd rows tid) hsplit'
      hkeys' hself'
    rw [List.foldl_cons]
    refine ⟨?_, this.2⟩
    rw [this.1, List.append_assoc]
    rfl


theorem calculateLatestDates_spec {tasks : List Task}
    (hids : (taskIds tasks).Nodup)
    (hval : ∀ t ∈ tasks, ∀ p ∈ t.predecessors, p ∈ taskIds tasks)
    {rows : List (String × ℚ × ℚ)}
    (h : calculateLatestDates tasks = .ok rows)
    {pd : ℚ} (hpd : getProjectDuration tasks = .ok pd) :
    ∃ order, getTopologicalSort tasks = .ok order ∧
      rows.map Prod.fst = order.reverse ∧
      (∀ t ∈ tasks, ∀ v, alookup rows t.id = some v →
        v = (lfSpec rows pd (succOf tasks t.id) - t.duration,
             lfSpec rows pd (succOf tasks t.id))) := by
  rcases hE : calculateEarliestDates tasks with e | erows
  · rw [calculateLatestDates, hE] at h
    exact absurd h (by simp [except_bind_error])
  · rw [calculateLatestDates, hE, except_bind_ok] at h
    rcases calculateEarliestDates_spec hids hval hE with ⟨order, htopo, hkeys, _⟩
    rw [getProjectDuration, hE, except_bind_ok] at hpd
    have hpdval : pd = maxFinish erows := (Except.ok.inj hpd).symm
    cases erows with
    | nil =>
      have hords : order = [] := by
        have := hkeys
        simpa using this.symm
      have hrows0 : rows = [] := by
        rw [latestAux] at h
        exact (Except.ok.inj h).symm
      subst hrows0
      refine ⟨order, htopo, by rw [hords]; rfl, ?_⟩
      intro t ht v hv
      rw [alookup_nil] at hv
      exact absurd hv (by simp)
    | cons r rs =>
      rw [latestAux, htopo, except_bind_ok] at h
      have hrowsval : rows =
          order.reverse.foldl (latestRow tasks (maxFinish (r :: rs))) [] :=
        (Except.ok.inj h).symm
      have hfold := latest_fold_spec hids htopo (maxFinish (r :: rs))
        order.reverse [] [] (by rw [List.nil_append]) rfl
        (by
          intro t ht v hv
          rw [alookup_nil] at hv
          exact absurd hv (by simp))
      refine ⟨order, htopo, ?_, ?_⟩
      · rw [hrowsval]
        rw [hfold.1, List.nil_append]
      · subst hrowsval
        rw [hpdval]
        exact hfold.2

/-- **C4** — backward pass: for every validated acyclic task set, every
task's row in `calculate_latest_dates` satisfies
`LS = LF - duration`; `LF = project duration` for a task with no
successors, and otherwise `LF` equals the minimum latest start over its
successors (each of which has a row). -/
theorem claim_C4 (tasks : List Task) (hids : (taskIds tasks).Nodup)
    (hval : validateDependencies tasks = .ok ())
    (rows : List (String × ℚ × ℚ)) (pd : ℚ)
    (hrows : calculateLatestDates tasks = .ok rows)
    (hpd : getProjectDuration tasks = .ok pd) :
    ∀ t ∈ tasks, ∃ ls lf, alookup rows t.id = some (ls, lf) ∧
      ls = lf - t.duration ∧
      (succOf tasks t.id = [] → lf = pd) ∧
      (succOf tasks t.id ≠ [] →
        (∀ s ∈ succOf tasks t.id, ∃ ls' lf',
          alookup rows s = some (ls', lf') ∧ lf ≤ ls') ∧
        (∃ s ∈ succOf tasks t.id, ∃ ls' lf',
          alookup rows s = some (ls', lf') ∧ lf = ls')) := by
  have hv := (validateDependencies_ok_iff tasks).mp hval
  rcases calculateLatestDates_spec hids hv hrows hpd with ⟨order, htopo, hkeys, hself⟩
  have hfacts := topo_facts hids htopo
  intro t ht
  have htid : t.id ∈ rows.map Prod.fst := by
    rw [hkeys, List.mem_reverse]
    exact hfacts.2.2.1 t.id (mem_taskIds.mpr ⟨t, ht, rfl⟩)
  rcases alookup_mem_of_key htid with ⟨v, hv2⟩
  have hveq := hself t ht v hv2
  have hsuccmem : ∀ s ∈ succOf tasks t.id, s ∈ rows.map Prod.fst := by
    intro s hs
    rw [hkeys, List.mem_reverse]
    exact hfacts.2.2.1 s (mem_succOf hs)
  refine ⟨lfSpec rows pd (succOf tasks t.id) - t.duration,
    lfSpec rows pd (succOf tasks t.id), by rw [← hveq]; exact hv2, rfl, ?_, ?_⟩
  · intro hnone
    rw [lfSpec, hnone]
    rfl
  · intro hne
    have hnemp : (succOf tasks t.id).isEmpty = false := by
      cases hcase : succOf tasks t.id with
      | nil => exact absurd hcase hne
      | cons a l => rfl
    have hsome := minFold_isSome rows (succOf tasks t.id) none hsuccmem
      (Or.inl hne)
    rcases hm : minStartOpt rows (succOf tasks t.id) with _ | m
    · rw [minStartOpt] at hm
      rw [hm] at hsome
      exact absurd hsome (by simp)
    · have hlfval : lfSpec rows pd (succOf tasks t.id) = m := by
        rw [lfSpec, hnemp, hm]
        rfl
      rw [minStartOpt] at hm
      rcases minFold_spec rows (succOf tasks t.id) none m hm with ⟨hat, _, hbound⟩
      constructor
      · intro s hs
        rcases alookup_mem_of_key (hsuccmem s hs) with ⟨w, hw⟩
        exact ⟨w.1, w.2, by rw [hw], by rw [hlfval]; exact hbound s hs w hw⟩
      · rcases hat with hc | ⟨s, hs, w, hw, hmw⟩
        · exact absurd hc (by simp)
        · exact ⟨s, hs, w.1, w.2, by rw [hw], by rw [hlfval, hmw]⟩


/-! ## Concrete inputs for witnesses and counterexamples -/

/-- A two-task chain `A (2) -> B (3)`. -/
def demoTasks : List Task :=
  [⟨"A", "A", 2, []⟩, ⟨"B", "B", 3, ["A"]⟩]

/-- A two-task dependency cycle. -/
def cycTasks : List Task :=
  [⟨"A", "A", 1, ["B"]⟩, ⟨"B", "B", 1, ["A"]⟩]

/-- An acyclic set with an undeclared predecessor `"Z"`. -/
def unkTasks : List Task :=
  [⟨"A", "A", 1, ["Z"]⟩, ⟨"B", "B", 1, ["A"]⟩]

/-- A duplicated predecessor entry (`B` lists `A` twice). -/
def dupTasks : List Task :=
  [⟨"A", "A", 1, []⟩, ⟨"B", "B", 1, ["A", "A"]⟩]

/-- A tiny duration that the 6-decimal rounding of the floats collapses. -/
def tinyTasks : List Task :=
  [⟨"A", "A", 1/10000000, []⟩, ⟨"B", "B", 1, []⟩]

/-! ## C7: cycles abort every scheduling operation -/

/-- **C7** — for every task set whose declared precedence contains a
cycle, `get_topological_sort` fails with the cycle error, and every
scheduling operation (earliest/latest dates, floats, project duration,
critical path, full schedule, AoA synthesis) fails with that same error
and returns no result. -/
theorem claim_C7 (tasks : List Task) (hids : (taskIds tasks).Nodup)
    (hcyc : hasCycle tasks) :
    getTopologicalSort tasks = .error .cycleDetected ∧
    calculateEarliestDates tasks = .error .cycleDetected ∧
    calculateLatestDates tasks = .error .cycleDetected ∧
    calculateFloats tasks = .error .cycleDetected ∧
    getProjectDuration tasks = .error .cycleDetected ∧
    getCriticalPath tasks = .error .cycleDetected ∧
    getFullSchedule tasks = .error .cycleDetected ∧
    getAoaStructure tasks = .error .cycleDetected := by
  have htopo : getTopologicalSort tasks = .error .cycleDetected :=
    getTopo_cycle hids hcyc
  have hE : calculateEarliestDates tasks = .error .cycleDetected := by
    rw [calculateEarliestDates, htopo]
    rfl
  have hL : calculateLatestDates tasks = .error .cycleDetected := by
    rw [calculateLatestDates, hE]
    rfl
  have hF : calculateFloats tasks = .error .cycleDetected := by
    rw [calculateFloats, hE]
    rfl
  have hP : getProjectDuration tasks = .error .cycleDetected := by
    rw [getProjectDuration, hE]
    rfl
  have hC : getCriticalPath tasks = .error .cycleDetected := by
    rw [getCriticalPath, hF]
    rfl
  have hS : getFullSchedule tasks = .error .cycleDetected := by
    rw [getFullSchedule, hE]
    rfl
  have hA : getAoaStructure tasks = .error .cycleDetected := by
    rw [getAoaStructure, htopo]
    rfl
  exact ⟨htopo, hE, hL, hF, hP, hC, hS, hA⟩

theorem claim_C7_witness :
    (taskIds cycTasks).Nodup ∧ hasCycle cycTasks ∧
    getTopologicalSort cycTasks = .error .cycleDetected ∧
    getAoaStructure cycTasks = .error .cycleDetected := by
  have h1 : (taskIds cycTasks).Nodup := by decide
  have hcyc : hasCycle cycTasks := by
    refine ⟨"A", ["B"], ?_⟩
    refine List.Chain.cons ⟨⟨"B", "B", 1, ["A"]⟩, by decide, rfl, by decide⟩ ?_
    exact List.Chain.cons ⟨⟨"A", "A", 1, ["B"]⟩, by decide, rfl, by decide⟩
      List.Chain.nil
  have h := claim_C7 cycTasks h1 hcyc
  exact ⟨h1, hcyc, h.1, h.2.2.2.2.2.2.2⟩

/-! ## C10: unknown predecessors surface as the cycle error -/

/-- **C10** — a task set referencing a predecessor id with no matching
task makes `get_topological_sort` (and hence every scheduling operation)
fail with the cycle-detection error, never with an unknown-predecessor
error; only `validate_dependencies`, which no scheduling entry point
calls, reports the missing id. -/
theorem claim_C10 (tasks : List Task) (hids : (taskIds tasks).Nodup)
    (hbad : ∃ t ∈ tasks, ∃ p ∈ t.predecessors, p ∉ taskIds tasks) :
    getTopologicalSort tasks = .error .cycleDetected ∧
    calculateEarliestDates tasks = .error .cycleDetected ∧
    calculateLatestDates tasks = .error .cycleDetected ∧
    calculateFloats tasks = .error .cycleDetected ∧
    getProjectDuration tasks = .error .cycleDetected ∧
    getCriticalPath tasks = .error .cycleDetected ∧
    getFullSchedule tasks = .error .cycleDetected ∧
    getAoaStructure tasks = .error .cycleDetected ∧
    (∀ tid p, getTopologicalSort tasks ≠ .error (.unknownPredecessor tid p)) ∧
    (∃ tid p, validateDependencies tasks =
      .error (.unknownPredecessor tid p) ∧ p ∉ taskIds tasks) := by
  rcases hbad with ⟨t, ht, p, hp, hnp⟩
  have htopo : getTopologicalSort tasks = .error .cycleDetected :=
    getTopo_unknown_pred hids ht hp hnp
  have hE : calculateEarliestDates tasks = .error .cycleDetected := by
    rw [calculateEarliestDates, htopo]
    rfl
  have hL : calculateLatestDates tasks = .error .cycleDetected := by
    rw [calculateLatestDates, hE]
    rfl
  have hF : calculateFloats tasks = .error .cycleDetected := by
    rw [calculateFloats, hE]
    rfl
  have hP : getProjectDuration tasks = .error .cycleDetected := by
    rw [getProjectDuration, hE]
    rfl
  have hC : getCriticalPath tasks = .error .cycleDetected := by
    rw [getCriticalPath, hF]
    rfl
  have hS : getFullSchedule tasks = .error .cycleDetected := by
    rw [getFullSchedule, hE]
    rfl
  have hA : getAoaStructure tasks = .error .cycleDetected := by
    rw [getAoaStructure, htopo]
    rfl
  refine ⟨htopo, hE, hL, hF, hP, hC, hS, hA, ?_, ?_⟩
  · intro tid q hc
    rw [htopo] at hc
    exact PertError.noConfusion (Except.error.inj hc)
  · exact validateDependencies_error_of_unknown ⟨t, ht, p, hp, hnp⟩

theorem claim_C10_witness :
    (taskIds unkTasks).Nodup ∧
    (∃ t ∈ unkTasks, ∃ p ∈ t.predecessors, p ∉ taskIds unkTasks) ∧
    getTopologicalSort unkTasks = .error .cycleDetected ∧
    (∃ tid p, validateDependencies unkTasks =
      .error (.unknownPredecessor tid p) ∧ p ∉ taskIds unkTasks) := by
  have h1 : (taskIds unkTasks).Nodup := by decide
  have hbad : ∃ t ∈ unkTasks, ∃ p ∈ t.predecessors, p ∉ taskIds unkTasks :=
    ⟨⟨"A", "A", 1, ["Z"]⟩, by decide, "Z", by decide, by decide⟩
  have h := claim_C10 unkTasks h1 hbad
  exact ⟨h1, hbad, h.1, h.2.2.2.2.2.2.2.2.2⟩

/-! ## C8: negative durations are accepted, not rejected -/

/-- **C8** (amended) — contrary to the spec's `InvalidDuration` taxonomy
entry, `add_task` performs no duration validation: a task with a negative
duration is stored, and the schedule is computed without any error (here
shown on a one-task set, whose project duration comes out negative). -/
theorem claim_C8 (d : ℚ) (hd : d < 0) :
    addTask [] "A" "A" d [] = .ok [⟨"A", "A", d, []⟩] ∧
    getTopologicalSort [⟨"A", "A", d, []⟩] = .ok ["A"] ∧
    calculateEarliestDates [⟨"A", "A", d, []⟩] = .ok [("A", 0, 0 + d)] ∧
    getProjectDuration [⟨"A", "A", d, []⟩] = .ok (0 + d) := by
  have htopo : getTopologicalSort [⟨"A", "A", d, []⟩] = .ok ["A"] := by
    rw [getTopologicalSort]
    rfl
  have hE : calculateEarliestDates [⟨"A", "A", d, []⟩] =
      .ok [("A", 0, 0 + d)] := by
    rw [calculateEarliestDates, htopo]
    rfl
  refine ⟨?_, htopo, hE, ?_⟩
  · rw [addTask, if_neg (by simp [taskIds])]
    rfl
  · rw [getProjectDuration, hE]
    rfl

theorem claim_C8_witness :
    ((-1 : ℚ) < 0) ∧
    addTask [] "A" "A" (-1) [] = .ok [⟨"A", "A", -1, []⟩] ∧
    getProjectDuration [⟨"A", "A", -1, []⟩] = .ok (0 + -1) :=
  ⟨by norm_num, (claim_C8 (-1) (by norm_num)).1,
    (claim_C8 (-1) (by norm_num)).2.2.2⟩

/-- **C8** (counterexample to the spec) — the run on a task whose
duration is `-1` does not fail with any structured error: every
scheduling entry point returns a successful result, so the spec's claim
that a negative duration is a fatal `InvalidDuration` error is false of
this code. -/
theorem claim_C8_counterexample :
    addTask [] "A" "A" (-1) [] = .ok [⟨"A", "A", -1, []⟩] ∧
    getTopologicalSort [⟨"A", "A", -1, []⟩] = .ok ["A"] ∧
    calculateEarliestDates [⟨"A", "A", -1, []⟩] = .ok [("A", 0, -1)] ∧
    getProjectDuration [⟨"A", "A", -1, []⟩] = .ok (-1) ∧
    calculateLatestDates [⟨"A", "A", -1, []⟩] = .ok [("A", 0, -1)] ∧
    calculateFloats [⟨"A", "A", -1, []⟩] = .ok [("A", 0, 0)] ∧
    (∀ e : PertError, getFullSchedule [⟨"A", "A", -1, []⟩] ≠ .error e) := by
  have htopo : getTopologicalSort [⟨"A", "A", -1, []⟩] = .ok ["A"] := by
    decide
  have hE : calculateEarliestDates [⟨"A", "A", -1, []⟩] =
      .ok [("A", 0, -1)] := by
    rw [calculateEarliestDates, htopo]
    repeat (first
      | rfl
      | (simp [earliestRow, esSpec, esStep, alookup, predsOf, durOf,
          findTask, List.foldl, except_map_ok])
      | norm_num)
  have hL : calculateLatestDates [⟨"A", "A", -1, []⟩] =
      .ok [("A", 0, -1)] := by
    rw [calculateLatestDates, hE, except_bind_ok, latestAux, htopo]
    repeat (first
      | rfl
      | (simp [latestRow, maxFinish, finishOfOpt, minStartOpt,
          minStartHit, optMin1, alookup, predsOf, durOf, findTask, succOf,
          taskIds, List.foldl, except_bind_ok, except_pure])
      | norm_num)
  have hF : calculateFloats [⟨"A", "A", -1, []⟩] = .ok [("A", 0, 0)] := by
    rw [calculateFloats, hE, except_bind_ok, hL, except_bind_ok]
    repeat (first
      | rfl
      | (simp [maxFinish, round6, rne, freeOfOpt, minStartOpt,
          minStartHit, optMin1, alookup, succOf, taskIds, List.foldl,
          except_pure])
      | norm_num)
  refine ⟨?_, htopo, hE, ?_, hL, hF, ?_⟩
  · decide
  · rw [getProjectDuration, hE]
    rfl
  · intro e hc
    rw [getFullSchedule, hE, except_bind_ok, hL, except_bind_ok, hF,
      except_bind_ok] at hc
    exact Except.noConfusion hc

/-! ## C1: the junction-connection branches -/

/-- **C1** — the connection loop of the AoA synthesis: each nonempty
signature's predecessors are folded through `connectPred` with that
signature's junction, and for a single predecessor `p`: if `p` has no
recorded end node, the junction is assigned as its end node and no dummy
arc is appended; if `p` already has an end node `e`, a zero-duration
dummy arc (no task id, `is_dummy` true) from `e` to the junction is
appended and the end-node table is unchanged. -/
theorem claim_C1 (tasks : List Task) (topo : List String)
    (st : ConnectState) (s : List String) (junction p : String)
    (hs : s.isEmpty = false) :
    connectSig tasks topo st s = s.foldl (connectPred (jid tasks topo s)) st ∧
    (alookup st.endNodes p = none →
      connectPred junction st p =
        ⟨st.endNodes ++ [(p, junction)], st.dummies⟩) ∧
    (∀ e, alookup st.endNodes p = some e →
      connectPred junction st p =
        ⟨st.endNodes, st.dummies ++ [⟨e, junction, none, 0, true⟩]⟩) := by
  refine ⟨?_, ?_, ?_⟩
  · rw [connectSig, if_neg]
    rw [hs]
    intro hc
    exact Bool.noConfusion hc
  · intro h
    rw [connectPred, h]
    rfl
  · intro e h
    rw [connectPred, h]
    rfl

theorem claim_C1_witness :
    (["A"] : List String).isEmpty = false ∧
    connectSig demoTasks ["A", "B"] ⟨[], []⟩ ["A"] =
      (["A"].foldl (connectPred (jid demoTasks ["A", "B"] ["A"])) ⟨[], []⟩) ∧
    connectPred "J1" ⟨[], []⟩ "A" = ⟨[("A", "J1")], []⟩ ∧
    connectPred "J1" ⟨[("A", "Start")], []⟩ "A" =
      ⟨[("A", "Start")], [⟨"Start", "J1", none, 0, true⟩]⟩ := by
  have h1 := claim_C1 demoTasks ["A", "B"] ⟨[], []⟩ ["A"] "J1" "A" rfl
  have h2 := claim_C1 demoTasks ["A", "B"] ⟨[("A", "Start")], []⟩ ["A"]
    "J1" "A" rfl
  exact ⟨rfl, h1.1, h1.2.1 rfl, h2.2.2 "Start" rfl⟩

/-! ## C3 and C4 witnesses -/

theorem claim_C3_witness :
    (taskIds demoTasks).Nodup ∧
    validateDependencies demoTasks = .ok () ∧
    calculateEarliestDates demoTasks = .ok [("A", 0, 2), ("B", 2, 5)] ∧
    getProjectDuration demoTasks = .ok 5 ∧
    (∀ t ∈ demoTasks, ∃ es ef,
      alookup [("A", (0 : ℚ), (2 : ℚ)), ("B", 2, 5)] t.id = some (es, ef) ∧
      ef = es + t.duration ∧
      es = (t.predecessors.map
        (fun p => ((alookup [("A", (0 : ℚ), (2 : ℚ)), ("B", 2, 5)] p).getD
          (0, 0)).2)).foldl max 0 ∧
      (t.predecessors = [] → es = 0)) := by
  have h1 : (taskIds demoTasks).Nodup := by decide
  have h2 : validateDependencies demoTasks = .ok () := by decide
  have htopo : getTopologicalSort demoTasks = .ok ["A", "B"] := by decide
  have h3 : calculateEarliestDates demoTasks =
      .ok [("A", 0, 2), ("B", 2, 5)] := by
    rw [calculateEarliestDates, htopo]
    repeat (first
      | rfl
      | (simp [demoTasks, earliestRow, esSpec, esStep, alookup, predsOf,
          durOf, findTask, List.foldl, except_map_ok])
      | norm_num)
  have h4 : getProjectDuration demoTasks = .ok 5 := by
    rw [getProjectDuration, h3, except_bind_ok]
    repeat (first
      | rfl
      | (simp [maxFinish, List.foldl, except_pure])
      | norm_num)
  exact ⟨h1, h2, h3, h4, (claim_C3 demoTasks h1 h2 _ 5 h3 h4).1⟩

theorem claim_C4_witness :
    (taskIds demoTasks).Nodup ∧
    validateDependencies demoTasks = .ok () ∧
    calculateLatestDates demoTasks = .ok [("B", 2, 5), ("A", 0, 2)] ∧
    getProjectDuration demoTasks = .ok 5 ∧
    (∀ t ∈ demoTasks, ∃ ls lf,
      alookup [("B", (2 : ℚ), (5 : ℚ)), ("A", 0, 2)] t.id = some (ls, lf) ∧
      ls = lf - t.duration ∧
      (succOf demoTasks t.id = [] → lf = 5) ∧
      (succOf demoTasks t.id ≠ [] →
        (∀ s ∈ succOf demoTasks t.id, ∃ ls' lf',
          alookup [("B", (2 : ℚ), (5 : ℚ)), ("A", 0, 2)] s = some (ls', lf') ∧
          lf ≤ ls') ∧
        (∃ s ∈ succOf demoTasks t.id, ∃ ls' lf',
          alookup [("B", (2 : ℚ), (5 : ℚ)), ("A", 0, 2)] s = some (ls', lf') ∧
          lf = ls'))) := by
  have h1 : (taskIds demoTasks).Nodup := by decide
  have h2 : validateDependencies demoTasks = .ok () := by decide
  have htopo : getTopologicalSort demoTasks = .ok ["A", "B"] := by decide
  have h3 : calculateEarliestDates demoTasks =
      .ok [("A", 0, 2), ("B", 2, 5)] := by
    rw [calculateEarliestDates, htopo]
    repeat (first
      | rfl
      | (simp [demoTasks, earliestRow, esSpec, esStep, alookup, predsOf,
          durOf, findTask, List.foldl, except_map_ok])
      | norm_num)
  have hL : calculateLatestDates demoTasks = .ok [("B", 2, 5), ("A", 0, 2)] := by
    rw [calculateLatestDates, h3, except_bind_ok, latestAux, htopo]
    repeat (first
      | rfl
      | (simp [demoTasks, latestRow, maxFinish, finishOfOpt, minStartOpt,
          minStartHit, optMin1, alookup, predsOf, durOf, findTask, succOf,
          taskIds, List.foldl, except_bind_ok, except_pure])
      | norm_num)
  have h4 : getProjectDuration demoTasks = .ok 5 := by
    rw [getProjectDuration, h3, except_bind_ok]
    repeat (first
      | rfl
      | (simp [maxFinish, List.foldl, except_pure])
      | norm_num)
  exact ⟨h1, h2, hL, h4, claim_C4 demoTasks h1 h2 _ 5 hL h4⟩


/-! ## C5: floats and the critical path -/

theorem foldl_append_map {α β : Type} (f : α → β) :
    ∀ (l : List α) (acc : List β),
      l.foldl (fun acc x => acc ++ [f x]) acc = acc ++ l.map f := by
  intro l
  induction l with
  | nil => intro acc; simp
  | cons x l ih =>
    intro acc
    rw [List.foldl_cons, ih, List.map_cons]
    simp

/-- The row `calculate_floats` appends for one earliest-dates row. -/
def floatsRow (tasks : List Task) (lrows : List (String × ℚ × ℚ))
    (erows : List (String × ℚ × ℚ)) (row : String × ℚ × ℚ) :
    String × ℚ × ℚ :=
  (row.1,
    round6 ((((alookup lrows row.1).map (·.1)).getD 0) - row.2.1),
    round6 (if (succOf tasks row.1).isEmpty then maxFinish erows - row.2.2
            else freeOfOpt row.2.2 (minStartOpt erows (succOf tasks row.1))))

theorem calculateFloats_spec {tasks : List Task}
    {erows lrows frows : List (String × ℚ × ℚ)}
    (hE : calculateEarliestDates tasks = .ok erows)
    (hL : calculateLatestDates tasks = .ok lrows)
    (hF : calculateFloats tasks = .ok frows) :
    frows = erows.map (floatsRow tasks lrows erows) := by
  rw [calculateFloats, hE, except_bind_ok, hL, except_bind_ok] at hF
  have h2 := Except.ok.inj hF
  rw [← h2]
  exact foldl_append_map (floatsRow tasks lrows erows) erows []

/-- **C5** (amended) — for every validated acyclic task set: each task's
floats row holds `totalFloat = round6(LS - ES)` and a `freeFloat` that is
also rounded to 6 decimals (`round6` of: minimum successor ES minus EF,
or project duration minus EF when there are no successors); and the
critical path is exactly the ids of float rows with `|totalFloat| <
1e-6`, ordered by nondecreasing earliest start. -/
theorem claim_C5 (tasks : List Task) (hids : (taskIds tasks).Nodup)
    (hval : validateDependencies tasks = .ok ())
    (erows lrows frows : List (String × ℚ × ℚ)) (crit : List String) (pd : ℚ)
    (hE : calculateEarliestDates tasks = .ok erows)
    (hL : calculateLatestDates tasks = .ok lrows)
    (hF : calculateFloats tasks = .ok frows)
    (hC : getCriticalPath tasks = .ok crit)
    (hpd : getProjectDuration tasks = .ok pd) :
    (∀ t ∈ tasks, ∀ es ef, alookup erows t.id = some (es, ef) →
      ∃ ls lf, alookup lrows t.id = some (ls, lf) ∧
        alookup frows t.id = some (round6 (ls - es),
          round6 (if (succOf tasks t.id).isEmpty then pd - ef
                  else freeOfOpt ef (minStartOpt erows (succOf tasks t.id))))) ∧
    crit.Perm ((frows.filter (fun row => |row.2.1| < 1/1000000)).map (·.1)) ∧
    crit.Pairwise (fun a b => esKey erows a ≤ esKey erows b) := by
  have hv := (validateDependencies_ok_iff tasks).mp hval
  rcases calculateEarliestDates_spec hids hv hE with ⟨order, htopo, hekeys, _⟩
  rcases calculateLatestDates_spec hids hv hL hpd with ⟨order2, htopo2, hlkeys, _⟩
  have hord2 : order2 = order := by
    rw [htopo] at htopo2
    exact (Except.ok.inj htopo2).symm
  rw [hord2] at hlkeys
  have hfacts := topo_facts hids htopo
  have hfrows := calculateFloats_spec hE hL hF
  rw [getProjectDuration, hE, except_bind_ok] at hpd
  have hpdval : pd = maxFinish erows := (Except.ok.inj hpd).symm
  have hfkeys : frows.map Prod.fst = order := by
    rw [hfrows, List.map_map, ← hekeys]
    rfl
  refine ⟨?_, ?_, ?_⟩
  · intro t ht es ef hEt
    have htls : t.id ∈ lrows.map Prod.fst := by
      rw [hlkeys, List.mem_reverse]
      exact hfacts.2.2.1 t.id (mem_taskIds.mpr ⟨t, ht, rfl⟩)
    rcases alookup_mem_of_key htls with ⟨w, hw⟩
    refine ⟨w.1, w.2, by rw [hw], ?_⟩
    have hmem : (t.id, es, ef) ∈ erows := alookup_mem hEt
    have hmemf : floatsRow tasks lrows erows (t.id, es, ef) ∈ frows := by
      rw [hfrows]
      exact List.mem_map.mpr ⟨(t.id, es, ef), hmem, rfl⟩
    have hnd : (frows.map Prod.fst).Nodup := by
      rw [hfkeys]
      exact hfacts.1
    have halk2 : alookup frows t.id =
        some (round6 ((((alookup lrows t.id).map (·.1)).getD 0) - es),
          round6 (if (succOf tasks t.id).isEmpty then maxFinish erows - ef
                  else freeOfOpt ef (minStartOpt erows (succOf tasks t.id)))) :=
      alookup_of_mem_nodup hnd hmemf
    rw [hw] at halk2
    rw [hpdval]
    exact halk2
  · rw [getCriticalPath, hF, except_bind_ok, hE, except_bind_ok] at hC
    have := Except.ok.inj hC
    rw [← this]
    exact sortByKey_perm _ _
  · rw [getCriticalPath, hF, except_bind_ok, hE, except_bind_ok] at hC
    have hcrit := Except.ok.inj hC
    rw [← hcrit]
    have hpw := sortByKey_pairwise
      (fun a b => decide (esKey erows a < esKey erows b))
      (by
        intro a b hab
        rw [decide_eq_true_eq] at hab
        rw [decide_eq_false_iff_not]
        exact lt_asymm hab)
      (by
        intro a b c hba hcb
        rw [decide_eq_false_iff_not, not_lt] at hba hcb
        rw [decide_eq_false_iff_not, not_lt]
        exact le_trans hba hcb)
      ((frows.filter (fun row => |row.2.1| < 1/1000000)).map (·.1))
    refine List.Pairwise.imp ?_ hpw
    intro a b hab
    rw [decide_eq_false_iff_not, not_lt] at hab
    exact hab

theorem claim_C5_witness :
    (taskIds demoTasks).Nodup ∧
    validateDependencies demoTasks = .ok () ∧
    calculateEarliestDates demoTasks = .ok [("A", 0, 2), ("B", 2, 5)] ∧
    calculateLatestDates demoTasks = .ok [("B", 2, 5), ("A", 0, 2)] ∧
    calculateFloats demoTasks = .ok [("A", 0, 0), ("B", 0, 0)] ∧
    getCriticalPath demoTasks = .ok ["A", "B"] ∧
    getProjectDuration demoTasks = .ok 5 ∧
    (["A", "B"] : List String).Perm
      (([("A", (0 : ℚ), (0 : ℚ)), ("B", 0, 0)].filter
        (fun row => |row.2.1| < 1/1000000)).map (·.1)) ∧
    (["A", "B"] : List String).Pairwise
      (fun a b => esKey [("A", (0 : ℚ), (2 : ℚ)), ("B", 2, 5)] a ≤
        esKey [("A", (0 : ℚ), (2 : ℚ)), ("B", 2, 5)] b) := by
  have h1 : (taskIds demoTasks).Nodup := by decide
  have h2 : validateDependencies demoTasks = .ok () := by decide
  have htopo : getTopologicalSort demoTasks = .ok ["A", "B"] := by decide
  have hE : calculateEarliestDates demoTasks =
      .ok [("A", 0, 2), ("B", 2, 5)] := by
    rw [calculateEarliestDates, htopo]
    repeat (first
      | rfl
      | (simp [demoTasks, earliestRow, esSpec, esStep, alookup, predsOf,
          durOf, findTask, List.foldl, except_map_ok])
      | norm_num)
  have hL : calculateLatestDates demoTasks = .ok [("B", 2, 5), ("A", 0, 2)] := by
    rw [calculateLatestDates, hE, except_bind_ok, latestAux, htopo]
    repeat (first
      | rfl
      | (simp [demoTasks, latestRow, maxFinish, finishOfOpt, minStartOpt,
          minStartHit, optMin1, alookup, predsOf, durOf, findTask, succOf,
          taskIds, List.foldl, except_bind_ok, except_pure])
      | norm_num)
  have hF : calculateFloats demoTasks = .ok [("A", 0, 0), ("B", 0, 0)] := by
    rw [calculateFloats, hE, except_bind_ok, hL, except_bind_ok]
    repeat (first
      | rfl
      | (simp [demoTasks, maxFinish, round6, rne, freeOfOpt, minStartOpt,
          minStartHit, optMin1, alookup, succOf, taskIds, List.foldl,
          except_pure])
      | norm_num)
  have hC : getCriticalPath demoTasks = .ok ["A", "B"] := by
    rw [getCriticalPath, hF, except_bind_ok, hE, except_bind_ok]
    repeat (first
      | rfl
      | (simp [demoTasks, esKey, sortByKey, insertSorted, alookup,
          List.foldl, except_pure])
      | norm_num)
  have hpd : getProjectDuration demoTasks = .ok 5 := by
    rw [getProjectDuration, hE, except_bind_ok]
    repeat (first
      | rfl
      | (simp [maxFinish, List.foldl, except_pure])
      | norm_num)
  have h := claim_C5 demoTasks h1 h2 _ _ _ _ 5 hE hL hF hC hpd
  exact ⟨h1, h2, hE, hL, hF, hC, hpd, h.2.1, h.2.2⟩

set_option maxHeartbeats 2000000 in
/-- **C5** (counterexample to the spec) — the emitted free float is
rounded: on a task of duration `1/10^7`, the spec's free float value is
`1 - 1/10^7`, but `calculate_floats` reports exactly `1` (the rounding
to six decimals collapses the difference). -/
theorem claim_C5_counterexample :
    calculateEarliestDates tinyTasks =
      .ok [("A", 0, 1/10000000), ("B", 0, 1)] ∧
    getProjectDuration tinyTasks = .ok 1 ∧
    calculateFloats tinyTasks = .ok [("A", 1, 1), ("B", 0, 0)] ∧
    alookup [("A", (1 : ℚ), (1 : ℚ)), ("B", 0, 0)] "A" = some (1, 1) ∧
    (1 : ℚ) - 1/10000000 ≠ 1 := by
  have htopo : getTopologicalSort tinyTasks = .ok ["A", "B"] := by decide
  have hE : calculateEarliestDates tinyTasks =
      .ok [("A", 0, 1/10000000), ("B", 0, 1)] := by
    rw [calculateEarliestDates, htopo]
    repeat (first
      | rfl
      | (simp [tinyTasks, earliestRow, esSpec, esStep, alookup, predsOf,
          durOf, findTask, List.foldl, except_map_ok])
      | norm_num)
  have hL : calculateLatestDates tinyTasks =
      .ok [("B", 0, 1), ("A", 9999999/10000000, 1)] := by
    rw [calculateLatestDates, hE, except_bind_ok, latestAux, htopo]
    repeat (first
      | rfl
      | (simp [tinyTasks, latestRow, maxFinish, finishOfOpt, minStartOpt,
          minStartHit, optMin1, alookup, predsOf, durOf, findTask, succOf,
          taskIds, List.foldl, except_bind_ok, except_pure])
      | norm_num)
  have hF : calculateFloats tinyTasks = .ok [("A", 1, 1), ("B", 0, 0)] := by
    rw [calculateFloats, hE, except_bind_ok, hL, except_bind_ok]
    simp [tinyTasks, maxFinish, freeOfOpt, minStartOpt, minStartHit, optMin1,
      alookup, succOf, taskIds, List.foldl, except_pure]
    norm_num [round6, rne, Int.fract]
  refine ⟨hE, ?_, hF, rfl, by norm_num⟩
  rw [getProjectDuration, hE, except_bind_ok]
  repeat (first
    | rfl
    | (simp [maxFinish, List.foldl, except_pure])
    | norm_num)


/-! ## Renumbering analysis (C9, C6) -/

theorem string_append_data (a b : String) : (a ++ b).data = a.data ++ b.data := by
  cases a
  cases b
  rfl

theorem j_append_ne_start (s : String) : "J" ++ s ≠ "Start" := by
  intro h
  have := congrArg String.data h
  rw [string_append_data] at this
  exact absurd (List.head_eq_of_cons_eq this) (by decide)

theorem j_append_ne_fin (s : String) : "J" ++ s ≠ "Fin" := by
  intro h
  have := congrArg String.data h
  rw [string_append_data] at this
  exact absurd (List.head_eq_of_cons_eq this) (by decide)

theorem n_append_ne_start (s : String) : "n" ++ s ≠ "start" := by
  intro h
  have := congrArg String.data h
  rw [string_append_data] at this
  exact absurd (List.head_eq_of_cons_eq this) (by decide)

theorem n_append_ne_end (s : String) : "n" ++ s ≠ "end" := by
  intro h
  have := congrArg String.data h
  rw [string_append_data] at this
  exact absurd (List.head_eq_of_cons_eq this) (by decide)

/-- The nodes the renumbering loop appends, given the starting counter. -/
def renumNodes (c : ℕ) : List AoaNode → List AoaNode
  | [] => []
  | n :: l =>
    if n.label = "Début" then ⟨"start", "Début", 0, some 0⟩ :: renumNodes c l
    else if n.label = "Fin" then ⟨"end", "Fin", n.eet, n.letv⟩ :: renumNodes c l
    else ⟨"n" ++ Nat.repr c, Nat.repr c, n.eet, n.letv⟩ :: renumNodes (c + 1) l

/-- The id map the renumbering loop appends, given the starting counter. -/
def renumMap (c : ℕ) : List AoaNode → List (String × String)
  | [] => []
  | n :: l =>
    if n.label = "Début" then (n.id, "start") :: renumMap c l
    else if n.label = "Fin" then (n.id, "end") :: renumMap c l
    else (n.id, "n" ++ Nat.repr c) :: renumMap (c + 1) l

/-- Number of interior (junction) records in a node list. -/
def countInterior (L : List AoaNode) : ℕ :=
  L.countP (fun n => !(n.label == "Début") && !(n.label == "Fin"))

theorem renumber_foldl :
    ∀ (L : List AoaNode) (c : ℕ) (ns : List AoaNode)
      (im : List (String × String)),
      L.foldl renumberStep ⟨c, ns, im⟩ =
        ⟨c + countInterior L, ns ++ renumNodes c L, im ++ renumMap c L⟩ := by
  intro L
  induction L with
  | nil =>
    intro c ns im
    simp [countInterior, renumNodes, renumMap]
  | cons n l ih =>
    intro c ns im
    rw [List.foldl_cons, renumberStep]
    by_cases h1 : n.label = "Début"
    · rw [if_pos h1, ih]
      rw [show renumNodes c (n :: l) =
        ⟨"start", "Début", 0, some 0⟩ :: renumNodes c l from by
          rw [renumNodes, if_pos h1]]
      rw [show renumMap c (n :: l) = (n.id, "start") :: renumMap c l from by
          rw [renumMap, if_pos h1]]
      rw [show countInterior (n :: l) = countInterior l from by
          rw [countInterior, List.countP_cons]
          simp [countInterior, h1]]
      simp
    · by_cases h2 : n.label = "Fin"
      · rw [if_neg h1, if_pos h2, ih]
        rw [show renumNodes c (n :: l) =
          ⟨"end", "Fin", n.eet, n.letv⟩ :: renumNodes c l from by
            rw [renumNodes, if_neg h1, if_pos h2]]
        rw [show renumMap c (n :: l) = (n.id, "end") :: renumMap c l from by
            rw [renumMap, if_neg h1, if_pos h2]]
        rw [show countInterior (n :: l) = countInterior l from by
            rw [countInterior, List.countP_cons]
            simp [countInterior, h1, h2]]
        simp
      · rw [if_neg h1, if_neg h2, ih]
        rw [show renumNodes c (n :: l) =
          ⟨"n" ++ Nat.repr c, Nat.repr c, n.eet, n.letv⟩ ::
            renumNodes (c + 1) l from by
            rw [renumNodes, if_neg h1, if_neg h2]]
        rw [show renumMap c (n :: l) =
          (n.id, "n" ++ Nat.repr c) :: renumMap (c + 1) l from by
            rw [renumMap, if_neg h1, if_neg h2]]
        rw [show countInterior (n :: l) = countInterior l + 1 from by
            rw [countInterior, List.countP_cons]
            simp [countInterior, h1, h2]]
        simp
        omega

theorem renumber_eq (tasks : List Task) (topo : List String) :
    renumber tasks topo =
      ⟨1 + countInterior (sortedNodes tasks topo),
        renumNodes 1 (sortedNodes tasks topo),
        renumMap 1 (sortedNodes tasks topo)⟩ := by
  rw [renumber, renumber_foldl]
  rfl


theorem renumNodes_length : ∀ (L : List AoaNode) (c : ℕ),
    (renumNodes c L).length = L.length := by
  intro L
  induction L with
  | nil => intro c; rfl
  | cons n l ih =>
    intro c
    rw [renumNodes]
    by_cases h1 : n.label = "Début"
    · rw [if_pos h1, List.length_cons, ih, List.length_cons]
    · by_cases h2 : n.label = "Fin"
      · rw [if_neg h1, if_pos h2, List.length_cons, ih, List.length_cons]
      · rw [if_neg h1, if_neg h2, List.length_cons, ih, List.length_cons]

theorem renumNodes_filter_start : ∀ (L : List AoaNode) (c : ℕ),
    ((renumNodes c L).filter (fun n => n.id == "start")).map (fun n => n.label) =
      List.replicate (L.countP (fun n => n.label == "Début")) "Début" := by
  intro L
  induction L with
  | nil => intro c; rfl
  | cons n l ih =>
    intro c
    rw [renumNodes, List.countP_cons]
    by_cases h1 : n.label = "Début"
    · rw [if_pos h1]
      rw [List.filter_cons_of_pos (by simp), List.map_cons, ih]
      simp [h1, List.replicate_succ]
    · by_cases h2 : n.label = "Fin"
      · rw [if_neg h1, if_pos h2]
        rw [List.filter_cons_of_neg (by simp), ih]
        simp [h1]
      · rw [if_neg h1, if_neg h2]
        rw [List.filter_cons_of_neg (by
          simp only [Bool.not_eq_true, beq_eq_false_iff_ne]
          exact n_append_ne_start (Nat.repr c)), ih]
        simp [h1]

theorem renumNodes_filter_end : ∀ (L : List AoaNode) (c : ℕ),
    ((renumNodes c L).filter (fun n => n.id == "end")).map (fun n => n.label) =
      List.replicate (L.countP (fun n => n.label == "Fin")) "Fin" := by
  intro L
  induction L with
  | nil => intro c; rfl
  | cons n l ih =>
    intro c
    rw [renumNodes, List.countP_cons]
    by_cases h1 : n.label = "Début"
    · rw [if_pos h1]
      rw [List.filter_cons_of_neg (by simp), ih]
      have hne : n.label ≠ "Fin" := by
        rw [h1]
        decide
      simp [hne]
    · by_cases h2 : n.label = "Fin"
      · rw [if_neg h1, if_pos h2]
        rw [List.filter_cons_of_pos (by simp), List.map_cons, ih]
        simp [h2, List.replicate_succ]
      · rw [if_neg h1, if_neg h2]
        rw [List.filter_cons_of_neg (by
          simp only [Bool.not_eq_true, beq_eq_false_iff_ne]
          exact n_append_ne_end (Nat.repr c)), ih]
        simp [h2]

theorem renumNodes_filter_interior : ∀ (L : List AoaNode) (c : ℕ),
    ((renumNodes c L).filter
        (fun n => !(n.id == "start") && !(n.id == "end"))).map
      (fun n => (n.id, n.label)) =
      (List.range' c (countInterior L)).map
        (fun i => ("n" ++ Nat.repr i, Nat.repr i)) := by
  intro L
  induction L with
  | nil => intro c; rfl
  | cons n l ih =>
    intro c
    rw [renumNodes]
    by_cases h1 : n.label = "Début"
    · rw [if_pos h1]
      rw [List.filter_cons_of_neg (by simp),
        show countInterior (n :: l) = countInterior l from by
          rw [countInterior, List.countP_cons]
          simp [countInterior, h1]]
      exact ih c
    · by_cases h2 : n.label = "Fin"
      · rw [if_neg h1, if_pos h2]
        rw [List.filter_cons_of_neg (by simp),
          show countInterior (n :: l) = countInterior l from by
            rw [countInterior, List.countP_cons]
            simp [countInterior, h1, h2]]
        exact ih c
      · rw [if_neg h1, if_neg h2]
        rw [List.filter_cons_of_pos (by
          simp only [Bool.and_eq_true, Bool.not_eq_true', beq_eq_false_iff_ne]
          exact ⟨n_append_ne_start (Nat.repr c), n_append_ne_end (Nat.repr c)⟩),
          show countInterior (n :: l) = countInterior l + 1 from by
            rw [countInterior, List.countP_cons]
            simp [countInterior, h1, h2]]
        rw [List.map_cons, ih (c + 1)]
        rw [show List.range' c (countInterior l + 1) =
          c :: List.range' (c + 1) (countInterior l) from
          List.range'_succ c (countInterior l) 1]
        rfl

theorem renumNodes_eet : ∀ (L : List AoaNode) (c : ℕ),
    (∀ n ∈ L, n.label = "Début" → n.eet = 0) →
    (renumNodes c L).map (fun n => n.eet) = L.map (fun n => n.eet) := by
  intro L
  induction L with
  | nil => intro c _; rfl
  | cons n l ih =>
    intro c hz
    rw [renumNodes]
    by_cases h1 : n.label = "Début"
    · rw [if_pos h1, List.map_cons, List.map_cons,
        ih c (fun m hm => hz m (List.mem_cons_of_mem n hm))]
      have : n.eet = 0 := hz n (List.mem_cons_self n l) h1
      rw [this]
    · by_cases h2 : n.label = "Fin"
      · rw [if_neg h1, if_pos h2, List.map_cons, List.map_cons,
          ih c (fun m hm => hz m (List.mem_cons_of_mem n hm))]
      · rw [if_neg h1, if_neg h2, List.map_cons, List.map_cons,
          ih (c + 1) (fun m hm => hz m (List.mem_cons_of_mem n hm))]


theorem mem_nonemptySigs_isEmpty {tasks : List Task} {topo : List String}
    {s : List String} (h : s ∈ nonemptySigs tasks topo) : s.isEmpty = false := by
  rw [nonemptySigs] at h
  have := (List.mem_filter.mp h).2
  rw [Bool.not_eq_true'] at this
  exact this

theorem jid_of_nonempty {tasks : List Task} {topo : List String}
    {s : List String} (h : s.isEmpty = false) :
    jid tasks topo s =
      "J" ++ Nat.repr (posOf (nonemptySigs tasks topo) s + 1) := by
  rw [jid, if_neg]
  rw [h]
  intro hc
  exact Bool.noConfusion hc

theorem jid_form {tasks : List Task} {topo : List String} {v : String}
    (h : v ∈ (nonemptySigs tasks topo).map (jid tasks topo)) :
    ∃ x, v = "J" ++ x := by
  rcases List.mem_map.mp h with ⟨s, hs, rfl⟩
  exact ⟨_, jid_of_nonempty (mem_nonemptySigs_isEmpty hs)⟩

/-- The label the event dict assigns to the event id `v`. -/
def labelOf (v : String) : String :=
  if v = "Start" then "Début" else if v = "Fin" then "Fin" else ""

theorem preNodes_labels {tasks : List Task} {topo : List String} :
    ∀ n ∈ preNodes tasks topo, n.label = labelOf n.id := by
  intro n hn
  rw [preNodes] at hn
  rcases List.mem_map.mp hn with ⟨v, _, rfl⟩
  rfl

theorem countP_eventIds {tasks : List Task} {topo : List String}
    (p : String → Bool) (hstart : p "Start" = true) (hfin : p "Fin" = false)
    (hj : ∀ x, p ("J" ++ x) = false) :
    (eventIds tasks topo).countP p = 1 := by
  rw [eventIds, List.countP_cons, List.countP_append, hstart]
  have hjz : ((nonemptySigs tasks topo).map (jid tasks topo)).countP p = 0 := by
    rw [List.countP_eq_zero]
    intro v hv
    rcases jid_form hv with ⟨x, rfl⟩
    rw [hj]
    intro hc
    exact Bool.noConfusion hc
  rw [hjz]
  simp [hfin]

theorem preNodes_countP {tasks : List Task} {topo : List String}
    (p : AoaNode → Bool) :
    (preNodes tasks topo).countP p =
      (eventIds tasks topo).countP (fun v =>
        p ⟨v, labelOf v, (alookup (eetTable tasks topo) v).getD 0,
            (alookup (letTable tasks topo) v).getD none⟩) := by
  rw [preNodes, List.countP_map]
  rfl

theorem sortedNodes_countP {tasks : List Task} {topo : List String}
    (p : AoaNode → Bool) :
    (sortedNodes tasks topo).countP p = (preNodes tasks topo).countP p := by
  exact (sortByKey_perm nodeLt (preNodes tasks topo)).countP_eq p

theorem countP_eventIds_interior {tasks : List Task} {topo : List String}
    (p : String → Bool) (hstart : p "Start" = false) (hfin : p "Fin" = false)
    (hj : ∀ x, p ("J" ++ x) = true) :
    (eventIds tasks topo).countP p = (nonemptySigs tasks topo).length := by
  rw [eventIds, List.countP_cons, List.countP_append, hstart]
  have hjl : ((nonemptySigs tasks topo).map (jid tasks topo)).countP p =
      ((nonemptySigs tasks topo).map (jid tasks topo)).length := by
    rw [List.countP_eq_length]
    intro v hv
    rcases jid_form hv with ⟨x, rfl⟩
    exact hj x
  rw [hjl]
  simp [hfin]

theorem sortedNodes_count_debut {tasks : List Task} {topo : List String} :
    (sortedNodes tasks topo).countP (fun n => n.label == "Début") = 1 := by
  rw [sortedNodes_countP, preNodes_countP]
  refine countP_eventIds _ ?_ ?_ ?_
  · show (labelOf "Start" == "Début") = true
    decide
  · show (labelOf "Fin" == "Début") = false
    decide
  · intro x
    show (labelOf ("J" ++ x) == "Début") = false
    rw [labelOf, if_neg (j_append_ne_start x), if_neg (j_append_ne_fin x)]
    decide

theorem countP_eventIds_fin {tasks : List Task} {topo : List String}
    (p : String → Bool) (hstart : p "Start" = false) (hfin : p "Fin" = true)
    (hj : ∀ x, p ("J" ++ x) = false) :
    (eventIds tasks topo).countP p = 1 := by
  rw [eventIds, List.countP_cons, List.countP_append, hstart]
  have hjz : ((nonemptySigs tasks topo).map (jid tasks topo)).countP p = 0 := by
    rw [List.countP_eq_zero]
    intro v hv
    rcases jid_form hv with ⟨x, rfl⟩
    rw [hj]
    intro hc
    exact Bool.noConfusion hc
  rw [hjz]
  simp [hfin]

theorem sortedNodes_count_fin {tasks : List Task} {topo : List String} :
    (sortedNodes tasks topo).countP (fun n => n.label == "Fin") = 1 := by
  rw [sortedNodes_countP, preNodes_countP]
  refine countP_eventIds_fin _ ?_ ?_ ?_
  · show (labelOf "Start" == "Fin") = false
    decide
  · show (labelOf "Fin" == "Fin") = true
    decide
  · intro x
    show (labelOf ("J" ++ x) == "Fin") = false
    rw [labelOf, if_neg (j_append_ne_start x), if_neg (j_append_ne_fin x)]
    decide

theorem sortedNodes_countInterior {tasks : List Task} {topo : List String} :
    countInterior (sortedNodes tasks topo) =
      (nonemptySigs tasks topo).length := by
  rw [countInterior, sortedNodes_countP, preNodes_countP]
  refine countP_eventIds_interior _ ?_ ?_ ?_
  · show (!(labelOf "Start" == "Début") && !(labelOf "Start" == "Fin")) = false
    decide
  · show (!(labelOf "Fin" == "Début") && !(labelOf "Fin" == "Fin")) = false
    decide
  · intro x
    show (!(labelOf ("J" ++ x) == "Début") && !(labelOf ("J" ++ x) == "Fin"))
      = true
    rw [labelOf, if_neg (j_append_ne_start x), if_neg (j_append_ne_fin x)]
    decide

theorem sortedNodes_length {tasks : List Task} {topo : List String} :
    (sortedNodes tasks topo).length = (nonemptySigs tasks topo).length + 2 := by
  rw [sortedNodes, length_sortByKey, preNodes]
  rw [List.length_map, eventIds]
  simp


/-! ## The connection-state invariant and the arc shapes -/

/-- Everything the junction loop guarantees about its state: all recorded
end nodes are junction events, and every dummy arc runs between junction
events with zero duration, no task id, and the dummy flag set. -/
def ConnInv (st : ConnectState) : Prop :=
  (∀ kv ∈ st.endNodes, ∃ x, kv.2 = "J" ++ x) ∧
  (∀ d ∈ st.dummies, (∃ x, d.source = "J" ++ x) ∧ (∃ x, d.target = "J" ++ x) ∧
    d.duration = 0 ∧ d.isDummy = true ∧ d.taskId = none)

theorem connectPred_inv {st : ConnectState} (hst : ConnInv st)
    {junction : String} (hj : ∃ x, junction = "J" ++ x) (p : String) :
    ConnInv (connectPred junction st p) := by
  rw [connectPred]
  rcases halk : alookup st.endNodes p with _ | e
  · refine ⟨?_, hst.2⟩
    intro kv hkv
    rcases List.mem_append.mp hkv with h1 | h1
    · exact hst.1 kv h1
    · rcases List.mem_singleton.mp h1 with rfl
      exact hj
  · refine ⟨hst.1, ?_⟩
    intro d hd
    rcases List.mem_append.mp hd with h1 | h1
    · exact hst.2 d h1
    · rcases List.mem_singleton.mp h1 with rfl
      have he := hst.1 _ (alookup_mem halk)
      exact ⟨he, hj, rfl, rfl, rfl⟩

theorem connectSig_inv {tasks : List Task} {topo : List String}
    {st : ConnectState} (hst : ConnInv st) (s : List String) :
    ConnInv (connectSig tasks topo st s) := by
  rw [connectSig]
  by_cases hs : s.isEmpty = true
  · rw [if_pos hs]
    exact hst
  · rw [if_neg hs]
    have hj : ∃ x, jid tasks topo s = "J" ++ x :=
      ⟨_, jid_of_nonempty (Bool.not_eq_true _ ▸ Bool.eq_false_iff.mpr hs)⟩
    clear hs
    revert hj
    generalize jid tasks topo s = junction
    intro hj
    induction s generalizing st with
    | nil => exact hst
    | cons a l ih =>
      rw [List.foldl_cons]
      exact ih (connectPred_inv hst hj a)

theorem buildConnect_inv (tasks : List Task) (topo : List String) :
    ConnInv (buildConnect tasks topo) := by
  rw [buildConnect]
  have H : ∀ (sigs : List (List String)) (st : ConnectState), ConnInv st →
      ConnInv (sigs.foldl (connectSig tasks topo) st) := by
    intro sigs
    induction sigs with
    | nil => intro st hst; exact hst
    | cons s sigs ih =>
      intro st hst
      rw [List.foldl_cons]
      exact ih _ (connectSig_inv hst s)
  exact H _ _ ⟨by intro kv hkv; exact absurd hkv (by simp),
    by intro d hd; exact absurd hd (by simp)⟩

theorem foldl_skip_append_mem {α β : Type} (p : α → Prop) [DecidablePred p]
    (f : α → β) :
    ∀ (l : List α) (acc : List β) (b : β),
      b ∈ l.foldl (fun acc t => if p t then acc else acc ++ [f t]) acc ↔
        b ∈ acc ∨ ∃ t ∈ l, ¬ p t ∧ b = f t := by
  intro l
  induction l with
  | nil =>
    intro acc b
    simp
  | cons t l ih =>
    intro acc b
    rw [List.foldl_cons]
    by_cases hp : p t
    · rw [if_pos hp, ih]
      constructor
      · rintro (h1 | ⟨u, hu, hpu, rfl⟩)
        · exact Or.inl h1
        · exact Or.inr ⟨u, List.mem_cons_of_mem t hu, hpu, rfl⟩
      · rintro (h1 | ⟨u, hu, hpu, rfl⟩)
        · exact Or.inl h1
        · rcases List.mem_cons.mp hu with rfl | hul
          · exact absurd hp hpu
          · exact Or.inr ⟨u, hul, hpu, rfl⟩
    · rw [if_neg hp, ih]
      constructor
      · rintro (h1 | ⟨u, hu, hpu, rfl⟩)
        · rcases List.mem_append.mp h1 with h2 | h2
          · exact Or.inl h2
          · rcases List.mem_singleton.mp h2 with rfl
            exact Or.inr ⟨t, List.mem_cons_self t l, hp, rfl⟩
        · exact Or.inr ⟨u, List.mem_cons_of_mem t hu, hpu, rfl⟩
      · rintro (h1 | ⟨u, hu, hpu, rfl⟩)
        · exact Or.inl (List.mem_append.mpr (Or.inl h1))
        · rcases List.mem_cons.mp hu with rfl | hul
          · exact Or.inl (List.mem_append.mpr (Or.inr (List.mem_singleton.mpr
              rfl)))
          · exact Or.inr ⟨u, hul, hpu, rfl⟩

theorem realEdges_mem {tasks : List Task} {topo : List String}
    {st : ConnectState} {e : AoaEdge} :
    e ∈ realEdges tasks topo st ↔
      ∃ t ∈ tasks,
        startNodeOf tasks topo t.id ≠ endNodeOf st t.id ∧
        e = ⟨startNodeOf tasks topo t.id, endNodeOf st t.id, some t.id,
          t.duration, false⟩ := by
  rw [realEdges]
  have H := foldl_skip_append_mem
    (fun t : Task => startNodeOf tasks topo t.id = endNodeOf st t.id)
    (fun t : Task => (⟨startNodeOf tasks topo t.id, endNodeOf st t.id,
      some t.id, t.duration, false⟩ : AoaEdge)) tasks [] e
  exact H.trans (by simp)

theorem aoaEdges_target_form {tasks : List Task} {topo : List String}
    {e : AoaEdge} (he : e ∈ aoaEdges tasks topo) :
    (∃ x, e.target = "J" ++ x) ∨ e.target = "Fin" := by
  rw [aoaEdges] at he
  rcases List.mem_append.mp he with h1 | h1
  · exact Or.inl ((buildConnect_inv tasks topo).2 e h1).2.1
  · rcases realEdges_mem.mp h1 with ⟨t, _, _, rfl⟩
    rw [endNodeOf]
    rcases halk : alookup (buildConnect tasks topo).endNodes t.id with _ | v
    · exact Or.inr rfl
    · exact Or.inl ((buildConnect_inv tasks topo).1 _ (alookup_mem halk))

theorem aoaEdges_target_ne_start {tasks : List Task} {topo : List String}
    {e : AoaEdge} (he : e ∈ aoaEdges tasks topo) : e.target ≠ "Start" := by
  rcases aoaEdges_target_form he with ⟨x, hx⟩ | hx
  · rw [hx]
    exact j_append_ne_start x
  · rw [hx]
    decide

theorem relaxEetStep_preserved {acc : List (String × ℚ)} {e : AoaEdge}
    {v : String} (hv : e.target ≠ v) :
    alookup (relaxEetStep acc e) v = alookup acc v := by
  rw [relaxEetStep]
  rcases alookup acc e.source with _ | a
  · rfl
  · rcases alookup acc e.target with _ | b
    · rfl
    · show alookup (if b < a + e.duration then aset acc e.target (a + e.duration)
        else acc) v = alookup acc v
      by_cases h : b < a + e.duration
      · rw [if_pos h]
        exact alookup_aset_ne _ _ (fun hc => hv hc.symm)
      · rw [if_neg h]

theorem relaxEetPass_preserved {v : String} :
    ∀ (edges : List AoaEdge), (∀ e ∈ edges, e.target ≠ v) →
    ∀ acc, alookup (relaxEetPass edges acc) v = alookup acc v := by
  intro edges
  induction edges with
  | nil => intro _ acc; rfl
  | cons e l ih =>
    intro hv acc
    show alookup (List.foldl relaxEetStep (relaxEetStep acc e) l) v =
      alookup acc v
    rw [show List.foldl relaxEetStep (relaxEetStep acc e) l =
      relaxEetPass l (relaxEetStep acc e) from rfl]
    rw [ih (fun e' he' => hv e' (List.mem_cons_of_mem e he')) _]
    exact relaxEetStep_preserved (hv e (List.mem_cons_self e l))

theorem relaxEetIter_preserved {edges : List AoaEdge} {v : String}
    (hv : ∀ e ∈ edges, e.target ≠ v) :
    ∀ (k : ℕ) (acc : List (String × ℚ)),
      alookup (relaxEetIter edges k acc) v = alookup acc v := by
  intro k
  induction k with
  | zero => intro acc; rfl
  | succ k ih =>
    intro acc
    rw [relaxEetIter, ih, relaxEetPass_preserved _ hv]

theorem eetTable_start {tasks : List Task} {topo : List String} :
    alookup (eetTable tasks topo) "Start" = some 0 := by
  rw [eetTable]
  rw [relaxEetIter_preserved (fun e he => aoaEdges_target_ne_start he)]
  rw [eventIds, List.map_cons, alookup_cons, if_pos rfl]

theorem preNodes_debut_eet {tasks : List Task} {topo : List String} :
    ∀ n ∈ preNodes tasks topo, n.label = "Début" → n.eet = 0 := by
  intro n hn hl
  rw [preNodes] at hn
  rcases List.mem_map.mp hn with ⟨v, _, rfl⟩
  dsimp only at hl ⊢
  by_cases h1 : v = "Start"
  · rw [h1, eetTable_start]
    rfl
  · by_cases h2 : v = "Fin"
    · rw [if_neg h1, if_pos h2] at hl
      exact absurd hl (by decide)
    · rw [if_neg h1, if_neg h2] at hl
      exact absurd hl (by decide)


theorem nodeLt_true_iff (a b : AoaNode) :
    nodeLt a b = true ↔
      (a.eet < b.eet ∨ (a.eet = b.eet ∧ a.id < b.id)) := by
  rw [nodeLt]
  simp [Bool.or_eq_true, Bool.and_eq_true, decide_eq_true_eq, beq_iff_eq]

theorem nodeLt_false_iff (a b : AoaNode) :
    nodeLt a b = false ↔
      (¬ a.eet < b.eet ∧ (a.eet = b.eet → ¬ a.id < b.id)) := by
  rw [← Bool.not_eq_true, nodeLt_true_iff]
  constructor
  · intro h
    constructor
    · intro hc
      exact h (Or.inl hc)
    · intro he hc
      exact h (Or.inr ⟨he, hc⟩)
  · rintro ⟨h1, h2⟩ (hc | ⟨he, hc⟩)
    · exact h1 hc
    · exact h2 he hc

theorem nodeLt_asymm {a b : AoaNode} (h : nodeLt a b = true) :
    nodeLt b a = false := by
  rw [nodeLt_true_iff] at h
  rw [nodeLt_false_iff]
  rcases h with h1 | ⟨he, hid⟩
  · exact ⟨lt_asymm h1, fun he => absurd h1 (by rw [he]; exact lt_irrefl _)⟩
  · exact ⟨by rw [he]; exact lt_irrefl _, fun _ => lt_asymm hid⟩

theorem nodeLt_trans_false {a b c : AoaNode} (hba : nodeLt b a = false)
    (hcb : nodeLt c b = false) : nodeLt c a = false := by
  rw [nodeLt_false_iff] at hba hcb ⊢
  have hab : a.eet ≤ b.eet := not_lt.mp hba.1
  have hbc : b.eet ≤ c.eet := not_lt.mp hcb.1
  refine ⟨not_lt.mpr (le_trans hab hbc), ?_⟩
  intro hce hc
  have hbe : b.eet = a.eet := le_antisymm (by rw [← hce]; exact hbc) hab
  have hcbe : c.eet = b.eet := by rw [hce, hbe]
  have h1 : a.id ≤ b.id := not_lt.mp (hba.2 hbe)
  have h2 : b.id ≤ c.id := not_lt.mp (hcb.2 hcbe)
  exact absurd hc (not_lt.mpr (le_trans h1 h2))

theorem sortedNodes_pairwise {tasks : List Task} {topo : List String} :
    (sortedNodes tasks topo).Pairwise (fun a b => a.eet ≤ b.eet) := by
  have h := sortByKey_pairwise nodeLt (fun a b => nodeLt_asymm)
    (fun a b c => nodeLt_trans_false) (preNodes tasks topo)
  rw [sortedNodes]
  refine List.Pairwise.imp ?_ h
  intro a b hab
  rw [nodeLt_false_iff] at hab
  exact not_lt.mp hab.1

/-- **C9** (amended) — the AoA output nodes: the unique node with id
`"start"` is labeled `"Début"` (not `"Start"` as the spec says), the
unique node with id `"end"` is labeled `"Fin"` (not `"End"`), interior
nodes carry ids `n1..nN` and sequential integer labels `1..N` in order,
and the node list is sorted by nondecreasing event EET. -/
theorem claim_C9 (tasks : List Task) (nodes : List AoaNode)
    (edges : List AoaOutEdge)
    (hok : getAoaStructure tasks = .ok (nodes, edges)) :
    ((nodes.filter (fun n => n.id == "start")).map (fun n => n.label) =
      ["Début"]) ∧
    ((nodes.filter (fun n => n.id == "end")).map (fun n => n.label) =
      ["Fin"]) ∧
    (∃ k, ((nodes.filter
        (fun n => !(n.id == "start") && !(n.id == "end"))).map
          (fun n => (n.id, n.label))) =
        (List.range' 1 k).map (fun i => ("n" ++ Nat.repr i, Nat.repr i)) ∧
      nodes.length = k + 2) ∧
    nodes.Pairwise (fun a b => a.eet ≤ b.eet) ∧
    ("Début" : String) ≠ "Start" ∧ ("Fin" : String) ≠ "End" := by
  rcases htopo : getTopologicalSort tasks with e | order
  · rw [getAoaStructure, htopo] at hok
    exact absurd hok (by simp [except_bind_error])
  · rw [getAoaStructure, htopo, except_bind_ok] at hok
    have hpair := Except.ok.inj hok
    have hnodes : nodes = renumNodes 1 (sortedNodes tasks order) := by
      have h1 := congrArg Prod.fst hpair
      rw [show ((renumber tasks order).nodes,
          finalEdges (renumber tasks order).idMap
            (aoaEdges tasks order)).fst = (renumber tasks order).nodes
          from rfl] at h1
      rw [renumber_eq] at h1
      exact h1.symm
    subst hnodes
    refine ⟨?_, ?_, ?_, ?_, by decide, by decide⟩
    · rw [renumNodes_filter_start, sortedNodes_count_debut]
      rfl
    · rw [renumNodes_filter_end, sortedNodes_count_fin]
      rfl
    · refine ⟨countInterior (sortedNodes tasks order),
        renumNodes_filter_interior _ 1, ?_⟩
      rw [renumNodes_length, sortedNodes_length, sortedNodes_countInterior]
    · have hz : ∀ n ∈ sortedNodes tasks order, n.label = "Début" → n.eet = 0 := by
        intro n hn
        exact preNodes_debut_eet n ((mem_sortByKey nodeLt _ n).mp hn)
      have heq := renumNodes_eet (sortedNodes tasks order) 1 hz
      have hpw : ((sortedNodes tasks order).map (fun n => n.eet)).Pairwise
          (fun x y => x ≤ y) := by
        rw [List.pairwise_map]
        exact sortedNodes_pairwise
      rw [← heq] at hpw
      rw [← List.pairwise_map]
      exact hpw


set_option maxHeartbeats 2000000 in
theorem claim_C9_witness :
    getAoaStructure demoTasks =
      .ok ([⟨"start", "Début", 0, some 0⟩, ⟨"n1", "1", 2, some 2⟩,
            ⟨"end", "Fin", 5, some 5⟩],
           [⟨"e0", "start", "n1", false, some "A", 2⟩,
            ⟨"e1", "n1", "end", false, some "B", 3⟩]) ∧
    (([⟨"start", "Début", 0, some 0⟩, ⟨"n1", "1", 2, some 2⟩,
       ⟨"end", "Fin", 5, some 5⟩] : List AoaNode).filter
        (fun n => n.id == "start")).map (fun n => n.label) = ["Début"] ∧
    ([⟨"start", "Début", 0, some 0⟩, ⟨"n1", "1", 2, some 2⟩,
      ⟨"end", "Fin", 5, some 5⟩] : List AoaNode).Pairwise
        (fun a b => a.eet ≤ b.eet) := by
  have htopo : getTopologicalSort demoTasks = .ok ["A", "B"] := by decide
  have hok : getAoaStructure demoTasks =
      .ok ([⟨"start", "Début", 0, some 0⟩, ⟨"n1", "1", 2, some 2⟩,
            ⟨"end", "Fin", 5, some 5⟩],
           [⟨"e0", "start", "n1", false, some "A", 2⟩,
            ⟨"e1", "n1", "end", false, some "B", 3⟩]) := by
    rw [getAoaStructure, htopo, except_bind_ok]
    repeat (first
      | rfl
      | (simp [demoTasks, renumber, renumberStep, sortedNodes, sortByKey,
          insertSorted, nodeLt, preNodes, eventIds, eetTable, letTable,
          relaxEetIter, relaxEetPass, relaxEetStep, eetStep2, relaxLetIter,
          relaxLetPass, relaxLetStep, letStep2, projectDurationAoa, subE, ltE,
          aoaEdges, buildConnect, connectSig, connectPred, connectHit,
          realEdges, startNodeOf, endNodeOf, sigList, sigOfId, sigOf,
          nonemptySigs, jid, posOf, dedupF, findTask, alookup, aset,
          taskIds, List.foldl, finalEdges, enumFrom, except_pure, nat_repr_0,
          nat_repr_1, nat_repr_2, nat_repr_3])
      | norm_num)
  have h := claim_C9 demoTasks _ _ hok
  exact ⟨hok, h.1, h.2.2.2.1⟩

set_option maxHeartbeats 2000000 in
/-- **C9** (counterexample to the spec) — on a concrete two-task chain,
the AoA output's start node is labeled `"Début"`, not `"Start"`, and its
end node is labeled `"Fin"`, not `"End"`, contradicting the spec's stated
labels. -/
theorem claim_C9_counterexample :
    getAoaStructure demoTasks =
      .ok ([⟨"start", "Début", 0, some 0⟩, ⟨"n1", "1", 2, some 2⟩,
            ⟨"end", "Fin", 5, some 5⟩],
           [⟨"e0", "start", "n1", false, some "A", 2⟩,
            ⟨"e1", "n1", "end", false, some "B", 3⟩]) ∧
    (∀ n ∈ ([⟨"start", "Début", 0, some 0⟩, ⟨"n1", "1", 2, some 2⟩,
        ⟨"end", "Fin", 5, some 5⟩] : List AoaNode),
      (n.id = "start" → n.label ≠ "Start") ∧
      (n.id = "end" → n.label ≠ "End")) := by
  have htopo : getTopologicalSort demoTasks = .ok ["A", "B"] := by decide
  refine ⟨?_, by decide⟩
  rw [getAoaStructure, htopo, except_bind_ok]
  repeat (first
    | rfl
    | (simp [demoTasks, renumber, renumberStep, sortedNodes, sortByKey,
        insertSorted, nodeLt, preNodes, eventIds, eetTable, letTable,
        relaxEetIter, relaxEetPass, relaxEetStep, eetStep2, relaxLetIter,
        relaxLetPass, relaxLetStep, letStep2, projectDurationAoa, subE, ltE,
        aoaEdges, buildConnect, connectSig, connectPred, connectHit,
        realEdges, startNodeOf, endNodeOf, sigList, sigOfId, sigOf,
        nonemptySigs, jid, posOf, dedupF, findTask, alookup, aset,
        taskIds, List.foldl, finalEdges, enumFrom, except_pure, nat_repr_0,
        nat_repr_1, nat_repr_2, nat_repr_3])
    | norm_num)


/-! ## Junction-id injectivity and the id map (C6) -/

theorem posOf_inj {α : Type} [DecidableEq α] :
    ∀ {l : List α} {a b : α}, a ∈ l → b ∈ l →
      posOf l a = posOf l b → a = b := by
  intro l
  induction l with
  | nil => intro a b ha _ _; exact absurd ha (by simp)
  | cons s ss ih =>
    intro a b ha hb h
    rw [posOf, posOf] at h
    by_cases h1 : s = a
    · by_cases h2 : s = b
      · rw [← h1, ← h2]
      · rw [if_pos h1, if_neg h2] at h
        exact absurd h.symm (Nat.succ_ne_zero _)
    · by_cases h2 : s = b
      · rw [if_neg h1, if_pos h2] at h
        exact absurd h (Nat.succ_ne_zero _)
      · rw [if_neg h1, if_neg h2] at h
        have ha' : a ∈ ss := by
          rcases List.mem_cons.mp ha with hc | hc
          · exact absurd hc.symm h1
          · exact hc
        have hb' : b ∈ ss := by
          rcases List.mem_cons.mp hb with hc | hc
          · exact absurd hc.symm h2
          · exact hc
        exact ih ha' hb' (Nat.succ_injective h)

theorem isEmpty_eq_nil {α : Type} {s : List α} (h : s.isEmpty = true) :
    s = [] := by
  cases s with
  | nil => rfl
  | cons a l => exact absurd h (by simp)

theorem mem_nonemptySigs_of_sigList {tasks : List Task} {topo : List String}
    {s : List String} (hs : s ∈ sigList tasks topo) (hne : s.isEmpty = false) :
    s ∈ nonemptySigs tasks topo := by
  rw [nonemptySigs, List.mem_filter]
  exact ⟨hs, by rw [hne]; rfl⟩

theorem jid_inj {tasks : List Task} {topo : List String} {s1 s2 : List String}
    (h1 : s1 ∈ sigList tasks topo) (h2 : s2 ∈ sigList tasks topo)
    (heq : jid tasks topo s1 = jid tasks topo s2) : s1 = s2 := by
  rcases he1 : s1.isEmpty with _ | _
  · rcases he2 : s2.isEmpty with _ | _
    · rw [jid_of_nonempty he1, jid_of_nonempty he2] at heq
      have := string_append_nat_repr_inj "J" heq
      have hpos : posOf (nonemptySigs tasks topo) s1 =
          posOf (nonemptySigs tasks topo) s2 := by omega
      exact posOf_inj (mem_nonemptySigs_of_sigList h1 he1)
        (mem_nonemptySigs_of_sigList h2 he2) hpos
    · rw [jid_of_nonempty he1, jid, if_pos he2] at heq
      exact absurd heq (j_append_ne_start _)
  · rcases he2 : s2.isEmpty with _ | _
    · rw [jid, if_pos he1, jid_of_nonempty he2] at heq
      exact absurd heq.symm (j_append_ne_start _)
    · rw [isEmpty_eq_nil he1, isEmpty_eq_nil he2]

theorem renumMap_keys : ∀ (L : List AoaNode) (c : ℕ),
    (renumMap c L).map Prod.fst = L.map (fun n => n.id) := by
  intro L
  induction L with
  | nil => intro c; rfl
  | cons n l ih =>
    intro c
    rw [renumMap]
    by_cases h1 : n.label = "Début"
    · rw [if_pos h1, List.map_cons, ih, List.map_cons]
    · by_cases h2 : n.label = "Fin"
      · rw [if_neg h1, if_pos h2, List.map_cons, ih, List.map_cons]
      · rw [if_neg h1, if_neg h2, List.map_cons, ih, List.map_cons]

theorem n_append_inj {m k : ℕ} (h : "n" ++ Nat.repr m = "n" ++ Nat.repr k) :
    m = k :=
  string_append_nat_repr_inj "n" h

theorem renumMap_vals_shape : ∀ (L : List AoaNode) (c : ℕ),
    ∀ v ∈ (renumMap c L).map Prod.snd,
      (v = "start" ∧ 1 ≤ L.countP (fun n => n.label == "Début")) ∨
      (v = "end" ∧ 1 ≤ L.countP (fun n => n.label == "Fin")) ∨
      (∃ k, c ≤ k ∧ v = "n" ++ Nat.repr k) := by
  intro L
  induction L with
  | nil =>
    intro c v hv
    rw [renumMap] at hv
    exact absurd hv (by simp)
  | cons n l ih =>
    intro c v hv
    rw [renumMap] at hv
    by_cases h1 : n.label = "Début"
    · rw [if_pos h1, List.map_cons] at hv
      rcases List.mem_cons.mp hv with rfl | hv'
      · refine Or.inl ⟨rfl, ?_⟩
        rw [List.countP_cons]
        simp [h1]
      · rcases ih c v hv' with ⟨he, hcnt⟩ | ⟨he, hcnt⟩ | h
        · refine Or.inl ⟨he, ?_⟩
          rw [List.countP_cons]
          omega
        · refine Or.inr (Or.inl ⟨he, ?_⟩)
          rw [List.countP_cons]
          omega
        · exact Or.inr (Or.inr h)
    · by_cases h2 : n.label = "Fin"
      · rw [if_neg h1, if_pos h2, List.map_cons] at hv
        rcases List.mem_cons.mp hv with rfl | hv'
        · refine Or.inr (Or.inl ⟨rfl, ?_⟩)
          rw [List.countP_cons]
          simp [h2]
        · rcases ih c v hv' with ⟨he, hcnt⟩ | ⟨he, hcnt⟩ | h
          · refine Or.inl ⟨he, ?_⟩
            rw [List.countP_cons]
            omega
          · refine Or.inr (Or.inl ⟨he, ?_⟩)
            rw [List.countP_cons]
            omega
          · exact Or.inr (Or.inr h)
      · rw [if_neg h1, if_neg h2, List.map_cons] at hv
        rcases List.mem_cons.mp hv with rfl | hv'
        · exact Or.inr (Or.inr ⟨c, le_refl c, rfl⟩)
        · rcases ih (c + 1) v hv' with ⟨he, hcnt⟩ | ⟨he, hcnt⟩ | ⟨k, hk, hkv⟩
          · refine Or.inl ⟨he, ?_⟩
            rw [List.countP_cons]
            omega
          · refine Or.inr (Or.inl ⟨he, ?_⟩)
            rw [List.countP_cons]
            omega
          · exact Or.inr (Or.inr ⟨k, by omega, hkv⟩)

theorem renumMap_vals_nodup : ∀ (L : List AoaNode) (c : ℕ),
    L.countP (fun n => n.label == "Début") ≤ 1 →
    L.countP (fun n => n.label == "Fin") ≤ 1 →
    ((renumMap c L).map Prod.snd).Nodup := by
  intro L
  induction L with
  | nil => intro c _ _; exact List.nodup_nil
  | cons n l ih =>
    intro c hd hf
    rw [List.countP_cons] at hd hf
    rw [renumMap]
    by_cases h1 : n.label = "Début"
    · rw [if_pos h1, List.map_cons]
      refine List.nodup_cons.mpr ⟨?_, ih c (by omega) (by omega)⟩
      intro hc
      have hzero : l.countP (fun n => n.label == "Début") = 0 := by
        have : (if (n.label == "Début") = true then 1 else 0) = 1 := by
          simp [h1]
        omega
      rcases renumMap_vals_shape l c _ hc with ⟨_, hcnt⟩ | ⟨he, _⟩ | ⟨k, _, he⟩
      · omega
      · have he' : ("start" : String) = "end" := he
        exact absurd he' (by decide)
      · exact absurd he (n_append_ne_start (Nat.repr k)).symm
    · by_cases h2 : n.label = "Fin"
      · rw [if_neg h1, if_pos h2, List.map_cons]
        refine List.nodup_cons.mpr ⟨?_, ih c (by omega) (by omega)⟩
        intro hc
        have hzero : l.countP (fun n => n.label == "Fin") = 0 := by
          have : (if (n.label == "Fin") = true then 1 else 0) = 1 := by
            simp [h2]
          omega
        rcases renumMap_vals_shape l c _ hc with ⟨he, _⟩ | ⟨_, hcnt⟩ | ⟨k, _, he⟩
        · have he' : ("end" : String) = "start" := he
          exact absurd he' (by decide)
        · omega
        · exact absurd he (n_append_ne_end (Nat.repr k)).symm
      · rw [if_neg h1, if_neg h2, List.map_cons]
        refine List.nodup_cons.mpr ⟨?_, ih (c + 1) (by omega) (by omega)⟩
        intro hc
        rcases renumMap_vals_shape l (c + 1) _ hc with ⟨he, _⟩ | ⟨he, _⟩ |
          ⟨k, hk, he⟩
        · exact absurd he (n_append_ne_start (Nat.repr c))
        · exact absurd he (n_append_ne_end (Nat.repr c))
        · have := n_append_inj he
          omega

theorem alookup_inj_of_vals_nodup {α : Type} [DecidableEq α]
    {l : List (String × α)} (hvals : (l.map Prod.snd).Nodup)
    {u v : String} {x y : α} (hx : alookup l u = some x)
    (hy : alookup l v = some y) (huv : u ≠ v) : x ≠ y := by
  intro hxy
  subst hxy
  have hmx : (u, x) ∈ l := alookup_mem hx
  have hmy : (v, x) ∈ l := alookup_mem hy
  have := List.inj_on_of_nodup_map hvals hmx hmy rfl
  exact huv (congrArg Prod.fst this)


/-- The refined connection invariant: each end-node entry names the
junction of a processed nonempty signature containing that task, and each
dummy arc joins two distinct junctions of processed signatures. -/
def CI (tasks : List Task) (topo : List String) (done : List (List String))
    (st : ConnectState) : Prop :=
  (∀ kv ∈ st.endNodes, ∃ s' ∈ done, s'.isEmpty = false ∧
    kv.2 = jid tasks topo s' ∧ kv.1 ∈ s') ∧
  (∀ d ∈ st.dummies, d.source ≠ d.target ∧
    (∃ s' ∈ done, s'.isEmpty = false ∧ d.source = jid tasks topo s') ∧
    (∃ s' ∈ done, s'.isEmpty = false ∧ d.target = jid tasks topo s'))

theorem connect_fold_CI {tasks : List Task} {topo : List String}
    {done : List (List String)} {s : List String}
    (hdone : ∀ s' ∈ done, s' ∈ sigList tasks topo)
    (hs : s ∈ sigList tasks topo) (hnotdone : s ∉ done)
    (hnd : s.Nodup) :
    ∀ (post pre : List String) (st : ConnectState), s = pre ++ post →
      (∀ kv ∈ st.endNodes,
        (∃ s' ∈ done, s'.isEmpty = false ∧ kv.2 = jid tasks topo s' ∧
          kv.1 ∈ s') ∨ (kv.2 = jid tasks topo s ∧ kv.1 ∈ pre)) →
      (∀ d ∈ st.dummies, d.source ≠ d.target ∧
        (∃ s' ∈ done, s'.isEmpty = false ∧ d.source = jid tasks topo s') ∧
        ((∃ s' ∈ done, s'.isEmpty = false ∧ d.target = jid tasks topo s') ∨
          d.target = jid tasks topo s)) →
      (∀ kv ∈ (post.foldl (connectPred (jid tasks topo s)) st).endNodes,
        (∃ s' ∈ done, s'.isEmpty = false ∧ kv.2 = jid tasks topo s' ∧
          kv.1 ∈ s') ∨ (kv.2 = jid tasks topo s ∧ kv.1 ∈ s)) ∧
      (∀ d ∈ (post.foldl (connectPred (jid tasks topo s)) st).dummies,
        d.source ≠ d.target ∧
        (∃ s' ∈ done, s'.isEmpty = false ∧ d.source = jid tasks topo s') ∧
        ((∃ s' ∈ done, s'.isEmpty = false ∧ d.target = jid tasks topo s') ∨
          d.target = jid tasks topo s)) := by
  intro post
  induction post with
  | nil =>
    intro pre st hsplit hen hdum
    rw [List.foldl_nil]
    refine ⟨?_, hdum⟩
    intro kv hkv
    rcases hen kv hkv with h | ⟨h1, h2⟩
    · exact Or.inl h
    · refine Or.inr ⟨h1, ?_⟩
      rw [hsplit, List.append_nil]
      exact h2
  | cons p rest ih =>
    intro pre st hsplit hen hdum
    rw [List.foldl_cons, connectPred]
    have hpnotpre : p ∉ pre := by
      intro hc
      rw [hsplit] at hnd
      rw [List.nodup_append] at hnd
      exact hnd.2.2 hc (List.mem_cons_self p rest)
    rcases halk : alookup st.endNodes p with _ | e
    · -- no end node yet: assign the junction
      refine ih (pre ++ [p]) _ (by rw [hsplit, List.append_assoc]; rfl) ?_ hdum
      intro kv hkv
      rcases List.mem_append.mp hkv with h1 | h1
      · rcases hen kv h1 with h | ⟨h2, h3⟩
        · exact Or.inl h
        · exact Or.inr ⟨h2, List.mem_append.mpr (Or.inl h3)⟩
      · rcases List.mem_singleton.mp h1 with rfl
        exact Or.inr ⟨rfl, List.mem_append.mpr (Or.inr (List.mem_singleton.mpr
          rfl))⟩
    · -- an end node exists: emit a dummy arc
      have hmem := alookup_mem halk
      rcases hen _ hmem with ⟨s', hs'd, hs'ne, he, hps'⟩ | ⟨he, hppre⟩
      · refine ih (pre ++ [p]) _ (by rw [hsplit, List.append_assoc]; rfl) ?_ ?_
        · intro kv hkv
          rcases hen kv hkv with h | ⟨h2, h3⟩
          · exact Or.inl h
          · exact Or.inr ⟨h2, List.mem_append.mpr (Or.inl h3)⟩
        · intro d hd
          rcases List.mem_append.mp hd with h1 | h1
          · exact hdum d h1
          · rcases List.mem_singleton.mp h1 with rfl
            have he' : e = jid tasks topo s' := he
            refine ⟨?_, ⟨s', hs'd, hs'ne, he'⟩, Or.inr rfl⟩
            show e ≠ jid tasks topo s
            rw [he']
            intro hc
            have : s' = s := jid_inj (hdone s' hs'd) hs hc
            rw [this] at hs'd
            exact hnotdone hs'd
      · exact absurd hppre hpnotpre

theorem sig_nodup {tasks : List Task}
    (hpreds : ∀ t ∈ tasks, t.predecessors.Nodup) {topo : List String}
    {s : List String} (hs : s ∈ sigList tasks topo) : s.Nodup := by
  rw [sigList, mem_dedupF] at hs
  rcases List.mem_map.mp hs with ⟨tid, _, rfl⟩
  rw [sigOfId]
  rcases hf : findTask tasks tid with _ | t
  · exact List.nodup_nil
  · show (sigOf t).Nodup
    rw [sigOf]
    have := (sortByKey_perm (fun a b => a < b) t.predecessors).nodup_iff
    rw [this]
    rcases findTask_some hf with ⟨ht, _⟩
    exact hpreds t ht

theorem buildConnect_CI {tasks : List Task} {topo : List String}
    (hpreds : ∀ t ∈ tasks, t.predecessors.Nodup) :
    CI tasks topo (sigList tasks topo) (buildConnect tasks topo) := by
  rw [buildConnect]
  have hnds : (sigList tasks topo).Nodup := nodup_dedupF _
  have H : ∀ (rest done : List (List String)) (st : ConnectState),
      sigList tasks topo = done ++ rest →
      CI tasks topo done st →
      CI tasks topo (done ++ rest) (rest.foldl (connectSig tasks topo) st) := by
    intro rest
    induction rest with
    | nil =>
      intro done st _ hci
      rw [List.foldl_nil, List.append_nil]
      exact hci
    | cons s rest ih =>
      intro done st hsplit hci
      rw [List.foldl_cons]
      have hsl : s ∈ sigList tasks topo := by
        rw [hsplit]
        exact List.mem_append.mpr (Or.inr (List.mem_cons_self s rest))
      have hnotdone : s ∉ done := by
        intro hc
        rw [hsplit, List.nodup_append] at hnds
        exact hnds.2.2 hc (List.mem_cons_self s rest)
      have hstep : CI tasks topo (done ++ [s])
          (connectSig tasks topo st s) := by
        rw [connectSig]
        by_cases hemp : s.isEmpty = true
        · rw [if_pos hemp]
          refine ⟨?_, ?_⟩
          · intro kv hkv
            rcases hci.1 kv hkv with ⟨s', h1, h2, h3, h4⟩
            exact ⟨s', List.mem_append.mpr (Or.inl h1), h2, h3, h4⟩
          · intro d hd
            rcases hci.2 d hd with ⟨h1, ⟨s', hs1, hs2, hs3⟩, ⟨s'', ht1, ht2, ht3⟩⟩
            exact ⟨h1, ⟨s', List.mem_append.mpr (Or.inl hs1), hs2, hs3⟩,
              ⟨s'', List.mem_append.mpr (Or.inl ht1), ht2, ht3⟩⟩
        · rw [if_neg hemp]
          have hne : s.isEmpty = false := Bool.eq_false_iff.mpr hemp
          have hfold := connect_fold_CI
            (fun s' hs' => by rw [hsplit]; exact List.mem_append.mpr (Or.inl hs'))
            hsl hnotdone (sig_nodup hpreds hsl) s [] st (by rw [List.nil_append])
            (by
              intro kv hkv
              exact Or.inl (hci.1 kv hkv))
            (by
              intro d hd
              rcases hci.2 d hd with ⟨h1, h2, h3⟩
              exact ⟨h1, h2, Or.inl h3⟩)
          refine ⟨?_, ?_⟩
          · intro kv hkv
            rcases hfold.1 kv hkv with ⟨s', h1, h2, h3, h4⟩ | ⟨h1, h2⟩
            · exact ⟨s', List.mem_append.mpr (Or.inl h1), h2, h3, h4⟩
            · exact ⟨s, List.mem_append.mpr (Or.inr (List.mem_singleton.mpr
                rfl)), hne, h1, h2⟩
          · intro d hd
            rcases hfold.2 d hd with ⟨h1, ⟨s', hs1, hs2, hs3⟩, hres⟩
            refine ⟨h1, ⟨s', List.mem_append.mpr (Or.inl hs1), hs2, hs3⟩, ?_⟩
            rcases hres with ⟨s'', ht1, ht2, ht3⟩ | ht
            · exact ⟨s'', List.mem_append.mpr (Or.inl ht1), ht2, ht3⟩
            · exact ⟨s, List.mem_append.mpr (Or.inr (List.mem_singleton.mpr
                rfl)), hne, ht⟩
      have := ih (done ++ [s]) _ (by rw [hsplit, List.append_assoc]; rfl) hstep
      rw [List.append_assoc] at this
      rw [show done ++ s :: rest = done ++ ([s] ++ rest) from by
        rw [List.singleton_append]]
      exact this
  have := H (sigList tasks topo) [] ⟨[], []⟩ (by rw [List.nil_append])
    ⟨by intro kv hkv; exact absurd hkv (by simp),
     by intro d hd; exact absurd hd (by simp)⟩
  rw [List.nil_append] at this
  exact this


theorem sigOf_mem_sigList {tasks : List Task} (hids : (taskIds tasks).Nodup)
    {topo : List String} (htopo : getTopologicalSort tasks = .ok topo)
    {t : Task} (ht : t ∈ tasks) : sigOf t ∈ sigList tasks topo := by
  rw [sigList, mem_dedupF]
  refine List.mem_map.mpr ⟨t.id, ?_, sigOfId_eq hids ht⟩
  exact (topo_facts hids htopo).2.2.1 t.id (mem_taskIds.mpr ⟨t, ht, rfl⟩)

theorem real_no_selfloop {tasks : List Task} (hids : (taskIds tasks).Nodup)
    (hpreds : ∀ t ∈ tasks, t.predecessors.Nodup) {topo : List String}
    (htopo : getTopologicalSort tasks = .ok topo) {t : Task} (ht : t ∈ tasks) :
    startNodeOf tasks topo t.id ≠ endNodeOf (buildConnect tasks topo) t.id := by
  have hstart : startNodeOf tasks topo t.id = jid tasks topo (sigOf t) := by
    rw [startNodeOf, sigOfId_eq hids ht]
  rw [endNodeOf]
  rcases halk : alookup (buildConnect tasks topo).endNodes t.id with _ | e
  · -- no recorded end node: the shared end event "Fin"
    rw [hstart]
    show jid tasks topo (sigOf t) ≠ (none : Option String).getD "Fin"
    rcases hemp : (sigOf t).isEmpty with _ | _
    · rw [jid_of_nonempty hemp]
      exact j_append_ne_fin _
    · rw [jid, if_pos hemp]
      decide
  · rcases (buildConnect_CI hpreds).1 _ (alookup_mem halk) with
      ⟨s', hs'm, hs'ne, he, hts'⟩
    have he' : e = jid tasks topo s' := he
    rw [hstart]
    show jid tasks topo (sigOf t) ≠ (some e).getD "Fin"
    show jid tasks topo (sigOf t) ≠ e
    rw [he']
    intro hc
    have hsig : sigOf t = s' :=
      jid_inj (sigOf_mem_sigList hids htopo ht) hs'm hc
    have hself : t.id ∈ t.predecessors := by
      have : t.id ∈ sigOf t := by
        rw [hsig]
        exact hts'
      rw [sigOf, mem_sortByKey] at this
      exact this
    exact absurd ⟨t.id, [], List.Chain.cons ⟨t, ht, rfl, hself⟩
      List.Chain.nil⟩ (getTopo_ok_no_cycle hids htopo)

theorem foldl_skip_append_eq_map {α β : Type} (p : α → Prop) [DecidablePred p]
    (f : α → β) :
    ∀ (l : List α) (acc : List β), (∀ t ∈ l, ¬ p t) →
      l.foldl (fun acc t => if p t then acc else acc ++ [f t]) acc =
        acc ++ l.map f := by
  intro l
  induction l with
  | nil => intro acc _; simp
  | cons t l ih =>
    intro acc hnp
    rw [List.foldl_cons, if_neg (hnp t (List.mem_cons_self t l)),
      ih _ (fun u hu => hnp u (List.mem_cons_of_mem t hu)), List.map_cons]
    simp

theorem realEdges_eq_map {tasks : List Task} (hids : (taskIds tasks).Nodup)
    (hpreds : ∀ t ∈ tasks, t.predecessors.Nodup) {topo : List String}
    (htopo : getTopologicalSort tasks = .ok topo) :
    realEdges tasks topo (buildConnect tasks topo) =
      tasks.map (fun t => (⟨startNodeOf tasks topo t.id,
        endNodeOf (buildConnect tasks topo) t.id, some t.id, t.duration,
        false⟩ : AoaEdge)) := by
  rw [realEdges]
  have := foldl_skip_append_eq_map
    (fun t : Task => startNodeOf tasks topo t.id =
      endNodeOf (buildConnect tasks topo) t.id)
    (fun t : Task => (⟨startNodeOf tasks topo t.id,
      endNodeOf (buildConnect tasks topo) t.id, some t.id, t.duration,
      false⟩ : AoaEdge)) tasks []
    (fun t ht => real_no_selfloop hids hpreds htopo ht)
  exact this

theorem tasks_filter_id {tasks : List Task} (hids : (taskIds tasks).Nodup)
    {t : Task} (ht : t ∈ tasks) :
    tasks.filter (fun u => u.id == t.id) = [t] := by
  induction tasks with
  | nil => exact absurd ht (by simp)
  | cons u l ih =>
    rw [taskIds_cons] at hids
    have hnd := List.nodup_cons.mp hids
    by_cases hu : u.id = t.id
    · have hteq : t = u := by
        rcases List.mem_cons.mp ht with h1 | h1
        · exact h1
        · exfalso
          apply hnd.1
          rw [hu]
          exact mem_taskIds.mpr ⟨t, h1, rfl⟩
      rw [List.filter_cons_of_pos (by simp [hu])]
      rw [List.filter_eq_nil_iff.mpr ?_, hteq]
      intro v hv
      simp only [beq_iff_eq]
      intro hc
      apply hnd.1
      rw [hu, ← hc]
      exact mem_taskIds.mpr ⟨v, hv, rfl⟩
    · have htl : t ∈ l := by
        rcases List.mem_cons.mp ht with h1 | h1
        · exact absurd (by rw [h1]) hu
        · exact h1
      rw [List.filter_cons_of_neg (by simp [hu])]
      exact ih hnd.2 htl

theorem enumFrom_filter_map {α γ : Type} (q : α → Bool) (g : α → γ) :
    ∀ (l : List α) (i : ℕ),
      ((enumFrom i l).filter (fun ie => q ie.2)).map (fun ie => g ie.2) =
        (l.filter q).map g := by
  intro l
  induction l with
  | nil => intro i; rfl
  | cons x l ih =>
    intro i
    rw [enumFrom]
    rcases hq : q x with _ | _
    · rw [List.filter_cons_of_neg (by simp [hq]),
        List.filter_cons_of_neg (by simp [hq])]
      exact ih (i + 1)
    · rw [List.filter_cons_of_pos (by simp [hq]),
        List.filter_cons_of_pos (by simp [hq]), List.map_cons, List.map_cons,
        ih (i + 1)]

theorem mem_enumFrom {α : Type} {x : ℕ × α} :
    ∀ {l : List α} {i : ℕ}, x ∈ enumFrom i l → x.2 ∈ l := by
  intro l
  induction l with
  | nil => intro i hx; exact absurd hx (by simp [enumFrom])
  | cons a l ih =>
    intro i hx
    rw [enumFrom] at hx
    rcases List.mem_cons.mp hx with rfl | hx'
    · exact List.mem_cons_self a l
    · exact List.mem_cons_of_mem a (ih hx')


theorem jid_mem_eventIds {tasks : List Task} {topo : List String}
    {s : List String} (hs : s ∈ sigList tasks topo) :
    jid tasks topo s ∈ eventIds tasks topo := by
  rw [eventIds]
  rcases hemp : s.isEmpty with _ | _
  · refine List.mem_cons_of_mem _ (List.mem_append.mpr (Or.inl ?_))
    exact List.mem_map.mpr ⟨s, mem_nonemptySigs_of_sigList hs hemp, rfl⟩
  · rw [jid, if_pos hemp]
    exact List.mem_cons_self _ _

theorem fin_mem_eventIds {tasks : List Task} {topo : List String} :
    "Fin" ∈ eventIds tasks topo := by
  rw [eventIds]
  exact List.mem_cons_of_mem _ (List.mem_append.mpr (Or.inr
    (List.mem_singleton.mpr rfl)))

theorem aoaEdges_endpoints {tasks : List Task} (hids : (taskIds tasks).Nodup)
    (hpreds : ∀ t ∈ tasks, t.predecessors.Nodup) {topo : List String}
    (htopo : getTopologicalSort tasks = .ok topo) :
    ∀ e ∈ aoaEdges tasks topo,
      e.source ∈ eventIds tasks topo ∧ e.target ∈ eventIds tasks topo ∧
      e.source ≠ e.target := by
  intro e he
  rw [aoaEdges] at he
  rcases List.mem_append.mp he with h1 | h1
  · rcases (buildConnect_CI hpreds).2 e h1 with
      ⟨hne, ⟨s1, hs1, _, hsrc⟩, ⟨s2, hs2, _, htgt⟩⟩
    rw [hsrc, htgt]
    exact ⟨jid_mem_eventIds hs1, jid_mem_eventIds hs2, by
      rw [← hsrc, ← htgt]; exact hne⟩
  · rw [realEdges_eq_map hids hpreds htopo] at h1
    rcases List.mem_map.mp h1 with ⟨t, ht, rfl⟩
    refine ⟨?_, ?_, real_no_selfloop hids hpreds htopo ht⟩
    · show startNodeOf tasks topo t.id ∈ eventIds tasks topo
      rw [startNodeOf, sigOfId_eq hids ht]
      exact jid_mem_eventIds (sigOf_mem_sigList hids htopo ht)
    · show endNodeOf (buildConnect tasks topo) t.id ∈ eventIds tasks topo
      rw [endNodeOf]
      rcases halk : alookup (buildConnect tasks topo).endNodes t.id with _ | v
      · exact fin_mem_eventIds
      · rcases (buildConnect_CI hpreds).1 _ (alookup_mem halk) with
          ⟨s', hs', _, hv, _⟩
        have hv' : v = jid tasks topo s' := hv
        show v ∈ eventIds tasks topo
        rw [hv']
        exact jid_mem_eventIds hs'

theorem preNodes_ids {tasks : List Task} {topo : List String} :
    (preNodes tasks topo).map (fun n => n.id) = eventIds tasks topo := by
  rw [preNodes, List.map_map]
  show (eventIds tasks topo).map (fun v => v) = eventIds tasks topo
  induction eventIds tasks topo with
  | nil => rfl
  | cons v l ih => rw [List.map_cons, ih]

theorem idMap_lookup {tasks : List Task} {topo : List String} {u : String}
    (hu : u ∈ eventIds tasks topo) :
    ∃ w, alookup (renumMap 1 (sortedNodes tasks topo)) u = some w := by
  apply alookup_mem_of_key
  rw [renumMap_keys]
  have hperm : ((sortedNodes tasks topo).map (fun n => n.id)).Perm
      ((preNodes tasks topo).map (fun n => n.id)) :=
    (sortByKey_perm nodeLt (preNodes tasks topo)).map _
  rw [hperm.mem_iff, preNodes_ids]
  exact hu

theorem idMap_vals_nodup {tasks : List Task} {topo : List String} :
    ((renumMap 1 (sortedNodes tasks topo)).map Prod.snd).Nodup :=
  renumMap_vals_nodup _ 1 (le_of_eq sortedNodes_count_debut)
    (le_of_eq sortedNodes_count_fin)

/-- **C6** (amended) — for every acyclic task set with duplicate-free
ids and duplicate-free predecessor lists, the AoA output has exactly one
non-dummy arc per task (carrying that task's id and duration), every
dummy arc has duration 0 and no task id, and no emitted arc is a
self-loop.  (Without the duplicate-free-predecessors hypothesis the
self-loop skip is reachable; see the counterexample.) -/
theorem claim_C6 (tasks : List Task) (hids : (taskIds tasks).Nodup)
    (hpreds : ∀ t ∈ tasks, t.predecessors.Nodup)
    (nodes : List AoaNode) (edges : List AoaOutEdge)
    (hok : getAoaStructure tasks = .ok (nodes, edges)) :
    (∀ t ∈ tasks, (edges.filter (fun e => e.taskId == some t.id)).map
        (fun e => (e.isDummy, e.duration)) = [(false, t.duration)]) ∧
    (∀ e ∈ edges, e.isDummy = true → e.duration = 0 ∧ e.taskId = none) ∧
    (∀ e ∈ edges, e.source ≠ e.target) := by
  rcases htopo : getTopologicalSort tasks with er | topo
  · rw [getAoaStructure, htopo] at hok
    exact absurd hok (by simp [except_bind_error])
  · rw [getAoaStructure, htopo, except_bind_ok] at hok
    have hpair := Except.ok.inj hok
    have hedges : edges = finalEdges (renumMap 1 (sortedNodes tasks topo))
        (aoaEdges tasks topo) := by
      have h2 := congrArg Prod.snd hpair
      rw [show ((renumber tasks topo).nodes,
          finalEdges (renumber tasks topo).idMap
            (aoaEdges tasks topo)).snd = finalEdges
              (renumber tasks topo).idMap (aoaEdges tasks topo) from rfl] at h2
      rw [renumber_eq] at h2
      exact h2.symm
    subst hedges
    refine ⟨?_, ?_, ?_⟩
    · -- exactly one real arc per task
      intro t ht
      have hstep1 : ((finalEdges (renumMap 1 (sortedNodes tasks topo))
            (aoaEdges tasks topo)).filter
              (fun e => e.taskId == some t.id)).map
              (fun e => (e.isDummy, e.duration)) =
          ((aoaEdges tasks topo).filter
            (fun d => d.taskId == some t.id)).map
            (fun d => (d.isDummy, d.duration)) := by
        rw [finalEdges, List.map_filter, List.map_map]
        exact enumFrom_filter_map (fun d => d.taskId == some t.id)
          (fun d => (d.isDummy, d.duration)) (aoaEdges tasks topo) 0
      rw [hstep1, aoaEdges]
      rw [List.filter_append]
      have hdums : (buildConnect tasks topo).dummies.filter
          (fun d => d.taskId == some t.id) = [] := by
        rw [List.filter_eq_nil_iff]
        intro d hd
        have := ((buildConnect_inv tasks topo).2 d hd).2.2.2.2
        rw [this]
        simp
      rw [hdums, List.nil_append, realEdges_eq_map hids hpreds htopo,
        List.map_filter]
      have hfilt : tasks.filter ((fun d : AoaEdge => d.taskId == some t.id) ∘
          (fun t => (⟨startNodeOf tasks topo t.id,
            endNodeOf (buildConnect tasks topo) t.id, some t.id, t.duration,
            false⟩ : AoaEdge))) = tasks.filter (fun u => u.id == t.id) := by
        apply List.filter_congr
        intro u _
        show (some u.id == some t.id) = (u.id == t.id)
        rcases h : u.id == t.id with _ | _
        · rw [beq_eq_false_iff_ne] at h
          rw [beq_eq_false_iff_ne]
          intro hc
          exact h (Option.some.inj hc)
        · rw [beq_iff_eq] at h
          rw [h]
          simp
      rw [hfilt, tasks_filter_id hids ht]
      rfl
    · -- dummy arcs carry duration 0 and no task id
      intro e he hdum
      rw [finalEdges] at he
      rcases List.mem_map.mp he with ⟨ie, hie, rfl⟩
      have hd : ie.2 ∈ aoaEdges tasks topo := mem_enumFrom hie
      rw [aoaEdges] at hd
      rcases List.mem_append.mp hd with h1 | h1
      · have hi := (buildConnect_inv tasks topo).2 _ h1
        exact ⟨hi.2.2.1, hi.2.2.2.2⟩
      · rw [realEdges_eq_map hids hpreds htopo] at h1
        rcases List.mem_map.mp h1 with ⟨u, hu, hmk⟩
        have : ie.2.isDummy = false := by rw [← hmk]
        rw [show (⟨"e" ++ Nat.repr ie.1,
            (alookup (renumMap 1 (sortedNodes tasks topo)) ie.2.source).getD
              ie.2.source,
            (alookup (renumMap 1 (sortedNodes tasks topo)) ie.2.target).getD
              ie.2.target,
            ie.2.isDummy, ie.2.taskId, ie.2.duration⟩ :
            AoaOutEdge).isDummy = ie.2.isDummy from rfl, this] at hdum
        exact Bool.noConfusion hdum
    · -- no self-loops in the output
      intro e he
      rw [finalEdges] at he
      rcases List.mem_map.mp he with ⟨ie, hie, rfl⟩
      have hd : ie.2 ∈ aoaEdges tasks topo := mem_enumFrom hie
      rcases aoaEdges_endpoints hids hpreds htopo _ hd with ⟨hsm, htm, hne⟩
      rcases idMap_lookup hsm with ⟨w1, hw1⟩
      rcases idMap_lookup htm with ⟨w2, hw2⟩
      show (alookup (renumMap 1 (sortedNodes tasks topo)) ie.2.source).getD
          ie.2.source ≠
        (alookup (renumMap 1 (sortedNodes tasks topo)) ie.2.target).getD
          ie.2.target
      rw [hw1, hw2]
      exact alookup_inj_of_vals_nodup idMap_vals_nodup hw1 hw2 hne


set_option maxHeartbeats 2000000 in
theorem claim_C6_witness :
    (taskIds demoTasks).Nodup ∧
    (∀ t ∈ demoTasks, t.predecessors.Nodup) ∧
    getAoaStructure demoTasks =
      .ok ([⟨"start", "Début", 0, some 0⟩, ⟨"n1", "1", 2, some 2⟩,
            ⟨"end", "Fin", 5, some 5⟩],
           [⟨"e0", "start", "n1", false, some "A", 2⟩,
            ⟨"e1", "n1", "end", false, some "B", 3⟩]) ∧
    (∀ e ∈ ([⟨"e0", "start", "n1", false, some "A", 2⟩,
        ⟨"e1", "n1", "end", false, some "B", 3⟩] : List AoaOutEdge),
      e.source ≠ e.target) := by
  have h1 : (taskIds demoTasks).Nodup := by decide
  have h2 : ∀ t ∈ demoTasks, t.predecessors.Nodup := by decide
  have htopo : getTopologicalSort demoTasks = .ok ["A", "B"] := by decide
  have hok : getAoaStructure demoTasks =
      .ok ([⟨"start", "Début", 0, some 0⟩, ⟨"n1", "1", 2, some 2⟩,
            ⟨"end", "Fin", 5, some 5⟩],
           [⟨"e0", "start", "n1", false, some "A", 2⟩,
            ⟨"e1", "n1", "end", false, some "B", 3⟩]) := by
    rw [getAoaStructure, htopo, except_bind_ok]
    repeat (first
      | rfl
      | (simp [demoTasks, renumber, renumberStep, sortedNodes, sortByKey,
          insertSorted, nodeLt, preNodes, eventIds, eetTable, letTable,
          relaxEetIter, relaxEetPass, relaxEetStep, eetStep2, relaxLetIter,
          relaxLetPass, relaxLetStep, letStep2, projectDurationAoa, subE, ltE,
          aoaEdges, buildConnect, connectSig, connectPred, connectHit,
          realEdges, startNodeOf, endNodeOf, sigList, sigOfId, sigOf,
          nonemptySigs, jid, posOf, dedupF, findTask, alookup, aset,
          taskIds, List.foldl, finalEdges, enumFrom, except_pure, nat_repr_0,
          nat_repr_1, nat_repr_2, nat_repr_3])
      | norm_num)
  exact ⟨h1, h2, hok, (claim_C6 demoTasks h1 h2 _ _ hok).2.2⟩

set_option maxHeartbeats 2000000 in
/-- **C6** (counterexample to the spec) — a duplicated predecessor entry
(`B` lists `A` twice) drives the construction through the duplicate
branch: the emitted AoA output contains the dummy self-loop arc
`e0 : n1 → n1`, so "no emitted arc has source equal to target" is false
of this code on valid (acyclic, known-predecessor) input. -/
theorem claim_C6_counterexample :
    getAoaStructure dupTasks =
      .ok ([⟨"start", "Début", 0, some 0⟩, ⟨"n1", "1", 1, some 1⟩,
            ⟨"end", "Fin", 2, some 2⟩],
           [⟨"e0", "n1", "n1", true, none, 0⟩,
            ⟨"e1", "start", "n1", false, some "A", 1⟩,
            ⟨"e2", "n1", "end", false, some "B", 1⟩]) ∧
    (∃ e ∈ ([⟨"e0", "n1", "n1", true, none, 0⟩,
        ⟨"e1", "start", "n1", false, some "A", 1⟩,
        ⟨"e2", "n1", "end", false, some "B", 1⟩] : List AoaOutEdge),
      e.source = e.target) ∧
    validateDependencies dupTasks = .ok () := by
  have htopo : getTopologicalSort dupTasks = .ok ["A", "B"] := by decide
  refine ⟨?_, ⟨⟨"e0", "n1", "n1", true, none, 0⟩, by decide, rfl⟩, by decide⟩
  rw [getAoaStructure, htopo, except_bind_ok]
  repeat (first
    | rfl
    | (simp [dupTasks, renumber, renumberStep, sortedNodes, sortByKey,
        insertSorted, nodeLt, preNodes, eventIds, eetTable, letTable,
        relaxEetIter, relaxEetPass, relaxEetStep, eetStep2, relaxLetIter,
        relaxLetPass, relaxLetStep, letStep2, projectDurationAoa, subE, ltE,
        aoaEdges, buildConnect, connectSig, connectPred, connectHit,
        realEdges, startNodeOf, endNodeOf, sigList, sigOfId, sigOf,
        nonemptySigs, jid, posOf, dedupF, findTask, alookup, aset,
        taskIds, List.foldl, finalEdges, enumFrom, except_pure, nat_repr_0,
        nat_repr_1, nat_repr_2, nat_repr_3])
    | norm_num)


/-! ## C2: ranks of events along arcs -/

theorem posOf_eq_indexOf {α : Type} [DecidableEq α] [BEq α] [LawfulBEq α] :
    ∀ (l : List α) (x : α), posOf l x = l.indexOf x := by
  intro l
  induction l with
  | nil => intro x; rfl
  | cons s ss ih =>
    intro x
    rw [posOf]
    by_cases h : s = x
    · rw [if_pos h, h, idx_cons_self]
    · rw [if_neg h, idx_cons_ne ss h, ih]

theorem jids_nodup {tasks : List Task} {topo : List String} :
    ((nonemptySigs tasks topo).map (jid tasks topo)).Nodup := by
  have hnd : (nonemptySigs tasks topo).Nodup :=
    (nodup_dedupF _).filter _
  refine List.Nodup.map_on ?_ hnd
  intro s1 hs1 s2 hs2 heq
  have h1 : s1 ∈ sigList tasks topo := (List.mem_filter.mp hs1).1
  have h2 : s2 ∈ sigList tasks topo := (List.mem_filter.mp hs2).1
  exact jid_inj h1 h2 heq

theorem start_not_mem_jids {tasks : List Task} {topo : List String} :
    "Start" ∉ (nonemptySigs tasks topo).map (jid tasks topo) := by
  intro hc
  rcases jid_form hc with ⟨x, hx⟩
  exact j_append_ne_start x hx.symm

theorem fin_not_mem_jids {tasks : List Task} {topo : List String} :
    "Fin" ∉ (nonemptySigs tasks topo).map (jid tasks topo) := by
  intro hc
  rcases jid_form hc with ⟨x, hx⟩
  exact j_append_ne_fin x hx.symm

theorem eventIds_nodup {tasks : List Task} {topo : List String} :
    (eventIds tasks topo).Nodup := by
  rw [eventIds]
  refine List.nodup_cons.mpr ⟨?_, ?_⟩
  · intro hc
    rcases List.mem_append.mp hc with h1 | h1
    · exact start_not_mem_jids h1
    · rcases List.mem_singleton.mp h1 with h2
      exact absurd h2 (by decide)
  · rw [List.nodup_append]
    refine ⟨jids_nodup, List.nodup_singleton _, ?_⟩
    intro v hv hc
    rcases List.mem_singleton.mp hc with rfl
    exact fin_not_mem_jids hv

theorem rank_start {tasks : List Task} {topo : List String} :
    rankOf tasks topo "Start" = 0 := by
  rw [rankOf, eventIds, idx_cons_self]

theorem rank_jid {tasks : List Task} {topo : List String} {s : List String}
    (hs : s ∈ nonemptySigs tasks topo) :
    rankOf tasks topo (jid tasks topo s) =
      (nonemptySigs tasks topo).indexOf s + 1 := by
  have hne : s.isEmpty = false := mem_nonemptySigs_isEmpty hs
  have hjs : jid tasks topo s ∈ (nonemptySigs tasks topo).map (jid tasks topo) :=
    List.mem_map.mpr ⟨s, hs, rfl⟩
  rw [rankOf, eventIds]
  rw [idx_cons_ne _ (fun hc => by
    rcases jid_form hjs with ⟨x, hx⟩
    rw [hx] at hc
    exact j_append_ne_start x hc.symm)]
  rw [idx_append_left _ hjs]
  rcases indexOf_map_exists (jid tasks topo) hjs with ⟨u, hu, huv, hidx⟩
  have : u = s := jid_inj ((List.mem_filter.mp hu).1)
    ((List.mem_filter.mp hs).1) huv
  rw [hidx, this]

theorem rank_fin {tasks : List Task} {topo : List String} :
    rankOf tasks topo "Fin" =
      ((nonemptySigs tasks topo).map (jid tasks topo)).length + 1 := by
  rw [rankOf, eventIds]
  rw [idx_cons_ne _ (by decide)]
  rw [idx_append_not_mem _ fin_not_mem_jids, idx_cons_self]

theorem rank_lt_fin {tasks : List Task} {topo : List String} {v : String}
    (hv : v ∈ eventIds tasks topo) (hne : v ≠ "Fin") :
    rankOf tasks topo v < rankOf tasks topo "Fin" := by
  rw [rank_fin]
  rw [eventIds] at hv
  rcases List.mem_cons.mp hv with rfl | hv'
  · rw [rank_start]
    omega
  · rcases List.mem_append.mp hv' with h1 | h1
    · rcases List.mem_map.mp h1 with ⟨s, hs, rfl⟩
      rw [rank_jid hs]
      have := idx_lt_of_mem hs
      have hlen : (nonemptySigs tasks topo).length =
          ((nonemptySigs tasks topo).map (jid tasks topo)).length := by
        rw [List.length_map]
      omega
    · rcases List.mem_singleton.mp h1 with rfl
      exact absurd rfl hne

theorem rank_pos_of_jid {tasks : List Task} {topo : List String}
    {s : List String} (hs : s ∈ nonemptySigs tasks topo) :
    0 < rankOf tasks topo (jid tasks topo s) := by
  rw [rank_jid hs]
  omega

theorem sig_rank_mono {tasks : List Task} {topo : List String}
    {s1 s2 : List String} (h1 : s1 ∈ nonemptySigs tasks topo)
    (h2 : s2 ∈ nonemptySigs tasks topo)
    (hlt : (sigList tasks topo).indexOf s1 < (sigList tasks topo).indexOf s2) :
    rankOf tasks topo (jid tasks topo s1) <
      rankOf tasks topo (jid tasks topo s2) := by
  rw [rank_jid h1, rank_jid h2]
  have hne : s1 ≠ s2 := by
    intro hc
    rw [hc] at hlt
    exact Nat.lt_irrefl _ hlt
  have := indexOf_filter_lt (fun s : List String => !s.isEmpty) hne
    (by show (!s1.isEmpty) = true; rw [mem_nonemptySigs_isEmpty h1]; rfl)
    ((List.mem_filter.mp h1).1) hlt
  rw [nonemptySigs]
  omega


/-- Ordered-dummy property: a dummy arc joins the junctions of two
signatures, the source's created strictly earlier. -/
def DumOrd (tasks : List Task) (topo : List String) (d : AoaEdge) : Prop :=
  ∃ s1 s2, s1 ∈ sigList tasks topo ∧ s2 ∈ sigList tasks topo ∧
    s1.isEmpty = false ∧ s2.isEmpty = false ∧
    d.source = jid tasks topo s1 ∧ d.target = jid tasks topo s2 ∧
    (sigList tasks topo).indexOf s1 < (sigList tasks topo).indexOf s2

theorem connect_fold_CI2 {tasks : List Task} {topo : List String}
    {done rest : List (List String)} {s : List String}
    (hsplit : sigList tasks topo = done ++ s :: rest)
    (hnd : s.Nodup) (hse : s.isEmpty = false) :
    ∀ (post pre : List String) (st : ConnectState), s = pre ++ post →
      (∀ kv ∈ st.endNodes,
        (∃ s' ∈ done, s'.isEmpty = false ∧ kv.2 = jid tasks topo s' ∧
          kv.1 ∈ s') ∨ (kv.2 = jid tasks topo s ∧ kv.1 ∈ pre)) →
      (∀ d ∈ st.dummies, DumOrd tasks topo d) →
      (∀ kv ∈ (post.foldl (connectPred (jid tasks topo s)) st).endNodes,
        (∃ s' ∈ done, s'.isEmpty = false ∧ kv.2 = jid tasks topo s' ∧
          kv.1 ∈ s') ∨ (kv.2 = jid tasks topo s ∧ kv.1 ∈ s)) ∧
      (∀ d ∈ (post.foldl (connectPred (jid tasks topo s)) st).dummies,
        DumOrd tasks topo d) := by
  have hnds : (sigList tasks topo).Nodup := nodup_dedupF _
  have hsnotdone : s ∉ done := by
    intro hc
    rw [hsplit, List.nodup_append] at hnds
    exact hnds.2.2 hc (List.mem_cons_self s rest)
  have hidx_s : (sigList tasks topo).indexOf s = done.length := by
    rw [hsplit, idx_append_not_mem _ hsnotdone, idx_cons_self]
    omega
  intro post
  induction post with
  | nil =>
    intro pre st hsp hen hdum
    rw [List.foldl_nil]
    refine ⟨?_, hdum⟩
    intro kv hkv
    rcases hen kv hkv with h | ⟨h1, h2⟩
    · exact Or.inl h
    · refine Or.inr ⟨h1, ?_⟩
      rw [hsp, List.append_nil]
      exact h2
  | cons p rest2 ih =>
    intro pre st hsp hen hdum
    rw [List.foldl_cons, connectPred]
    have hpnotpre : p ∉ pre := by
      intro hc
      rw [hsp] at hnd
      rw [List.nodup_append] at hnd
      exact hnd.2.2 hc (List.mem_cons_self p rest2)
    rcases halk : alookup st.endNodes p with _ | e
    · refine ih (pre ++ [p]) _ (by rw [hsp, List.append_assoc]; rfl) ?_ hdum
      intro kv hkv
      rcases List.mem_append.mp hkv with h1 | h1
      · rcases hen kv h1 with h | ⟨h2, h3⟩
        · exact Or.inl h
        · exact Or.inr ⟨h2, List.mem_append.mpr (Or.inl h3)⟩
      · rcases List.mem_singleton.mp h1 with rfl
        exact Or.inr ⟨rfl, List.mem_append.mpr (Or.inr (List.mem_singleton.mpr
          rfl))⟩
    · have hmem := alookup_mem halk
      rcases hen _ hmem with ⟨s1, hs1d, hs1ne, he, _⟩ | ⟨_, hppre⟩
      · refine ih (pre ++ [p]) _ (by rw [hsp, List.append_assoc]; rfl) ?_ ?_
        · intro kv hkv
          rcases hen kv hkv with h | ⟨h2, h3⟩
          · exact Or.inl h
          · exact Or.inr ⟨h2, List.mem_append.mpr (Or.inl h3)⟩
        · intro d hd
          rcases List.mem_append.mp hd with h1 | h1
          · exact hdum d h1
          · rcases List.mem_singleton.mp h1 with rfl
            have he' : e = jid tasks topo s1 := he
            have hm1 : s1 ∈ sigList tasks topo := by
              rw [hsplit]
              exact List.mem_append.mpr (Or.inl hs1d)
            have hm2 : s ∈ sigList tasks topo := by
              rw [hsplit]
              exact List.mem_append.mpr (Or.inr (List.mem_cons_self s rest))
            have h1lt : (sigList tasks topo).indexOf s1 < done.length := by
              rw [hsplit, idx_append_left _ hs1d]
              exact idx_lt_of_mem hs1d
            exact ⟨s1, s, hm1, hm2, hs1ne, hse, he', rfl, by omega⟩
      · exact absurd hppre hpnotpre

theorem buildConnect_CI2 {tasks : List Task} {topo : List String}
    (hpreds : ∀ t ∈ tasks, t.predecessors.Nodup) :
    (∀ kv ∈ (buildConnect tasks topo).endNodes,
      ∃ s' ∈ sigList tasks topo, s'.isEmpty = false ∧
        kv.2 = jid tasks topo s' ∧ kv.1 ∈ s') ∧
    (∀ d ∈ (buildConnect tasks topo).dummies, DumOrd tasks topo d) := by
  rw [buildConnect]
  have H : ∀ (rest done : List (List String)) (st : ConnectState),
      sigList tasks topo = done ++ rest →
      (∀ kv ∈ st.endNodes, ∃ s' ∈ done, s'.isEmpty = false ∧
        kv.2 = jid tasks topo s' ∧ kv.1 ∈ s') →
      (∀ d ∈ st.dummies, DumOrd tasks topo d) →
      (∀ kv ∈ (rest.foldl (connectSig tasks topo) st).endNodes,
        ∃ s' ∈ done ++ rest, s'.isEmpty = false ∧
          kv.2 = jid tasks topo s' ∧ kv.1 ∈ s') ∧
      (∀ d ∈ (rest.foldl (connectSig tasks topo) st).dummies,
        DumOrd tasks topo d) := by
    intro rest
    induction rest with
    | nil =>
      intro done st _ hen hdum
      rw [List.foldl_nil]
      refine ⟨?_, hdum⟩
      intro kv hkv
      rcases hen kv hkv with ⟨s', h1, h2, h3, h4⟩
      exact ⟨s', by rw [List.append_nil]; exact h1, h2, h3, h4⟩
    | cons s rest ih =>
      intro done st hsplit hen hdum
      rw [List.foldl_cons]
      have hstep :
          (∀ kv ∈ (connectSig tasks topo st s).endNodes,
            ∃ s' ∈ done ++ [s], s'.isEmpty = false ∧
              kv.2 = jid tasks topo s' ∧ kv.1 ∈ s') ∧
          (∀ d ∈ (connectSig tasks topo st s).dummies,
            DumOrd tasks topo d) := by
        rw [connectSig]
        by_cases hemp : s.isEmpty = true
        · rw [if_pos hemp]
          refine ⟨?_, hdum⟩
          intro kv hkv
          rcases hen kv hkv with ⟨s', h1, h2, h3, h4⟩
          exact ⟨s', List.mem_append.mpr (Or.inl h1), h2, h3, h4⟩
        · rw [if_neg hemp]
          have hse : s.isEmpty = false := Bool.eq_false_iff.mpr hemp
          have hsl : s ∈ sigList tasks topo := by
            rw [hsplit]
            exact List.mem_append.mpr (Or.inr (List.mem_cons_self s rest))
          have hfold := connect_fold_CI2 hsplit (sig_nodup hpreds hsl) hse
            s [] st (by rw [List.nil_append])
            (by
              intro kv hkv
              exact Or.inl (hen kv hkv))
            hdum
          refine ⟨?_, hfold.2⟩
          intro kv hkv
          rcases hfold.1 kv hkv with ⟨s', h1, h2, h3, h4⟩ | ⟨h1, h2⟩
          · exact ⟨s', List.mem_append.mpr (Or.inl h1), h2, h3, h4⟩
          · exact ⟨s, List.mem_append.mpr (Or.inr (List.mem_singleton.mpr
              rfl)), hse, h1, h2⟩
      have := ih (done ++ [s]) _ (by rw [hsplit, List.append_assoc]; rfl)
        hstep.1 hstep.2
      rw [List.append_assoc] at this
      rw [show done ++ s :: rest = done ++ ([s] ++ rest) from by
        rw [List.singleton_append]]
      exact this
  have := H (sigList tasks topo) [] ⟨[], []⟩ (by rw [List.nil_append])
    (by intro kv hkv; exact absurd hkv (by simp))
    (by intro d hd; exact absurd hd (by simp))
  rw [List.nil_append] at this
  exact this

theorem sig_first_lt {tasks : List Task} (hids : (taskIds tasks).Nodup)
    {topo : List String} (htopo : getTopologicalSort tasks = .ok topo)
    {t : Task} (ht : t ∈ tasks) {s' : List String}
    (hs' : s' ∈ sigList tasks topo) (hts' : t.id ∈ s') :
    (sigList tasks topo).indexOf (sigOf t) <
      (sigList tasks topo).indexOf s' := by
  have hfacts := topo_facts hids htopo
  have hnotself : sigOf t ≠ s' := by
    intro hc
    rw [← hc, sigOf, mem_sortByKey] at hts'
    exact absurd ⟨t.id, [], List.Chain.cons ⟨t, ht, rfl, hts'⟩
      List.Chain.nil⟩ (getTopo_ok_no_cycle hids htopo)
  have hsL : s' ∈ topo.map (sigOfId tasks) := by
    rw [sigList, mem_dedupF] at hs'
    exact hs'
  rcases indexOf_map_exists (sigOfId tasks) hsL with ⟨u, hu, hsu, hidxu⟩
  rcases mem_taskIds.mp (hfacts.2.1 u hu) with ⟨w, hw, hwid⟩
  have hsw : s' = sigOf w := by
    rw [← hsu, ← hwid, sigOfId_eq hids hw]
  have htw : t.id ∈ w.predecessors := by
    rw [hsw, sigOf, mem_sortByKey] at hts'
    exact hts'
  have hidxlt : topo.indexOf t.id < topo.indexOf u := by
    have := (hfacts.2.2.2 w hw t.id htw).2.2
    rw [hwid] at this
    exact this
  have htmem : t.id ∈ topo :=
    hfacts.2.2.1 t.id (mem_taskIds.mpr ⟨t, ht, rfl⟩)
  have hle : (topo.map (sigOfId tasks)).indexOf (sigOf t) ≤
      topo.indexOf t.id := by
    have := indexOf_map_le (sigOfId tasks) htmem
    rw [sigOfId_eq hids ht] at this
    exact this
  have hLlt : (topo.map (sigOfId tasks)).indexOf (sigOf t) <
      (topo.map (sigOfId tasks)).indexOf s' := by
    rw [hidxu]
    omega
  have hmemL : sigOf t ∈ topo.map (sigOfId tasks) :=
    List.mem_map.mpr ⟨t.id, htmem, sigOfId_eq hids ht⟩
  rw [sigList]
  exact indexOf_dedupF_lt hnotself hmemL hLlt

theorem endNode_rank {tasks : List Task} (hids : (taskIds tasks).Nodup)
    (hpreds : ∀ t ∈ tasks, t.predecessors.Nodup) {topo : List String}
    (htopo : getTopologicalSort tasks = .ok topo) {t : Task} (ht : t ∈ tasks) :
    rankOf tasks topo (startNodeOf tasks topo t.id) <
      rankOf tasks topo (endNodeOf (buildConnect tasks topo) t.id) := by
  have hstart : startNodeOf tasks topo t.id = jid tasks topo (sigOf t) := by
    rw [startNodeOf, sigOfId_eq hids ht]
  rw [endNodeOf]
  rcases halk : alookup (buildConnect tasks topo).endNodes t.id with _ | e
  · show rankOf tasks topo (startNodeOf tasks topo t.id) <
      rankOf tasks topo "Fin"
    refine rank_lt_fin ?_ ?_
    · rw [hstart]
      exact jid_mem_eventIds (sigOf_mem_sigList hids htopo ht)
    · rw [hstart]
      rcases hemp : (sigOf t).isEmpty with _ | _
      · rw [jid_of_nonempty hemp]
        exact j_append_ne_fin _
      · rw [jid, if_pos hemp]
        decide
  · rcases (buildConnect_CI2 hpreds).1 _ (alookup_mem halk) with
      ⟨s', hs'm, hs'ne, he, hts'⟩
    have he' : e = jid tasks topo s' := he
    show rankOf tasks topo (startNodeOf tasks topo t.id) <
      rankOf tasks topo e
    rw [hstart, he']
    have hts'2 : t.id ∈ s' := hts'
    rcases hemp : (sigOf t).isEmpty with _ | _
    · exact sig_rank_mono
        (mem_nonemptySigs_of_sigList (sigOf_mem_sigList hids htopo ht) hemp)
        (mem_nonemptySigs_of_sigList hs'm hs'ne)
        (sig_first_lt hids htopo ht hs'm hts'2)
    · rw [show jid tasks topo (sigOf t) = "Start" from by
        rw [jid, if_pos hemp], rank_start]
      exact rank_pos_of_jid (mem_nonemptySigs_of_sigList hs'm hs'ne)

theorem aoaEdges_rank {tasks : List Task} (hids : (taskIds tasks).Nodup)
    (hpreds : ∀ t ∈ tasks, t.predecessors.Nodup) {topo : List String}
    (htopo : getTopologicalSort tasks = .ok topo) :
    ∀ e ∈ aoaEdges tasks topo,
      rankOf tasks topo e.source < rankOf tasks topo e.target := by
  intro e he
  rw [aoaEdges] at he
  rcases List.mem_append.mp he with h1 | h1
  · rcases (buildConnect_CI2 hpreds).2 e h1 with
      ⟨s1, s2, hs1, hs2, hne1, hne2, hsrc, htgt, hlt⟩
    rw [hsrc, htgt]
    exact sig_rank_mono (mem_nonemptySigs_of_sigList hs1 hne1)
      (mem_nonemptySigs_of_sigList hs2 hne2) hlt
  · rw [realEdges_eq_map hids hpreds htopo] at h1
    rcases List.mem_map.mp h1 with ⟨t, ht, rfl⟩
    exact endNode_rank hids hpreds htopo ht


/-! ## C2: the ideal EET and its stabilization -/

theorem foldl_max_le {m : ℚ} :
    ∀ {l : List ℚ} {a : ℚ}, (∀ x ∈ l, x ≤ m) → a ≤ m → l.foldl max a ≤ m := by
  intro l
  induction l with
  | nil => intro a _ ha; exact ha
  | cons x l ih =>
    intro a hall ha
    rw [List.foldl_cons]
    exact ih (fun y hy => hall y (List.mem_cons_of_mem x hy))
      (max_le ha (hall x (List.mem_cons_self x l)))

theorem foldl_max_map_le {α : Type} (f g : α → ℚ) :
    ∀ (l : List α) {a b : ℚ}, (∀ x ∈ l, f x ≤ g x) → a ≤ b →
      (l.map f).foldl max a ≤ (l.map g).foldl max b := by
  intro l
  induction l with
  | nil => intro a b _ hab; exact hab
  | cons x l ih =>
    intro a b hall hab
    rw [List.map_cons, List.map_cons, List.foldl_cons, List.foldl_cons]
    exact ih (fun y hy => hall y (List.mem_cons_of_mem x hy))
      (max_le_max hab (hall x (List.mem_cons_self x l)))

theorem eetIdeal_nonneg (E : List AoaEdge) :
    ∀ (k : ℕ) (v : String), 0 ≤ eetIdeal E k v := by
  intro k v
  cases k with
  | zero => exact le_refl 0
  | succ k =>
    rw [eetIdeal]
    exact foldl_max_init_le _ 0

theorem eetIdeal_succ (E : List AoaEdge) (k : ℕ) (v : String) :
    eetIdeal E (k + 1) v =
      ((E.filter (fun e => e.target == v)).map
        (fun e => eetIdeal E k e.source + e.duration)).foldl max 0 := by
  rw [eetIdeal]

theorem eetIdeal_filter_nil {E : List AoaEdge} {r : String → ℕ}
    (hrank : ∀ e ∈ E, r e.source < r e.target) {v : String} (hv : r v = 0) :
    E.filter (fun e => e.target == v) = [] := by
  rw [List.filter_eq_nil_iff]
  intro e he
  intro hc
  rw [beq_iff_eq] at hc
  have := hrank e he
  rw [hc, hv] at this
  omega

theorem eetIdeal_stable_succ {E : List AoaEdge} {r : String → ℕ}
    (hrank : ∀ e ∈ E, r e.source < r e.target) :
    ∀ (k : ℕ) (v : String), r v ≤ k →
      eetIdeal E (k + 1) v = eetIdeal E k v := by
  intro k
  induction k with
  | zero =>
    intro v hv
    rw [eetIdeal_succ, eetIdeal_filter_nil hrank (Nat.le_zero.mp hv)]
    rfl
  | succ k ih =>
    intro v hv
    rw [eetIdeal_succ, eetIdeal_succ]
    have hcongr : ∀ e ∈ E.filter (fun e => e.target == v),
        eetIdeal E (k + 1) e.source + e.duration =
          eetIdeal E k e.source + e.duration := by
      intro e he
      rcases List.mem_filter.mp he with ⟨heE, htgt⟩
      have htgt' : e.target = v := by
        rw [beq_iff_eq] at htgt
        exact htgt
      have := hrank e heE
      rw [htgt'] at this
      rw [ih e.source (by omega)]
    rw [List.map_congr_left hcongr]

theorem eetIdeal_stable {E : List AoaEdge} {r : String → ℕ}
    (hrank : ∀ e ∈ E, r e.source < r e.target) {v : String} {k : ℕ}
    (hv : r v ≤ k) : ∀ (d : ℕ), eetIdeal E (k + d) v = eetIdeal E k v := by
  intro d
  induction d with
  | zero => rfl
  | succ d ih =>
    rw [show k + (d + 1) = (k + d) + 1 from rfl,
      eetIdeal_stable_succ hrank (k + d) v (by omega), ih]

theorem eetIdeal_stable_of_le {E : List AoaEdge} {r : String → ℕ}
    (hrank : ∀ e ∈ E, r e.source < r e.target) {v : String} {k j : ℕ}
    (hv : r v ≤ k) (hkj : k ≤ j) : eetIdeal E j v = eetIdeal E k v := by
  have := eetIdeal_stable hrank hv (j - k)
  rw [show k + (j - k) = j from by omega] at this
  exact this

/-- The fixpoint EET of an event. -/
def eetFix (tasks : List Task) (topo : List String) (v : String) : ℚ :=
  eetIdeal (aoaEdges tasks topo) (rankOf tasks topo v) v

theorem eetFix_arc {tasks : List Task} (hids : (taskIds tasks).Nodup)
    (hpreds : ∀ t ∈ tasks, t.predecessors.Nodup) {topo : List String}
    (htopo : getTopologicalSort tasks = .ok topo) {e : AoaEdge}
    (he : e ∈ aoaEdges tasks topo) :
    eetFix tasks topo e.source + e.duration ≤ eetFix tasks topo e.target := by
  have hrank := aoaEdges_rank hids hpreds htopo
  have hlt := hrank e he
  rcases hm : rankOf tasks topo e.target with _ | m
  · rw [hm] at hlt
    omega
  · rw [hm] at hlt
    have htgt : eetFix tasks topo e.target =
        (((aoaEdges tasks topo).filter (fun d => d.target == e.target)).map
          (fun d => eetIdeal (aoaEdges tasks topo) m d.source +
            d.duration)).foldl max 0 := by
      rw [eetFix, hm, eetIdeal_succ]
    rw [htgt]
    have hmem : eetIdeal (aoaEdges tasks topo) m e.source + e.duration ∈
        ((aoaEdges tasks topo).filter (fun d => d.target == e.target)).map
          (fun d => eetIdeal (aoaEdges tasks topo) m d.source + d.duration) :=
      List.mem_map.mpr ⟨e, List.mem_filter.mpr ⟨he, by
        rw [beq_iff_eq]⟩, rfl⟩
    have hstab : eetIdeal (aoaEdges tasks topo) m e.source =
        eetFix tasks topo e.source := by
      rw [eetFix]
      exact eetIdeal_stable_of_le hrank (le_refl _) (by omega)
    rw [← hstab]
    exact foldl_max_le_of_mem hmem 0

theorem eetFix_eq {tasks : List Task} (hids : (taskIds tasks).Nodup)
    (hpreds : ∀ t ∈ tasks, t.predecessors.Nodup) {topo : List String}
    (htopo : getTopologicalSort tasks = .ok topo) (v : String) :
    eetFix tasks topo v =
      (((aoaEdges tasks topo).filter (fun e => e.target == v)).map
        (fun e => eetFix tasks topo e.source + e.duration)).foldl max 0 := by
  have hrank := aoaEdges_rank hids hpreds htopo
  rcases hm : rankOf tasks topo v with _ | m
  · rw [eetFix, hm, eetIdeal_filter_nil hrank hm]
    rw [show eetIdeal (aoaEdges tasks topo) 0 v = 0 from rfl]
    rfl
  · rw [eetFix, hm, eetIdeal_succ]
    have hcongr : ∀ e ∈ (aoaEdges tasks topo).filter
          (fun e => e.target == v),
        eetIdeal (aoaEdges tasks topo) m e.source + e.duration =
          eetFix tasks topo e.source + e.duration := by
      intro e he
      rcases List.mem_filter.mp he with ⟨heE, htgt⟩
      have htgt' : e.target = v := by
        rw [beq_iff_eq] at htgt
        exact htgt
      have := hrank e heE
      rw [htgt', hm] at this
      show _ = eetIdeal (aoaEdges tasks topo) (rankOf tasks topo e.source)
        e.source + e.duration
      rw [eetIdeal_stable_of_le hrank (le_refl _) (by omega)]
    rw [List.map_congr_left hcongr]


/-! ## C2: the EET relaxation reaches the fixpoint -/

theorem aoaEdges_dur_nonneg {tasks : List Task}
    (hids : (taskIds tasks).Nodup)
    (hpreds : ∀ t ∈ tasks, t.predecessors.Nodup)
    (hdur : ∀ t ∈ tasks, 0 ≤ t.duration) {topo : List String}
    (htopo : getTopologicalSort tasks = .ok topo) :
    ∀ e ∈ aoaEdges tasks topo, 0 ≤ e.duration := by
  intro e he
  rw [aoaEdges] at he
  rcases List.mem_append.mp he with h1 | h1
  · rw [((buildConnect_inv tasks topo).2 e h1).2.2.1]
  · rw [realEdges_eq_map hids hpreds htopo] at h1
    rcases List.mem_map.mp h1 with ⟨t, ht, rfl⟩
    exact hdur t ht

theorem relaxEetStep_keys (acc : List (String × ℚ)) (e : AoaEdge) :
    (relaxEetStep acc e).map Prod.fst = acc.map Prod.fst := by
  rw [relaxEetStep]
  rcases alookup acc e.source with _ | a
  · rfl
  · rcases alookup acc e.target with _ | b
    · rfl
    · show (if b < a + e.duration then aset acc e.target (a + e.duration)
        else acc).map Prod.fst = acc.map Prod.fst
      by_cases h : b < a + e.duration
      · rw [if_pos h, aset_keys]
      · rw [if_neg h]

theorem relaxEetStep_mono (acc : List (String × ℚ)) (e : AoaEdge) :
    ∀ v x, alookup acc v = some x →
      ∃ y, alookup (relaxEetStep acc e) v = some y ∧ x ≤ y := by
  intro v x hx
  rw [relaxEetStep]
  rcases ha : alookup acc e.source with _ | a
  · exact ⟨x, hx, le_refl x⟩
  · rcases hb : alookup acc e.target with _ | b
    · exact ⟨x, hx, le_refl x⟩
    · show ∃ y, alookup (if b < a + e.duration then
        aset acc e.target (a + e.duration) else acc) v = some y ∧ x ≤ y
      by_cases h : b < a + e.duration
      · rw [if_pos h]
        by_cases hv : v = e.target
        · subst hv
          have hxb : x = b := by
            rw [hx] at hb
            exact Option.some.inj hb.symm |>.symm
          refine ⟨a + e.duration, ?_, by rw [hxb]; exact le_of_lt h⟩
          rw [alookup_aset, if_pos rfl, hb]
          rfl
        · exact ⟨x, by rw [alookup_aset_ne _ _ hv]; exact hx, le_refl x⟩
      · rw [if_neg h]
        exact ⟨x, hx, le_refl x⟩

theorem relaxEet_fold_keys :
    ∀ (l : List AoaEdge) (acc : List (String × ℚ)),
      (l.foldl relaxEetStep acc).map Prod.fst = acc.map Prod.fst := by
  intro l
  induction l with
  | nil => intro acc; rfl
  | cons e l ih =>
    intro acc
    rw [List.foldl_cons, ih, relaxEetStep_keys]

theorem relaxEet_fold_mono :
    ∀ (l : List AoaEdge) (acc : List (String × ℚ)) (v : String) (x : ℚ),
      alookup acc v = some x →
      ∃ y, alookup (l.foldl relaxEetStep acc) v = some y ∧ x ≤ y := by
  intro l
  induction l with
  | nil => intro acc v x hx; exact ⟨x, hx, le_refl x⟩
  | cons e l ih =>
    intro acc v x hx
    rw [List.foldl_cons]
    rcases relaxEetStep_mono acc e v x hx with ⟨y, hy, hxy⟩
    rcases ih _ v y hy with ⟨z, hz, hyz⟩
    exact ⟨z, hz, le_trans hxy hyz⟩

theorem relaxEet_fold_upper {tasks : List Task}
    (hids : (taskIds tasks).Nodup)
    (hpreds : ∀ t ∈ tasks, t.predecessors.Nodup) {topo : List String}
    (htopo : getTopologicalSort tasks = .ok topo) :
    ∀ (l : List AoaEdge) (acc : List (String × ℚ)),
      (∀ e ∈ l, e ∈ aoaEdges tasks topo) →
      (∀ v x, alookup acc v = some x → x ≤ eetFix tasks topo v) →
      ∀ v x, alookup (l.foldl relaxEetStep acc) v = some x →
        x ≤ eetFix tasks topo v := by
  intro l
  induction l with
  | nil => intro acc _ hb v x hx; exact hb v x hx
  | cons e l ih =>
    intro acc hmem hb v x hx
    rw [List.foldl_cons] at hx
    refine ih _ (fun d hd => hmem d (List.mem_cons_of_mem e hd)) ?_ v x hx
    intro w y hy
    have heE := hmem e (List.mem_cons_self e l)
    rw [relaxEetStep] at hy
    rcases ha : alookup acc e.source with _ | a
    · rw [ha] at hy
      exact hb w y hy
    · rcases hbt : alookup acc e.target with _ | b
      · rw [ha, hbt] at hy
        exact hb w y hy
      · rw [ha, hbt] at hy
        have hy2 : alookup (if b < a + e.duration then
            aset acc e.target (a + e.duration) else acc) w = some y := hy
        by_cases h : b < a + e.duration
        · rw [if_pos h] at hy2
          by_cases hw : w = e.target
          · subst hw
            rw [alookup_aset, if_pos rfl, hbt] at hy2
            have : y = a + e.duration := (Option.some.inj hy2).symm
            subst this
            have h1 : a ≤ eetFix tasks topo e.source := hb _ a ha
            have h2 := eetFix_arc hids hpreds htopo heE
            linarith
          · rw [alookup_aset_ne _ _ hw] at hy2
            exact hb w y hy2
        · rw [if_neg h] at hy2
          exact hb w y hy2

theorem alookup_map_fn {α : Type} (f : String → α) :
    ∀ (l : List String) (v : String), v ∈ l →
      alookup (l.map (fun u => (u, f u))) v = some (f v) := by
  intro l
  induction l with
  | nil => intro v hv; exact absurd hv (by simp)
  | cons u l ih =>
    intro v hv
    rw [List.map_cons, alookup_cons]
    by_cases h : u = v
    · rw [if_pos h, h]
    · rw [if_neg h]
      rcases List.mem_cons.mp hv with h1 | h1
      · exact absurd h1.symm h
      · exact ih v h1


theorem relaxEetPass_progress {tasks : List Task}
    (hids : (taskIds tasks).Nodup)
    (hpreds : ∀ t ∈ tasks, t.predecessors.Nodup) {topo : List String}
    (htopo : getTopologicalSort tasks = .ok topo)
    (k : ℕ) (acc : List (String × ℚ))
    (hkeys : acc.map Prod.fst = eventIds tasks topo)
    (hlow : ∀ v ∈ eventIds tasks topo, ∃ x, alookup acc v = some x ∧
      eetIdeal (aoaEdges tasks topo) k v ≤ x) :
    ∀ v ∈ eventIds tasks topo,
      ∃ x, alookup (relaxEetPass (aoaEdges tasks topo) acc) v = some x ∧
        eetIdeal (aoaEdges tasks topo) (k + 1) v ≤ x := by
  intro v hv
  rcases hlow v hv with ⟨x0, hx0, hix0⟩
  rcases relaxEet_fold_mono (aoaEdges tasks topo) acc v x0 hx0 with
    ⟨x, hx, hx0x⟩
  refine ⟨x, hx, ?_⟩
  rw [eetIdeal_succ]
  refine foldl_max_le ?_ ?_
  · -- x dominates every incoming candidate
    intro c hc
    rcases List.mem_map.mp hc with ⟨e, hef, rfl⟩
    rcases List.mem_filter.mp hef with ⟨heE, htgt⟩
    have htgt' : e.target = v := by
      rw [beq_iff_eq] at htgt
      exact htgt
    rcases List.append_of_mem heE with ⟨pre, post, hsplitE⟩
    -- run the pass up to the arc `e`
    have hpass : relaxEetPass (aoaEdges tasks topo) acc =
        post.foldl relaxEetStep
          (relaxEetStep (pre.foldl relaxEetStep acc) e) := by
      rw [relaxEetPass, hsplitE, List.foldl_append, List.foldl_cons]
    set acc1 := pre.foldl relaxEetStep acc with hacc1
    have hkeys1 : acc1.map Prod.fst = eventIds tasks topo := by
      rw [hacc1, relaxEet_fold_keys, hkeys]
    -- the source entry before processing `e`
    have hsrcmem : e.source ∈ eventIds tasks topo :=
      (aoaEdges_endpoints hids hpreds htopo e heE).1
    have htgtmem : e.target ∈ eventIds tasks topo :=
      (aoaEdges_endpoints hids hpreds htopo e heE).2.1
    rcases hlow e.source hsrcmem with ⟨a0, ha0, hia0⟩
    rcases relaxEet_fold_mono pre acc e.source a0 ha0 with ⟨a, ha, ha0a⟩
    rcases alookup_mem_of_key (by rw [hkeys1]; exact htgtmem :
      e.target ∈ acc1.map Prod.fst) with ⟨b, hb⟩
    -- after processing `e`, the target entry dominates the candidate
    have hstep : ∃ y, alookup (relaxEetStep acc1 e) e.target = some y ∧
        eetIdeal (aoaEdges tasks topo) k e.source + e.duration ≤ y := by
      rw [relaxEetStep, ha, hb]
      show ∃ y, alookup (if b < a + e.duration then
        aset acc1 e.target (a + e.duration) else acc1) e.target =
          some y ∧ _ ≤ y
      by_cases h : b < a + e.duration
      · rw [if_pos h]
        refine ⟨a + e.duration, ?_, by linarith⟩
        rw [alookup_aset, if_pos rfl, hb]
        rfl
      · rw [if_neg h]
        push_neg at h
        exact ⟨b, hb, by linarith⟩
    rcases hstep with ⟨y, hy, hiy⟩
    rcases relaxEet_fold_mono post _ e.target y hy with ⟨z, hz, hyz⟩
    rw [← hpass] at hz
    rw [htgt'] at hz
    rw [relaxEetPass] at hz
    rw [hx] at hz
    have hzx : x = z := Option.some.inj hz
    rw [hzx]
    linarith
  · exact le_trans (eetIdeal_nonneg _ k v) (le_trans hix0 hx0x)

theorem relaxEetIter_lower {tasks : List Task}
    (hids : (taskIds tasks).Nodup)
    (hpreds : ∀ t ∈ tasks, t.predecessors.Nodup) {topo : List String}
    (htopo : getTopologicalSort tasks = .ok topo) :
    ∀ (k j : ℕ) (acc : List (String × ℚ)),
      acc.map Prod.fst = eventIds tasks topo →
      (∀ v ∈ eventIds tasks topo, ∃ x, alookup acc v = some x ∧
        eetIdeal (aoaEdges tasks topo) j v ≤ x) →
      ∀ v ∈ eventIds tasks topo,
        ∃ x, alookup (relaxEetIter (aoaEdges tasks topo) k acc) v = some x ∧
          eetIdeal (aoaEdges tasks topo) (j + k) v ≤ x := by
  intro k
  induction k with
  | zero =>
    intro j acc _ hlow v hv
    exact hlow v hv
  | succ k ih =>
    intro j acc hkeys hlow v hv
    rw [relaxEetIter]
    have hprog := relaxEetPass_progress hids hpreds htopo j acc hkeys hlow
    have hkeys2 : (relaxEetPass (aoaEdges tasks topo) acc).map Prod.fst =
        eventIds tasks topo := by
      rw [relaxEetPass, relaxEet_fold_keys, hkeys]
    have := ih (j + 1) _ hkeys2 hprog v hv
    rw [show j + 1 + k = j + (k + 1) from by omega] at this
    exact this

theorem relaxEetIter_upper {tasks : List Task}
    (hids : (taskIds tasks).Nodup)
    (hpreds : ∀ t ∈ tasks, t.predecessors.Nodup) {topo : List String}
    (htopo : getTopologicalSort tasks = .ok topo) :
    ∀ (k : ℕ) (acc : List (String × ℚ)),
      (∀ v x, alookup acc v = some x → x ≤ eetFix tasks topo v) →
      ∀ v x, alookup (relaxEetIter (aoaEdges tasks topo) k acc) v = some x →
        x ≤ eetFix tasks topo v := by
  intro k
  induction k with
  | zero => intro acc hb v x hx; exact hb v x hx
  | succ k ih =>
    intro acc hb v x hx
    rw [relaxEetIter] at hx
    refine ih _ ?_ v x hx
    intro w y hy
    exact relaxEet_fold_upper hids hpreds htopo (aoaEdges tasks topo) acc
      (fun d hd => hd) hb w y hy

theorem eetTable_eq_fix {tasks : List Task} (hids : (taskIds tasks).Nodup)
    (hpreds : ∀ t ∈ tasks, t.predecessors.Nodup) {topo : List String}
    (htopo : getTopologicalSort tasks = .ok topo) :
    ∀ v ∈ eventIds tasks topo,
      alookup (eetTable tasks topo) v = some (eetFix tasks topo v) := by
  intro v hv
  have hrank := aoaEdges_rank hids hpreds htopo
  have hkeys0 : ((eventIds tasks topo).map (fun u => (u, (0 : ℚ)))).map
      Prod.fst = eventIds tasks topo := by
    rw [List.map_map]
    show (eventIds tasks topo).map (fun v => v) = eventIds tasks topo
    induction eventIds tasks topo with
    | nil => rfl
    | cons u l ih => rw [List.map_cons, ih]
  have hlow0 : ∀ w ∈ eventIds tasks topo,
      ∃ x, alookup ((eventIds tasks topo).map (fun u => (u, (0 : ℚ)))) w =
        some x ∧ eetIdeal (aoaEdges tasks topo) 0 w ≤ x := by
    intro w hw
    exact ⟨0, alookup_map_fn (fun _ => (0 : ℚ)) _ w hw, le_refl 0⟩
  have hlow := relaxEetIter_lower hids hpreds htopo
    ((eventIds tasks topo).length + 2) 0 _ hkeys0 hlow0 v hv
  have hup := relaxEetIter_upper hids hpreds htopo
    ((eventIds tasks topo).length + 2) _
    (by
      intro w y hy
      have hw : w ∈ eventIds tasks topo := by
        have := alookup_key_of_some hy
        rw [hkeys0] at this
        exact this
      have hlk := alookup_map_fn (fun _ => (0 : ℚ)) (eventIds tasks topo) w hw
      rw [hy] at hlk
      have hy0 : y = 0 := (Option.some.inj hlk.symm).symm
      rw [hy0]
      show (0 : ℚ) ≤ eetFix tasks topo w
      exact eetIdeal_nonneg _ _ w) v
  rcases hlow with ⟨x, hx, hix⟩
  have hxle := hup x hx
  have hstab : eetIdeal (aoaEdges tasks topo)
      (0 + ((eventIds tasks topo).length + 2)) v = eetFix tasks topo v := by
    rw [eetFix]
    refine eetIdeal_stable_of_le hrank (le_refl _) ?_
    have := idx_lt_of_mem hv
    rw [rankOf]
    omega
  rw [hstab] at hix
  have hxeq : x = eetFix tasks topo v := le_antisymm hxle hix
  rw [eetTable, hx, hxeq]


theorem foldl_fixed {α β : Type} (f : β → α → β) :
    ∀ (l : List α) (b : β), (∀ a ∈ l, f b a = b) → l.foldl f b = b := by
  intro l
  induction l with
  | nil => intro b _; rfl
  | cons a l ih =>
    intro b hfix
    rw [List.foldl_cons, hfix a (List.mem_cons_self a l)]
    exact ih b (fun a' ha' => hfix a' (List.mem_cons_of_mem a ha'))

theorem eetTable_pass_noop {tasks : List Task} (hids : (taskIds tasks).Nodup)
    (hpreds : ∀ t ∈ tasks, t.predecessors.Nodup) {topo : List String}
    (htopo : getTopologicalSort tasks = .ok topo) :
    relaxEetPass (aoaEdges tasks topo) (eetTable tasks topo) =
      eetTable tasks topo := by
  rw [relaxEetPass]
  refine foldl_fixed _ _ _ ?_
  intro e he
  have hsrc := eetTable_eq_fix hids hpreds htopo e.source
    (aoaEdges_endpoints hids hpreds htopo e he).1
  have htgt := eetTable_eq_fix hids hpreds htopo e.target
    (aoaEdges_endpoints hids hpreds htopo e he).2.1
  rw [relaxEetStep, hsrc, htgt]
  show (if eetFix tasks topo e.target <
      eetFix tasks topo e.source + e.duration then
    aset (eetTable tasks topo) e.target
      (eetFix tasks topo e.source + e.duration)
    else eetTable tasks topo) = eetTable tasks topo
  rw [if_neg]
  push_neg
  exact eetFix_arc hids hpreds htopo he

theorem eetTable_equations {tasks : List Task} (hids : (taskIds tasks).Nodup)
    (hpreds : ∀ t ∈ tasks, t.predecessors.Nodup) {topo : List String}
    (htopo : getTopologicalSort tasks = .ok topo) :
    ∀ v ∈ eventIds tasks topo, ∃ x, alookup (eetTable tasks topo) v = some x ∧
      x = (((aoaEdges tasks topo).filter (fun e => e.target == v)).map
        (fun e => (alookup (eetTable tasks topo) e.source).getD 0 +
          e.duration)).foldl max 0 ∧
      ((aoaEdges tasks topo).filter (fun e => e.target == v) = [] → x = 0) := by
  intro v hv
  refine ⟨eetFix tasks topo v, eetTable_eq_fix hids hpreds htopo v hv, ?_, ?_⟩
  · rw [eetFix_eq hids hpreds htopo v]
    congr 1
    refine List.map_congr_left ?_
    intro e he
    rcases List.mem_filter.mp he with ⟨heE, _⟩
    rw [eetTable_eq_fix hids hpreds htopo e.source
      (aoaEdges_endpoints hids hpreds htopo e heE).1]
    rfl
  · intro hnil
    rw [eetFix_eq hids hpreds htopo v, hnil]
    rfl

theorem eetFix_empty {topo : List String} (htasks : ([] : List Task) ≠ []
    → False) (v : String) :
    ∀ (k : ℕ), eetIdeal (aoaEdges [] topo) k v = 0 := by
  intro k
  cases k with
  | zero => rfl
  | succ k =>
    rw [eetIdeal_succ]
    have hE : aoaEdges [] topo = [] := by
      rw [aoaEdges]
      have hb : buildConnect [] topo = ⟨[], []⟩ := by
        rw [buildConnect]
        have : sigList [] topo = dedupF (topo.map (sigOfId [])) := rfl
        have hsig : ∀ u, sigOfId ([] : List Task) u = [] := by
          intro u
          rfl
        have hmap : topo.map (sigOfId []) = topo.map (fun _ => []) := by
          refine List.map_congr_left ?_
          intro u _
          exact hsig u
        rw [this, hmap]
        cases topo with
        | nil =>
          rw [List.map_nil, dedupF]
          rfl
        | cons u rest =>
          have hded : dedupF ((u :: rest).map
              (fun _ => ([] : List String))) = [[]] := by
            rw [List.map_cons, dedupF]
            have : ((rest.map (fun _ => ([] : List String))).filter
                (fun y => y ≠ [])) = [] := by
              rw [List.filter_eq_nil_iff]
              intro a ha
              rcases List.mem_map.mp ha with ⟨_, _, rfl⟩
              simp
            rw [this, dedupF]
          rw [hded]
          rfl
      rw [hb]
      rfl
    rw [hE]
    rfl

theorem exists_outgoing {tasks : List Task} (hids : (taskIds tasks).Nodup)
    (hpreds : ∀ t ∈ tasks, t.predecessors.Nodup) {topo : List String}
    (htopo : getTopologicalSort tasks = .ok topo) (htasks : tasks ≠ []) :
    ∀ v ∈ eventIds tasks topo, v ≠ "Fin" →
      ∃ e ∈ aoaEdges tasks topo, e.source = v := by
  have hfacts := topo_facts hids htopo
  have hreal : ∀ t ∈ tasks, (⟨startNodeOf tasks topo t.id,
      endNodeOf (buildConnect tasks topo) t.id, some t.id, t.duration,
      false⟩ : AoaEdge) ∈ aoaEdges tasks topo := by
    intro t ht
    rw [aoaEdges]
    refine List.mem_append.mpr (Or.inr ?_)
    rw [realEdges_eq_map hids hpreds htopo]
    exact List.mem_map.mpr ⟨t, ht, rfl⟩
  intro v hv hvne
  rw [eventIds] at hv
  rcases List.mem_cons.mp hv with rfl | hv'
  · -- the start event: the first task of the order has no predecessors
    have hlen := (getTopo_ok_inv hids htopo).2
    have hne : topo ≠ [] := by
      intro h
      rw [h] at hlen
      cases htasksc : tasks with
      | nil => exact htasks htasksc
      | cons a l =>
        rw [htasksc] at hlen
        exact absurd hlen.symm (by simp)
    obtain ⟨u0, rest, htopoc⟩ := List.exists_cons_of_ne_nil hne
    · rcases mem_taskIds.mp (hfacts.2.1 u0
        (htopoc.symm ▸ List.mem_cons_self u0 rest)) with ⟨t0, ht0, ht0id⟩
      have hnopreds : t0.predecessors = [] := by
        rw [List.eq_nil_iff_forall_not_mem]
        intro p hp
        have := (hfacts.2.2.2 t0 ht0 p hp).2.2
        rw [ht0id, htopoc, idx_cons_self] at this
        omega
      have hsig : sigOf t0 = [] := by
        rw [sigOf, hnopreds]
        rfl
      refine ⟨_, hreal t0 ht0, ?_⟩
      show startNodeOf tasks topo t0.id = "Start"
      rw [startNodeOf, sigOfId_eq hids ht0, hsig, jid]
      rfl
  · rcases List.mem_append.mp hv' with h1 | h1
    · -- a junction: it is the start node of the signature's tasks
      rcases List.mem_map.mp h1 with ⟨s, hs, rfl⟩
      have hsl : s ∈ sigList tasks topo := (List.mem_filter.mp hs).1
      have hsL : s ∈ topo.map (sigOfId tasks) := by
        rw [sigList, mem_dedupF] at hsl
        exact hsl
      rcases List.mem_map.mp hsL with ⟨u, hu, hsu⟩
      rcases mem_taskIds.mp (hfacts.2.1 u hu) with ⟨t, ht, htid⟩
      refine ⟨_, hreal t ht, ?_⟩
      show startNodeOf tasks topo t.id = jid tasks topo s
      rw [startNodeOf, ← hsu, htid]
    · rcases List.mem_singleton.mp h1 with rfl
      exact absurd rfl hvne

theorem eetFix_le_fin {tasks : List Task} (hids : (taskIds tasks).Nodup)
    (hpreds : ∀ t ∈ tasks, t.predecessors.Nodup)
    (hdur : ∀ t ∈ tasks, 0 ≤ t.duration) {topo : List String}
    (htopo : getTopologicalSort tasks = .ok topo) :
    ∀ v ∈ eventIds tasks topo,
      eetFix tasks topo v ≤ eetFix tasks topo "Fin" := by
  by_cases htasks : tasks = []
  · subst htasks
    intro v _
    rw [eetFix, eetFix, eetFix_empty (fun h => absurd rfl h) v _,
      eetFix_empty (fun h => absurd rfl h) "Fin" _]
  · have H : ∀ (d : ℕ), ∀ v ∈ eventIds tasks topo,
        (eventIds tasks topo).length - rankOf tasks topo v ≤ d →
        eetFix tasks topo v ≤ eetFix tasks topo "Fin" := by
      intro d
      induction d with
      | zero =>
        intro v hv hd
        exfalso
        have := idx_lt_of_mem hv
        rw [← rankOf] at this
        omega
      | succ d ih =>
        intro v hv hd
        by_cases hvf : v = "Fin"
        · rw [hvf]
        · rcases exists_outgoing hids hpreds htopo htasks v hv hvf with
            ⟨e, heE, hesrc⟩
          have harc := eetFix_arc hids hpreds htopo heE
          have hdnn := aoaEdges_dur_nonneg hids hpreds hdur htopo e heE
          have htgtm := (aoaEdges_endpoints hids hpreds htopo e heE).2.1
          have hrlt := aoaEdges_rank hids hpreds htopo e heE
          have hrec : eetFix tasks topo e.target ≤
              eetFix tasks topo "Fin" := by
            refine ih e.target htgtm ?_
            have := idx_lt_of_mem htgtm
            rw [← rankOf] at this
            rw [hesrc] at hrlt
            omega
          calc eetFix tasks topo v ≤ eetFix tasks topo v + e.duration := by
                linarith
            _ ≤ eetFix tasks topo e.target := by rw [← hesrc]; exact harc
            _ ≤ eetFix tasks topo "Fin" := hrec
    intro v hv
    exact H (eventIds tasks topo).length v hv (by omega)


/-! ## C2: the LET relaxation reaches its fixpoint -/

/-- `≤` on `Option ℚ` with `none = +∞`. -/
def leE : Option ℚ → Option ℚ → Prop
  | _, none => True
  | none, some _ => False
  | some a, some b => a ≤ b

theorem leE_refl : ∀ (x : Option ℚ), leE x x := by
  intro x
  cases x with
  | none => trivial
  | some a => exact le_refl a

theorem leE_none : ∀ (x : Option ℚ), leE x none := by
  intro x
  cases x with
  | none => trivial
  | some a => trivial

theorem leE_trans : ∀ {x y z : Option ℚ}, leE x y → leE y z → leE x z := by
  intro x y z hxy hyz
  cases z with
  | none => exact leE_none x
  | some c =>
    cases y with
    | none => exact hyz.elim
    | some b =>
      cases x with
      | none => exact hxy.elim
      | some a => exact le_trans hxy hyz

theorem leE_antisymm : ∀ {x y : Option ℚ}, leE x y → leE y x → x = y := by
  intro x y hxy hyx
  cases x with
  | none =>
    cases y with
    | none => rfl
    | some b => exact hxy.elim
  | some a =>
    cases y with
    | none => exact hyx.elim
    | some b => rw [le_antisymm hxy hyx]

theorem minE_le_left : ∀ (x y : Option ℚ), leE (minE x y) x := by
  intro x y
  cases x with
  | none => exact leE_none _
  | some a =>
    cases y with
    | none => exact le_refl a
    | some b => exact min_le_left a b

theorem minE_le_right : ∀ (x y : Option ℚ), leE (minE x y) y := by
  intro x y
  cases x with
  | none => exact leE_refl y
  | some a =>
    cases y with
    | none => trivial
    | some b => exact min_le_right a b

theorem leE_minE : ∀ {z x y : Option ℚ}, leE z x → leE z y →
    leE z (minE x y) := by
  intro z x y hzx hzy
  cases x with
  | none => exact hzy
  | some a =>
    cases y with
    | none => exact hzx
    | some b =>
      cases z with
      | none => exact hzx.elim
      | some c => exact le_min hzx hzy

theorem subE_mono : ∀ {x y : Option ℚ} (d : ℚ), leE x y →
    leE (subE x d) (subE y d) := by
  intro x y d hxy
  cases y with
  | none => exact leE_none _
  | some b =>
    cases x with
    | none => exact hxy.elim
    | some a =>
      show a - d ≤ b - d
      have : a ≤ b := hxy
      linarith

theorem ltE_false_iff : ∀ (x y : Option ℚ),
    ltE x y = false ↔ leE y x := by
  intro x y
  cases x with
  | none =>
    cases y with
    | none => exact ⟨fun _ => trivial, fun _ => rfl⟩
    | some b => exact ⟨fun _ => trivial, fun _ => rfl⟩
  | some a =>
    cases y with
    | none =>
      constructor
      · intro h
        exact Bool.noConfusion h
      · intro h
        exact h.elim
    | some b =>
      show decide (a < b) = false ↔ b ≤ a
      rw [decide_eq_false_iff_not]
      exact not_lt

theorem foldl_minE_init_le :
    ∀ (l : List (Option ℚ)) (a : Option ℚ), leE (l.foldl minE a) a := by
  intro l
  induction l with
  | nil => intro a; exact leE_refl a
  | cons x l ih =>
    intro a
    rw [List.foldl_cons]
    exact leE_trans (ih (minE a x)) (minE_le_left a x)

theorem foldl_minE_le_of_mem :
    ∀ {l : List (Option ℚ)} {x : Option ℚ}, x ∈ l →
      ∀ (a : Option ℚ), leE (l.foldl minE a) x := by
  intro l
  induction l with
  | nil => intro x hx; exact absurd hx (by simp)
  | cons y l ih =>
    intro x hx a
    rw [List.foldl_cons]
    rcases List.mem_cons.mp hx with rfl | h1
    · exact leE_trans (foldl_minE_init_le l (minE a x)) (minE_le_right a x)
    · exact ih h1 (minE a y)

theorem leE_foldl_minE :
    ∀ (l : List (Option ℚ)) (a z : Option ℚ), leE z a →
      (∀ x ∈ l, leE z x) → leE z (l.foldl minE a) := by
  intro l
  induction l with
  | nil => intro a z hza _; exact hza
  | cons x l ih =>
    intro a z hza hall
    rw [List.foldl_cons]
    exact ih (minE a x) z
      (leE_minE hza (hall x (List.mem_cons_self x l)))
      (fun y hy => hall y (List.mem_cons_of_mem x hy))

theorem letIdeal_succ (E : List AoaEdge) (init : String → Option ℚ)
    (k : ℕ) (v : String) :
    letIdeal E init (k + 1) v =
      ((E.filter (fun e => e.source == v)).map
        (fun e => subE (letIdeal E init k e.target) e.duration)).foldl
        minE (init v) := by
  rw [letIdeal]

theorem letIdeal_filter_nil {E : List AoaEdge} {r : String → ℕ}
    (hrank : ∀ e ∈ E, r e.target < r e.source) {v : String} (hv : r v = 0) :
    E.filter (fun e => e.source == v) = [] := by
  rw [List.filter_eq_nil_iff]
  intro e he hc
  rw [beq_iff_eq] at hc
  have := hrank e he
  rw [hc, hv] at this
  omega

theorem letIdeal_stable_succ {E : List AoaEdge} {init : String → Option ℚ}
    {r : String → ℕ} (hrank : ∀ e ∈ E, r e.target < r e.source) :
    ∀ (k : ℕ) (v : String), r v ≤ k →
      letIdeal E init (k + 1) v = letIdeal E init k v := by
  intro k
  induction k with
  | zero =>
    intro v hv
    rw [letIdeal_succ, letIdeal_filter_nil hrank (Nat.le_zero.mp hv)]
    rfl
  | succ k ih =>
    intro v hv
    rw [letIdeal_succ, letIdeal_succ]
    have hcongr : ∀ e ∈ E.filter (fun e => e.source == v),
        subE (letIdeal E init (k + 1) e.target) e.duration =
          subE (letIdeal E init k e.target) e.duration := by
      intro e he
      rcases List.mem_filter.mp he with ⟨heE, hsrc⟩
      have hsrc' : e.source = v := by
        rw [beq_iff_eq] at hsrc
        exact hsrc
      have := hrank e heE
      rw [hsrc'] at this
      rw [ih e.target (by omega)]
    rw [List.map_congr_left hcongr]

theorem letIdeal_stable {E : List AoaEdge} {init : String → Option ℚ}
    {r : String → ℕ} (hrank : ∀ e ∈ E, r e.target < r e.source)
    {v : String} {k : ℕ} (hv : r v ≤ k) :
    ∀ (d : ℕ), letIdeal E init (k + d) v = letIdeal E init k v := by
  intro d
  induction d with
  | zero => rfl
  | succ d ih =>
    rw [show k + (d + 1) = (k + d) + 1 from rfl,
      letIdeal_stable_succ hrank (k + d) v (by omega), ih]

theorem letIdeal_stable_of_le {E : List AoaEdge} {init : String → Option ℚ}
    {r : String → ℕ} (hrank : ∀ e ∈ E, r e.target < r e.source)
    {v : String} {k j : ℕ} (hv : r v ≤ k) (hkj : k ≤ j) :
    letIdeal E init j v = letIdeal E init k v := by
  have := @letIdeal_stable E init r hrank v k hv (j - k)
  rw [show k + (j - k) = j from by omega] at this
  exact this

theorem letIdeal_le_init (E : List AoaEdge) (init : String → Option ℚ) :
    ∀ (k : ℕ) (v : String), leE (letIdeal E init k v) (init v) := by
  intro k v
  cases k with
  | zero => exact leE_refl _
  | succ k =>
    rw [letIdeal_succ]
    exact foldl_minE_init_le _ _

/-- Co-rank of an event: distance from the end of the event list.  Every
synthesized arc strictly decreases it. -/
def corankOf (tasks : List Task) (topo : List String) (v : String) : ℕ :=
  (eventIds tasks topo).length - rankOf tasks topo v

theorem aoaEdges_corank {tasks : List Task} (hids : (taskIds tasks).Nodup)
    (hpreds : ∀ t ∈ tasks, t.predecessors.Nodup) {topo : List String}
    (htopo : getTopologicalSort tasks = .ok topo) :
    ∀ e ∈ aoaEdges tasks topo,
      corankOf tasks topo e.target < corankOf tasks topo e.source := by
  intro e he
  have h1 := aoaEdges_rank hids hpreds htopo e he
  have h2 := idx_lt_of_mem (aoaEdges_endpoints hids hpreds htopo e he).2.1
  rw [← rankOf] at h2
  rw [corankOf, corankOf]
  omega

theorem fin_no_outgoing {tasks : List Task} (hids : (taskIds tasks).Nodup)
    (hpreds : ∀ t ∈ tasks, t.predecessors.Nodup) {topo : List String}
    (htopo : getTopologicalSort tasks = .ok topo) :
    ∀ e ∈ aoaEdges tasks topo, e.source ≠ "Fin" := by
  intro e he hc
  have h1 := aoaEdges_rank hids hpreds htopo e he
  rw [hc] at h1
  have htgt := (aoaEdges_endpoints hids hpreds htopo e he).2.1
  by_cases h2 : e.target = "Fin"
  · rw [h2] at h1
    omega
  · have := rank_lt_fin htgt h2
    omega

/-- The initialization of the LET relaxation. -/
def initE (tasks : List Task) (topo : List String) (v : String) : Option ℚ :=
  if v = "Fin" then some (projectDurationAoa tasks topo) else none

/-- The fixpoint LET of an event. -/
def letFix (tasks : List Task) (topo : List String) (v : String) :
    Option ℚ :=
  letIdeal (aoaEdges tasks topo) (initE tasks topo)
    (corankOf tasks topo v) v

theorem letFix_arc {tasks : List Task} (hids : (taskIds tasks).Nodup)
    (hpreds : ∀ t ∈ tasks, t.predecessors.Nodup) {topo : List String}
    (htopo : getTopologicalSort tasks = .ok topo) {e : AoaEdge}
    (he : e ∈ aoaEdges tasks topo) :
    leE (letFix tasks topo e.source)
      (subE (letFix tasks topo e.target) e.duration) := by
  have hrank := aoaEdges_corank hids hpreds htopo
  have hlt := hrank e he
  rcases hm : corankOf tasks topo e.source with _ | m
  · rw [hm] at hlt
    omega
  · rw [hm] at hlt
    have hsrc : letFix tasks topo e.source =
        (((aoaEdges tasks topo).filter (fun d => d.source == e.source)).map
          (fun d => subE (letIdeal (aoaEdges tasks topo) (initE tasks topo)
            m d.target) d.duration)).foldl minE
          (initE tasks topo e.source) := by
      rw [letFix, hm, letIdeal_succ]
    rw [hsrc]
    have hmem : subE (letIdeal (aoaEdges tasks topo) (initE tasks topo) m
        e.target) e.duration ∈
        ((aoaEdges tasks topo).filter (fun d => d.source == e.source)).map
          (fun d => subE (letIdeal (aoaEdges tasks topo) (initE tasks topo)
            m d.target) d.duration) :=
      List.mem_map.mpr ⟨e, List.mem_filter.mpr ⟨he, by rw [beq_iff_eq]⟩, rfl⟩
    have hstab : letIdeal (aoaEdges tasks topo) (initE tasks topo) m
        e.target = letFix tasks topo e.target := by
      rw [letFix]
      exact letIdeal_stable_of_le hrank (le_refl _) (by omega)
    rw [← hstab]
    exact foldl_minE_le_of_mem hmem _

theorem letFix_eq {tasks : List Task} (hids : (taskIds tasks).Nodup)
    (hpreds : ∀ t ∈ tasks, t.predecessors.Nodup) {topo : List String}
    (htopo : getTopologicalSort tasks = .ok topo) (v : String) :
    letFix tasks topo v =
      (((aoaEdges tasks topo).filter (fun e => e.source == v)).map
        (fun e => subE (letFix tasks topo e.target) e.duration)).foldl
        minE (initE tasks topo v) := by
  have hrank := aoaEdges_corank hids hpreds htopo
  rcases hm : corankOf tasks topo v with _ | m
  · rw [letFix, hm, letIdeal_filter_nil hrank hm]
    rfl
  · rw [letFix, hm, letIdeal_succ]
    have hcongr : ∀ e ∈ (aoaEdges tasks topo).filter
          (fun e => e.source == v),
        subE (letIdeal (aoaEdges tasks topo) (initE tasks topo) m
          e.target) e.duration =
          subE (letFix tasks topo e.target) e.duration := by
      intro e he
      rcases List.mem_filter.mp he with ⟨heE, hsrc⟩
      have hsrc' : e.source = v := by
        rw [beq_iff_eq] at hsrc
        exact hsrc
      have := hrank e heE
      rw [hsrc', hm] at this
      show subE (letIdeal (aoaEdges tasks topo) (initE tasks topo) m
        e.target) e.duration = subE (letIdeal (aoaEdges tasks topo)
          (initE tasks topo) (corankOf tasks topo e.target) e.target)
          e.duration
      rw [letIdeal_stable_of_le hrank (le_refl _) (by omega)]
    rw [List.map_congr_left hcongr]

theorem letFix_fin {tasks : List Task} (hids : (taskIds tasks).Nodup)
    (hpreds : ∀ t ∈ tasks, t.predecessors.Nodup) {topo : List String}
    (htopo : getTopologicalSort tasks = .ok topo) :
    letFix tasks topo "Fin" = some (projectDurationAoa tasks topo) := by
  rw [letFix_eq hids hpreds htopo]
  have hnil : (aoaEdges tasks topo).filter
      (fun e => e.source == "Fin") = [] := by
    rw [List.filter_eq_nil_iff]
    intro e he hc
    rw [beq_iff_eq] at hc
    exact fin_no_outgoing hids hpreds htopo e he hc
  rw [hnil]
  show initE tasks topo "Fin" = some (projectDurationAoa tasks topo)
  rw [initE, if_pos rfl]


theorem ltE_true_le : ∀ {x y : Option ℚ}, ltE x y = true → leE x y := by
  intro x y h
  cases x with
  | none => exact Bool.noConfusion h
  | some a =>
    cases y with
    | none => trivial
    | some b =>
      have : a < b := of_decide_eq_true h
      exact le_of_lt this

theorem relaxLetStep_keys (acc : List (String × Option ℚ)) (e : AoaEdge) :
    (relaxLetStep acc e).map Prod.fst = acc.map Prod.fst := by
  rw [relaxLetStep]
  rcases alookup acc e.source with _ | lu
  · rfl
  · rcases alookup acc e.target with _ | lv
    · rfl
    · show (if ltE (subE lv e.duration) lu = true then
        aset acc e.source (subE lv e.duration) else acc).map Prod.fst =
          acc.map Prod.fst
      by_cases h : ltE (subE lv e.duration) lu = true
      · rw [if_pos h, aset_keys]
      · rw [if_neg h]

theorem relaxLetStep_mono (acc : List (String × Option ℚ)) (e : AoaEdge) :
    ∀ v x, alookup acc v = some x →
      ∃ y, alookup (relaxLetStep acc e) v = some y ∧ leE y x := by
  intro v x hx
  rw [relaxLetStep]
  rcases ha : alookup acc e.source with _ | lu
  · exact ⟨x, hx, leE_refl x⟩
  · rcases hb : alookup acc e.target with _ | lv
    · exact ⟨x, hx, leE_refl x⟩
    · show ∃ y, alookup (if ltE (subE lv e.duration) lu = true then
        aset acc e.source (subE lv e.duration) else acc) v = some y ∧
          leE y x
      by_cases h : ltE (subE lv e.duration) lu = true
      · rw [if_pos h]
        by_cases hv : v = e.source
        · subst hv
          have hxu : x = lu := by
            rw [hx] at ha
            exact (Option.some.inj ha.symm).symm
          refine ⟨subE lv e.duration, ?_, by
            rw [hxu]; exact ltE_true_le h⟩
          rw [alookup_aset, if_pos rfl, ha]
          rfl
        · exact ⟨x, by rw [alookup_aset_ne _ _ hv]; exact hx, leE_refl x⟩
      · rw [if_neg h]
        exact ⟨x, hx, leE_refl x⟩

theorem relaxLet_fold_keys :
    ∀ (l : List AoaEdge) (acc : List (String × Option ℚ)),
      (l.foldl relaxLetStep acc).map Prod.fst = acc.map Prod.fst := by
  intro l
  induction l with
  | nil => intro acc; rfl
  | cons e l ih =>
    intro acc
    rw [List.foldl_cons, ih, relaxLetStep_keys]

theorem relaxLet_fold_mono :
    ∀ (l : List AoaEdge) (acc : List (String × Option ℚ)) (v : String)
      (x : Option ℚ), alookup acc v = some x →
      ∃ y, alookup (l.foldl relaxLetStep acc) v = some y ∧ leE y x := by
  intro l
  induction l with
  | nil => intro acc v x hx; exact ⟨x, hx, leE_refl x⟩
  | cons e l ih =>
    intro acc v x hx
    rw [List.foldl_cons]
    rcases relaxLetStep_mono acc e v x hx with ⟨y, hy, hxy⟩
    rcases ih _ v y hy with ⟨z, hz, hyz⟩
    exact ⟨z, hz, leE_trans hyz hxy⟩

theorem relaxLet_fold_lower {tasks : List Task}
    (hids : (taskIds tasks).Nodup)
    (hpreds : ∀ t ∈ tasks, t.predecessors.Nodup) {topo : List String}
    (htopo : getTopologicalSort tasks = .ok topo) :
    ∀ (l : List AoaEdge) (acc : List (String × Option ℚ)),
      (∀ e ∈ l, e ∈ aoaEdges tasks topo) →
      (∀ v x, alookup acc v = some x → leE (letFix tasks topo v) x) →
      ∀ v x, alookup (l.foldl relaxLetStep acc) v = some x →
        leE (letFix tasks topo v) x := by
  intro l
  induction l with
  | nil => intro acc _ hb v x hx; exact hb v x hx
  | cons e l ih =>
    intro acc hmem hb v x hx
    rw [List.foldl_cons] at hx
    refine ih _ (fun d hd => hmem d (List.mem_cons_of_mem e hd)) ?_ v x hx
    intro w y hy
    have heE := hmem e (List.mem_cons_self e l)
    rw [relaxLetStep] at hy
    rcases ha : alookup acc e.source with _ | lu
    · rw [ha] at hy
      exact hb w y hy
    · rcases hbt : alookup acc e.target with _ | lv
      · rw [ha, hbt] at hy
        exact hb w y hy
      · rw [ha, hbt] at hy
        have hy2 : alookup (if ltE (subE lv e.duration) lu = true then
            aset acc e.source (subE lv e.duration) else acc) w =
              some y := hy
        by_cases h : ltE (subE lv e.duration) lu = true
        · rw [if_pos h] at hy2
          by_cases hw : w = e.source
          · subst hw
            rw [alookup_aset, if_pos rfl, ha] at hy2
            have : y = subE lv e.duration := (Option.some.inj hy2).symm
            subst this
            have h1 : leE (letFix tasks topo e.target) lv := hb _ lv hbt
            have h2 := letFix_arc hids hpreds htopo heE
            exact leE_trans h2 (subE_mono e.duration h1)
          · rw [alookup_aset_ne _ _ hw] at hy2
            exact hb w y hy2
        · rw [if_neg h] at hy2
          exact hb w y hy2

theorem relaxLetPass_progress {tasks : List Task}
    (hids : (taskIds tasks).Nodup)
    (hpreds : ∀ t ∈ tasks, t.predecessors.Nodup) {topo : List String}
    (htopo : getTopologicalSort tasks = .ok topo)
    (k : ℕ) (acc : List (String × Option ℚ))
    (hkeys : acc.map Prod.fst = eventIds tasks topo)
    (hup : ∀ v ∈ eventIds tasks topo, ∃ x, alookup acc v = some x ∧
      leE x (letIdeal (aoaEdges tasks topo) (initE tasks topo) k v)) :
    ∀ v ∈ eventIds tasks topo,
      ∃ x, alookup (relaxLetPass (aoaEdges tasks topo) acc) v = some x ∧
        leE x (letIdeal (aoaEdges tasks topo) (initE tasks topo)
          (k + 1) v) := by
  intro v hv
  rcases hup v hv with ⟨x0, hx0, hix0⟩
  rcases relaxLet_fold_mono (aoaEdges tasks topo) acc v x0 hx0 with
    ⟨x, hx, hx0x⟩
  refine ⟨x, hx, ?_⟩
  rw [letIdeal_succ]
  refine leE_foldl_minE _ _ _ ?_ ?_
  · exact leE_trans hx0x (leE_trans hix0 (letIdeal_le_init _ _ k v))
  · -- x is below every outgoing candidate
    intro c hc
    rcases List.mem_map.mp hc with ⟨e, hef, rfl⟩
    rcases List.mem_filter.mp hef with ⟨heE, hsrc⟩
    have hsrc' : e.source = v := by
      rw [beq_iff_eq] at hsrc
      exact hsrc
    rcases List.append_of_mem heE with ⟨pre, post, hsplitE⟩
    have hpass : relaxLetPass (aoaEdges tasks topo) acc =
        post.foldl relaxLetStep
          (relaxLetStep (pre.foldl relaxLetStep acc) e) := by
      rw [relaxLetPass, hsplitE, List.foldl_append, List.foldl_cons]
    set acc1 := pre.foldl relaxLetStep acc with hacc1
    have hkeys1 : acc1.map Prod.fst = eventIds tasks topo := by
      rw [hacc1, relaxLet_fold_keys, hkeys]
    have hsrcmem : e.source ∈ eventIds tasks topo :=
      (aoaEdges_endpoints hids hpreds htopo e heE).1
    have htgtmem : e.target ∈ eventIds tasks topo :=
      (aoaEdges_endpoints hids hpreds htopo e heE).2.1
    rcases hup e.target htgtmem with ⟨b0, hb0, hib0⟩
    rcases relaxLet_fold_mono pre acc e.target b0 hb0 with ⟨b, hb, hb0b⟩
    rcases alookup_mem_of_key (by rw [hkeys1]; exact hsrcmem :
      e.source ∈ acc1.map Prod.fst) with ⟨a, ha⟩
    have hbideal : leE b (letIdeal (aoaEdges tasks topo) (initE tasks topo)
        k e.target) := leE_trans hb0b hib0
    have hstep : ∃ y, alookup (relaxLetStep acc1 e) e.source = some y ∧
        leE y (subE (letIdeal (aoaEdges tasks topo) (initE tasks topo) k
          e.target) e.duration) := by
      rw [relaxLetStep, ha, hb]
      show ∃ y, alookup (if ltE (subE b e.duration) a = true then
        aset acc1 e.source (subE b e.duration) else acc1) e.source =
          some y ∧ leE y _
      by_cases h : ltE (subE b e.duration) a = true
      · rw [if_pos h]
        refine ⟨subE b e.duration, ?_, subE_mono e.duration hbideal⟩
        rw [alookup_aset, if_pos rfl, ha]
        rfl
      · rw [if_neg h]
        have hf : ltE (subE b e.duration) a = false := by
          revert h
          cases ltE (subE b e.duration) a with
          | false => intro _; rfl
          | true => intro h; exact absurd rfl h
        have hle : leE a (subE b e.duration) := (ltE_false_iff _ _).mp hf
        exact ⟨a, ha, leE_trans hle (subE_mono e.duration hbideal)⟩
    rcases hstep with ⟨y, hy, hiy⟩
    rcases relaxLet_fold_mono post _ e.source y hy with ⟨z, hz, hyz⟩
    rw [← hpass] at hz
    rw [hsrc'] at hz
    rw [relaxLetPass] at hz
    rw [hx] at hz
    have hzx : x = z := Option.some.inj hz
    rw [hzx]
    exact leE_trans hyz hiy

theorem relaxLetIter_upper {tasks : List Task}
    (hids : (taskIds tasks).Nodup)
    (hpreds : ∀ t ∈ tasks, t.predecessors.Nodup) {topo : List String}
    (htopo : getTopologicalSort tasks = .ok topo) :
    ∀ (k j : ℕ) (acc : List (String × Option ℚ)),
      acc.map Prod.fst = eventIds tasks topo →
      (∀ v ∈ eventIds tasks topo, ∃ x, alookup acc v = some x ∧
        leE x (letIdeal (aoaEdges tasks topo) (initE tasks topo) j v)) →
      ∀ v ∈ eventIds tasks topo,
        ∃ x, alookup (relaxLetIter (aoaEdges tasks topo) k acc) v =
          some x ∧
          leE x (letIdeal (aoaEdges tasks topo) (initE tasks topo)
            (j + k) v) := by
  intro k
  induction k with
  | zero =>
    intro j acc _ hup v hv
    exact hup v hv
  | succ k ih =>
    intro j acc hkeys hup v hv
    rw [relaxLetIter]
    have hprog := relaxLetPass_progress hids hpreds htopo j acc hkeys hup
    have hkeys2 : (relaxLetPass (aoaEdges tasks topo) acc).map Prod.fst =
        eventIds tasks topo := by
      rw [relaxLetPass, relaxLet_fold_keys, hkeys]
    have := ih (j + 1) _ hkeys2 hprog v hv
    rw [show j + 1 + k = j + (k + 1) from by omega] at this
    exact this

theorem relaxLetIter_lower {tasks : List Task}
    (hids : (taskIds tasks).Nodup)
    (hpreds : ∀ t ∈ tasks, t.predecessors.Nodup) {topo : List String}
    (htopo : getTopologicalSort tasks = .ok topo) :
    ∀ (k : ℕ) (acc : List (String × Option ℚ)),
      (∀ v x, alookup acc v = some x → leE (letFix tasks topo v) x) →
      ∀ v x, alookup (relaxLetIter (aoaEdges tasks topo) k acc) v =
        some x → leE (letFix tasks topo v) x := by
  intro k
  induction k with
  | zero => intro acc hb v x hx; exact hb v x hx
  | succ k ih =>
    intro acc hb v x hx
    rw [relaxLetIter] at hx
    refine ih _ ?_ v x hx
    intro w y hy
    exact relaxLet_fold_lower hids hpreds htopo (aoaEdges tasks topo) acc
      (fun d hd => hd) hb w y hy

theorem letTable_eq_fix {tasks : List Task} (hids : (taskIds tasks).Nodup)
    (hpreds : ∀ t ∈ tasks, t.predecessors.Nodup) {topo : List String}
    (htopo : getTopologicalSort tasks = .ok topo) :
    ∀ v ∈ eventIds tasks topo,
      alookup (letTable tasks topo) v = some (letFix tasks topo v) := by
  intro v hv
  have hrank := aoaEdges_corank hids hpreds htopo
  have hlt0 : letTable tasks topo =
      relaxLetIter (aoaEdges tasks topo) ((eventIds tasks topo).length + 2)
        ((eventIds tasks topo).map (fun u => (u, initE tasks topo u))) := rfl
  have hkeys0 : (((eventIds tasks topo)).map
      (fun u => (u, initE tasks topo u))).map Prod.fst =
        eventIds tasks topo := by
    rw [List.map_map]
    show (eventIds tasks topo).map (fun v => v) = eventIds tasks topo
    induction eventIds tasks topo with
    | nil => rfl
    | cons u l ih => rw [List.map_cons, ih]
  have hup0 : ∀ w ∈ eventIds tasks topo,
      ∃ x, alookup ((eventIds tasks topo).map
        (fun u => (u, initE tasks topo u))) w = some x ∧
        leE x (letIdeal (aoaEdges tasks topo) (initE tasks topo) 0 w) := by
    intro w hw
    exact ⟨initE tasks topo w, alookup_map_fn (initE tasks topo) _ w hw,
      leE_refl _⟩
  have hup := relaxLetIter_upper hids hpreds htopo
    ((eventIds tasks topo).length + 2) 0 _ hkeys0 hup0 v hv
  have hlow := relaxLetIter_lower hids hpreds htopo
    ((eventIds tasks topo).length + 2) _
    (by
      intro w y hy
      have hw : w ∈ eventIds tasks topo := by
        have := alookup_key_of_some hy
        rw [hkeys0] at this
        exact this
      have hlk := alookup_map_fn (initE tasks topo) (eventIds tasks topo)
        w hw
      rw [hy] at hlk
      have hy0 : y = initE tasks topo w := (Option.some.inj hlk.symm).symm
      rw [hy0, letFix]
      exact letIdeal_le_init _ _ _ w) v
  rcases hup with ⟨x, hx, hix⟩
  have hxge := hlow x hx
  have hstab : letIdeal (aoaEdges tasks topo) (initE tasks topo)
      (0 + ((eventIds tasks topo).length + 2)) v = letFix tasks topo v := by
    rw [letFix]
    refine letIdeal_stable_of_le hrank (le_refl _) ?_
    rw [corankOf]
    omega
  rw [hstab] at hix
  have hxeq : x = letFix tasks topo v := leE_antisymm hix hxge
  rw [hlt0, hx, hxeq]

theorem letTable_pass_noop {tasks : List Task}
    (hids : (taskIds tasks).Nodup)
    (hpreds : ∀ t ∈ tasks, t.predecessors.Nodup) {topo : List String}
    (htopo : getTopologicalSort tasks = .ok topo) :
    relaxLetPass (aoaEdges tasks topo) (letTable tasks topo) =
      letTable tasks topo := by
  rw [relaxLetPass]
  refine foldl_fixed _ _ _ ?_
  intro e he
  have hsrc := letTable_eq_fix hids hpreds htopo e.source
    (aoaEdges_endpoints hids hpreds htopo e he).1
  have htgt := letTable_eq_fix hids hpreds htopo e.target
    (aoaEdges_endpoints hids hpreds htopo e he).2.1
  rw [relaxLetStep, hsrc, htgt]
  have hfalse : ltE (subE (letFix tasks topo e.target) e.duration)
      (letFix tasks topo e.source) = false :=
    (ltE_false_iff _ _).mpr (letFix_arc hids hpreds htopo he)
  show (if ltE (subE (letFix tasks topo e.target) e.duration)
      (letFix tasks topo e.source) = true then
    aset (letTable tasks topo) e.source
      (subE (letFix tasks topo e.target) e.duration)
    else letTable tasks topo) = letTable tasks topo
  rw [if_neg (fun h => by rw [hfalse] at h; exact Bool.noConfusion h)]

theorem letTable_equations {tasks : List Task}
    (hids : (taskIds tasks).Nodup)
    (hpreds : ∀ t ∈ tasks, t.predecessors.Nodup) {topo : List String}
    (htopo : getTopologicalSort tasks = .ok topo) :
    alookup (letTable tasks topo) "Fin" =
      some (some (projectDurationAoa tasks topo)) ∧
    ∀ v ∈ eventIds tasks topo, v ≠ "Fin" →
      ∃ y, alookup (letTable tasks topo) v = some y ∧
        y = (((aoaEdges tasks topo).filter (fun e => e.source == v)).map
          (fun e => subE ((alookup (letTable tasks topo) e.target).getD
            none) e.duration)).foldl minE none := by
  constructor
  · rw [letTable_eq_fix hids hpreds htopo "Fin" fin_mem_eventIds,
      letFix_fin hids hpreds htopo]
  · intro v hv hvne
    refine ⟨letFix tasks topo v, letTable_eq_fix hids hpreds htopo v hv, ?_⟩
    rw [letFix_eq hids hpreds htopo v]
    have hinit : initE tasks topo v = none := by
      rw [initE, if_neg hvne]
    rw [hinit]
    congr 1
    refine List.map_congr_left ?_
    intro e he
    rcases List.mem_filter.mp he with ⟨heE, _⟩
    rw [letTable_eq_fix hids hpreds htopo e.target
      (aoaEdges_endpoints hids hpreds htopo e heE).2.1]
    rfl


theorem projectDurationAoa_eq_fix {tasks : List Task}
    (hids : (taskIds tasks).Nodup)
    (hpreds : ∀ t ∈ tasks, t.predecessors.Nodup) {topo : List String}
    (htopo : getTopologicalSort tasks = .ok topo) :
    projectDurationAoa tasks topo = eetFix tasks topo "Fin" := by
  rw [projectDurationAoa,
    eetTable_eq_fix hids hpreds htopo "Fin" fin_mem_eventIds]
  rfl




/-! ## C2 for arbitrary predecessor lists

With duplicated predecessor entries the connection loop emits
zero-duration dummy self-loops, so the event rank is only non-decreasing
along an arc.  The relaxation fixpoint is rebuilt over the non-self-loop
arcs and transferred to the full arc list. -/

theorem idx_inj {α : Type} [BEq α] [LawfulBEq α] :
    ∀ {l : List α} {a b : α}, a ∈ l → b ∈ l →
      l.indexOf a = l.indexOf b → a = b := by
  intro l
  induction l with
  | nil => intro a b ha _ _; exact absurd ha (by simp)
  | cons x r ih =>
    intro a b ha hb hidx
    by_cases hxa : x = a
    · by_cases hxb : x = b
      · rw [← hxa, ← hxb]
    
      · subst hxa
        rw [idx_cons_self, idx_cons_ne r hxb] at hidx
        exact absurd hidx (by omega)
    · by_cases hxb : x = b
      · subst hxb
        rw [idx_cons_self, idx_cons_ne r hxa] at hidx
        exact absurd hidx (by omega)
      · rw [idx_cons_ne r hxa, idx_cons_ne r hxb] at hidx
        have ha' : a ∈ r := by
          rcases List.mem_cons.mp ha with h | h
          · exact absurd h.symm hxa
          · exact h
        have hb' : b ∈ r := by
          rcases List.mem_cons.mp hb with h | h
          · exact absurd h.symm hxb
          · exact h
        exact ih ha' hb' (by omega)

/-- Ordered-dummy invariant without duplicate-free predecessor lists: a
dummy connects the junction of an earlier-or-equal signature to the
junction of the current one (equality exactly for the self-loop dummies
that duplicated predecessor entries create). -/
def DumOrdW (tasks : List Task) (topo : List String) (d : AoaEdge) : Prop :=
  ∃ s1 s2, s1 ∈ sigList tasks topo ∧ s2 ∈ sigList tasks topo ∧
    s1.isEmpty = false ∧ s2.isEmpty = false ∧
    d.source = jid tasks topo s1 ∧ d.target = jid tasks topo s2 ∧
    (sigList tasks topo).indexOf s1 ≤ (sigList tasks topo).indexOf s2

theorem connect_fold_CW {tasks : List Task} {topo : List String}
    {done rest : List (List String)} {s : List String}
    (hsplit : sigList tasks topo = done ++ s :: rest)
    (hse : s.isEmpty = false) :
    ∀ (post pre : List String) (st : ConnectState), s = pre ++ post →
      (∀ kv ∈ st.endNodes,
        (∃ s' ∈ done, s'.isEmpty = false ∧ kv.2 = jid tasks topo s' ∧
          kv.1 ∈ s') ∨ (kv.2 = jid tasks topo s ∧ kv.1 ∈ pre)) →
      (∀ d ∈ st.dummies, DumOrdW tasks topo d) →
      (∀ kv ∈ (post.foldl (connectPred (jid tasks topo s)) st).endNodes,
        (∃ s' ∈ done, s'.isEmpty = false ∧ kv.2 = jid tasks topo s' ∧
          kv.1 ∈ s') ∨ (kv.2 = jid tasks topo s ∧ kv.1 ∈ s)) ∧
      (∀ d ∈ (post.foldl (connectPred (jid tasks topo s)) st).dummies,
        DumOrdW tasks topo d) := by
  have hnds : (sigList tasks topo).Nodup := nodup_dedupF _
  have hsnotdone : s ∉ done := by
    intro hc
    rw [hsplit, List.nodup_append] at hnds
    exact hnds.2.2 hc (List.mem_cons_self s rest)
  have hidx_s : (sigList tasks topo).indexOf s = done.length := by
    rw [hsplit, idx_append_not_mem _ hsnotdone, idx_cons_self]
    omega
  have hm2 : s ∈ sigList tasks topo := by
    rw [hsplit]
    exact List.mem_append.mpr (Or.inr (List.mem_cons_self s rest))
  intro post
  induction post with
  | nil =>
    intro pre st hsp hen hdum
    rw [List.foldl_nil]
    refine ⟨?_, hdum⟩
    intro kv hkv
    rcases hen kv hkv with h | ⟨h1, h2⟩
    · exact Or.inl h
    · refine Or.inr ⟨h1, ?_⟩
      rw [hsp]
      exact List.mem_append.mpr (Or.inl h2)
  | cons p rest2 ih =>
    intro pre st hsp hen hdum
    rw [List.foldl_cons, connectPred]
    rcases halk : alookup st.endNodes p with _ | e
    · refine ih (pre ++ [p]) _ (by rw [hsp, List.append_assoc]; rfl) ?_ hdum
      intro kv hkv
      rcases List.mem_append.mp hkv with h1 | h1
      · rcases hen kv h1 with h | ⟨h2, h3⟩
        · exact Or.inl h
        · exact Or.inr ⟨h2, List.mem_append.mpr (Or.inl h3)⟩
      · rcases List.mem_singleton.mp h1 with rfl
        exact Or.inr ⟨rfl, List.mem_append.mpr (Or.inr (List.mem_singleton.mpr
          rfl))⟩
    · have hmem := alookup_mem halk
      refine ih (pre ++ [p]) _ (by rw [hsp, List.append_assoc]; rfl) ?_ ?_
      · intro kv hkv
        rcases hen kv hkv with h | ⟨h2, h3⟩
        · exact Or.inl h
        · exact Or.inr ⟨h2, List.mem_append.mpr (Or.inl h3)⟩
      · intro d hd
        rcases List.mem_append.mp hd with h1 | h1
        · exact hdum d h1
        · rcases List.mem_singleton.mp h1 with rfl
          rcases hen _ hmem with ⟨s1, hs1d, hs1ne, he, _⟩ | ⟨he, _⟩
          · have he' : e = jid tasks topo s1 := he
            have hm1 : s1 ∈ sigList tasks topo := by
              rw [hsplit]
              exact List.mem_append.mpr (Or.inl hs1d)
            have h1lt : (sigList tasks topo).indexOf s1 < done.length := by
              rw [hsplit, idx_append_left _ hs1d]
              exact idx_lt_of_mem hs1d
            exact ⟨s1, s, hm1, hm2, hs1ne, hse, he', rfl, by omega⟩
          · have he' : e = jid tasks topo s := he
            exact ⟨s, s, hm2, hm2, hse, hse, he', rfl, le_refl _⟩

theorem buildConnect_CW {tasks : List Task} {topo : List String} :
    (∀ kv ∈ (buildConnect tasks topo).endNodes,
      ∃ s' ∈ sigList tasks topo, s'.isEmpty = false ∧
        kv.2 = jid tasks topo s' ∧ kv.1 ∈ s') ∧
    (∀ d ∈ (buildConnect tasks topo).dummies, DumOrdW tasks topo d) := by
  rw [buildConnect]
  have H : ∀ (rest done : List (List String)) (st : ConnectState),
      sigList tasks topo = done ++ rest →
      (∀ kv ∈ st.endNodes, ∃ s' ∈ done, s'.isEmpty = false ∧
        kv.2 = jid tasks topo s' ∧ kv.1 ∈ s') →
      (∀ d ∈ st.dummies, DumOrdW tasks topo d) →
      (∀ kv ∈ (rest.foldl (connectSig tasks topo) st).endNodes,
        ∃ s' ∈ done ++ rest, s'.isEmpty = false ∧
          kv.2 = jid tasks topo s' ∧ kv.1 ∈ s') ∧
      (∀ d ∈ (rest.foldl (connectSig tasks topo) st).dummies,
        DumOrdW tasks topo d) := by
    intro rest
    induction rest with
    | nil =>
      intro done st _ hen hdum
      rw [List.foldl_nil]
      refine ⟨?_, hdum⟩
      intro kv hkv
      rcases hen kv hkv with ⟨s', h1, h2, h3, h4⟩
      exact ⟨s', by rw [List.append_nil]; exact h1, h2, h3, h4⟩
    | cons s rest ih =>
      intro done st hsplit hen hdum
      rw [List.foldl_cons]
      have hstep :
          (∀ kv ∈ (connectSig tasks topo st s).endNodes,
            ∃ s' ∈ done ++ [s], s'.isEmpty = false ∧
              kv.2 = jid tasks topo s' ∧ kv.1 ∈ s') ∧
          (∀ d ∈ (connectSig tasks topo st s).dummies,
            DumOrdW tasks topo d) := by
        rw [connectSig]
        by_cases hemp : s.isEmpty = true
        · rw [if_pos hemp]
          refine ⟨?_, hdum⟩
          intro kv hkv
          rcases hen kv hkv with ⟨s', h1, h2, h3, h4⟩
          exact ⟨s', List.mem_append.mpr (Or.inl h1), h2, h3, h4⟩
        · rw [if_neg hemp]
          have hse : s.isEmpty = false := Bool.eq_false_iff.mpr hemp
          have hfold := connect_fold_CW hsplit hse
            s [] st (by rw [List.nil_append])
            (by
              intro kv hkv
              exact Or.inl (hen kv hkv))
            hdum
          refine ⟨?_, hfold.2⟩
          intro kv hkv
          rcases hfold.1 kv hkv with ⟨s', h1, h2, h3, h4⟩ | ⟨h1, h2⟩
          · exact ⟨s', List.mem_append.mpr (Or.inl h1), h2, h3, h4⟩
          · exact ⟨s, List.mem_append.mpr (Or.inr (List.mem_singleton.mpr
              rfl)), hse, h1, h2⟩
      have := ih (done ++ [s]) _ (by rw [hsplit, List.append_assoc]; rfl)
        hstep.1 hstep.2
      rw [List.append_assoc] at this
      rw [show done ++ s :: rest = done ++ ([s] ++ rest) from by
        rw [List.singleton_append]]
      exact this
  have := H (sigList tasks topo) [] ⟨[], []⟩ (by rw [List.nil_append])
    (by intro kv hkv; exact absurd hkv (by simp))
    (by intro d hd; exact absurd hd (by simp))
  rw [List.nil_append] at this
  exact this

theorem real_no_selfloop_w {tasks : List Task}
    (hids : (taskIds tasks).Nodup) {topo : List String}
    (htopo : getTopologicalSort tasks = .ok topo) {t : Task}
    (ht : t ∈ tasks) :
    startNodeOf tasks topo t.id ≠
      endNodeOf (buildConnect tasks topo) t.id := by
  have hstart : startNodeOf tasks topo t.id = jid tasks topo (sigOf t) := by
    rw [startNodeOf, sigOfId_eq hids ht]
  rw [endNodeOf]
  rcases halk : alookup (buildConnect tasks topo).endNodes t.id with _ | e
  · rw [hstart]
    show jid tasks topo (sigOf t) ≠ (none : Option String).getD "Fin"
    rcases hemp : (sigOf t).isEmpty with _ | _
    · rw [jid_of_nonempty hemp]
      exact j_append_ne_fin _
    · rw [jid, if_pos hemp]
      decide
  · rcases (buildConnect_CW).1 _ (alookup_mem halk) with
      ⟨s', hs'm, hs'ne, he, hts'⟩
    have he' : e = jid tasks topo s' := he
    rw [hstart]
    show jid tasks topo (sigOf t) ≠ (some e).getD "Fin"
    show jid tasks topo (sigOf t) ≠ e
    rw [he']
    intro hc
    have hsig : sigOf t = s' :=
      jid_inj (sigOf_mem_sigList hids htopo ht) hs'm hc
    have hself : t.id ∈ t.predecessors := by
      have : t.id ∈ sigOf t := by
        rw [hsig]
        exact hts'
      rw [sigOf, mem_sortByKey] at this
      exact this
    exact absurd ⟨t.id, [], List.Chain.cons ⟨t, ht, rfl, hself⟩
      List.Chain.nil⟩ (getTopo_ok_no_cycle hids htopo)

theorem realEdges_eq_map_w {tasks : List Task}
    (hids : (taskIds tasks).Nodup) {topo : List String}
    (htopo : getTopologicalSort tasks = .ok topo) :
    realEdges tasks topo (buildConnect tasks topo) =
      tasks.map (fun t => (⟨startNodeOf tasks topo t.id,
        endNodeOf (buildConnect tasks topo) t.id, some t.id, t.duration,
        false⟩ : AoaEdge)) := by
  rw [realEdges]
  have := foldl_skip_append_eq_map
    (fun t : Task => startNodeOf tasks topo t.id =
      endNodeOf (buildConnect tasks topo) t.id)
    (fun t : Task => (⟨startNodeOf tasks topo t.id,
      endNodeOf (buildConnect tasks topo) t.id, some t.id, t.duration,
      false⟩ : AoaEdge)) tasks []
    (fun t ht => real_no_selfloop_w hids htopo ht)
  exact this

theorem endNode_rank_w {tasks : List Task} (hids : (taskIds tasks).Nodup)
    {topo : List String} (htopo : getTopologicalSort tasks = .ok topo)
    {t : Task} (ht : t ∈ tasks) :
    rankOf tasks topo (startNodeOf tasks topo t.id) <
      rankOf tasks topo (endNodeOf (buildConnect tasks topo) t.id) := by
  have hstart : startNodeOf tasks topo t.id = jid tasks topo (sigOf t) := by
    rw [startNodeOf, sigOfId_eq hids ht]
  rw [endNodeOf]
  rcases halk : alookup (buildConnect tasks topo).endNodes t.id with _ | e
  · show rankOf tasks topo (startNodeOf tasks topo t.id) <
      rankOf tasks topo "Fin"
    refine rank_lt_fin ?_ ?_
    · rw [hstart]
      exact jid_mem_eventIds (sigOf_mem_sigList hids htopo ht)
    · rw [hstart]
      rcases hemp : (sigOf t).isEmpty with _ | _
      · rw [jid_of_nonempty hemp]
        exact j_append_ne_fin _
      · rw [jid, if_pos hemp]
        decide
  · rcases (buildConnect_CW).1 _ (alookup_mem halk) with
      ⟨s', hs'm, hs'ne, he, hts'⟩
    have he' : e = jid tasks topo s' := he
    show rankOf tasks topo (startNodeOf tasks topo t.id) <
      rankOf tasks topo e
    rw [hstart, he']
    have hts'2 : t.id ∈ s' := hts'
    rcases hemp : (sigOf t).isEmpty with _ | _
    · exact sig_rank_mono
        (mem_nonemptySigs_of_sigList (sigOf_mem_sigList hids htopo ht) hemp)
        (mem_nonemptySigs_of_sigList hs'm hs'ne)
        (sig_first_lt hids htopo ht hs'm hts'2)
    · rw [show jid tasks topo (sigOf t) = "Start" from by
        rw [jid, if_pos hemp], rank_start]
      exact rank_pos_of_jid (mem_nonemptySigs_of_sigList hs'm hs'ne)

theorem aoaEdges_endpoints_w {tasks : List Task}
    (hids : (taskIds tasks).Nodup) {topo : List String}
    (htopo : getTopologicalSort tasks = .ok topo) :
    ∀ e ∈ aoaEdges tasks topo,
      e.source ∈ eventIds tasks topo ∧ e.target ∈ eventIds tasks topo := by
  intro e he
  rw [aoaEdges] at he
  rcases List.mem_append.mp he with h1 | h1
  · rcases (buildConnect_CW).2 e h1 with
      ⟨s1, s2, hs1, hs2, _, _, hsrc, htgt, _⟩
    rw [hsrc, htgt]
    exact ⟨jid_mem_eventIds hs1, jid_mem_eventIds hs2⟩
  · rcases realEdges_mem.mp h1 with ⟨t, ht, _, rfl⟩
    constructor
    · show startNodeOf tasks topo t.id ∈ eventIds tasks topo
      rw [startNodeOf, sigOfId_eq hids ht]
      exact jid_mem_eventIds (sigOf_mem_sigList hids htopo ht)
    · show endNodeOf (buildConnect tasks topo) t.id ∈ eventIds tasks topo
      rw [endNodeOf]
      rcases halk : alookup (buildConnect tasks topo).endNodes t.id with _ | v
      · exact fin_mem_eventIds
      · rcases (buildConnect_CW).1 _ (alookup_mem halk) with
          ⟨s', hs', _, hv, _⟩
        have hv' : v = jid tasks topo s' := hv
        show v ∈ eventIds tasks topo
        rw [hv']
        exact jid_mem_eventIds hs'

theorem aoaEdges_self_dur0 {tasks : List Task} {topo : List String} :
    ∀ e ∈ aoaEdges tasks topo, e.source = e.target → e.duration = 0 := by
  intro e he hself
  rw [aoaEdges] at he
  rcases List.mem_append.mp he with h1 | h1
  · exact ((buildConnect_inv tasks topo).2 e h1).2.2.1
  · rcases realEdges_mem.mp h1 with ⟨t, _, hne, rfl⟩
    exact absurd hself hne

theorem aoaEdges_rank_le {tasks : List Task}
    (hids : (taskIds tasks).Nodup) {topo : List String}
    (htopo : getTopologicalSort tasks = .ok topo) :
    ∀ e ∈ aoaEdges tasks topo,
      rankOf tasks topo e.source ≤ rankOf tasks topo e.target := by
  intro e he
  rw [aoaEdges] at he
  rcases List.mem_append.mp he with h1 | h1
  · rcases (buildConnect_CW).2 e h1 with
      ⟨s1, s2, hs1, hs2, hne1, hne2, hsrc, htgt, hle⟩
    rw [hsrc, htgt]
    rcases Nat.lt_or_ge ((sigList tasks topo).indexOf s1)
        ((sigList tasks topo).indexOf s2) with hlt | hge
    · exact le_of_lt (sig_rank_mono (mem_nonemptySigs_of_sigList hs1 hne1)
        (mem_nonemptySigs_of_sigList hs2 hne2) hlt)
    · have hidx : (sigList tasks topo).indexOf s1 =
          (sigList tasks topo).indexOf s2 := by omega
      rw [idx_inj hs1 hs2 hidx]
  · rcases realEdges_mem.mp h1 with ⟨t, ht, _, rfl⟩
    exact le_of_lt (endNode_rank_w hids htopo ht)

theorem aoaEdges_rank_ne {tasks : List Task}
    (hids : (taskIds tasks).Nodup) {topo : List String}
    (htopo : getTopologicalSort tasks = .ok topo) :
    ∀ e ∈ aoaEdges tasks topo, e.source ≠ e.target →
      rankOf tasks topo e.source < rankOf tasks topo e.target := by
  intro e he hne
  have hle := aoaEdges_rank_le hids htopo e he
  have hmem := aoaEdges_endpoints_w hids htopo e he
  rcases Nat.lt_or_ge (rankOf tasks topo e.source)
      (rankOf tasks topo e.target) with hlt | hge
  · exact hlt
  · exfalso
    have hidx : rankOf tasks topo e.source = rankOf tasks topo e.target := by
      omega
    exact hne (idx_inj hmem.1 hmem.2 hidx)

theorem fin_no_outgoing_w {tasks : List Task}
    (hids : (taskIds tasks).Nodup) {topo : List String}
    (htopo : getTopologicalSort tasks = .ok topo) :
    ∀ e ∈ aoaEdges tasks topo, e.source ≠ "Fin" := by
  intro e he
  rw [aoaEdges] at he
  rcases List.mem_append.mp he with h1 | h1
  · rcases (buildConnect_CW).2 e h1 with
      ⟨s1, _, _, _, hne1, _, hsrc, _, _⟩
    rw [hsrc, jid_of_nonempty hne1]
    exact j_append_ne_fin _
  · rcases realEdges_mem.mp h1 with ⟨t, _, _, rfl⟩
    show startNodeOf tasks topo t.id ≠ "Fin"
    rw [startNodeOf]
    rcases hemp : (sigOfId tasks t.id).isEmpty with _ | _
    · rw [jid_of_nonempty hemp]
      exact j_append_ne_fin _
    · rw [jid, if_pos hemp]
      decide

theorem aoaEdges_dur_nonneg_w {tasks : List Task}
    (hdur : ∀ t ∈ tasks, 0 ≤ t.duration) {topo : List String} :
    ∀ e ∈ aoaEdges tasks topo, 0 ≤ e.duration := by
  intro e he
  rw [aoaEdges] at he
  rcases List.mem_append.mp he with h1 | h1
  · rw [((buildConnect_inv tasks topo).2 e h1).2.2.1]
  · rcases realEdges_mem.mp h1 with ⟨t, ht, _, rfl⟩
    exact hdur t ht


/-- The non-self-loop arcs: the relaxation fixpoint is characterized by
longest/shortest paths over these, since a zero-duration self-loop never
changes a table entry. -/
def nsEdges (tasks : List Task) (topo : List String) : List AoaEdge :=
  (aoaEdges tasks topo).filter (fun e => !(e.source == e.target))

theorem nsEdges_sub {tasks : List Task} {topo : List String} {e : AoaEdge}
    (he : e ∈ nsEdges tasks topo) : e ∈ aoaEdges tasks topo :=
  (List.mem_filter.mp he).1

theorem nsEdges_ne {tasks : List Task} {topo : List String} {e : AoaEdge}
    (he : e ∈ nsEdges tasks topo) : e.source ≠ e.target := by
  have := (List.mem_filter.mp he).2
  intro hc
  rw [hc] at this
  simp at this

theorem mem_nsEdges_of_ne {tasks : List Task} {topo : List String}
    {e : AoaEdge} (he : e ∈ aoaEdges tasks topo)
    (hne : e.source ≠ e.target) : e ∈ nsEdges tasks topo := by
  refine List.mem_filter.mpr ⟨he, ?_⟩
  simp [hne]

theorem nsEdges_rank {tasks : List Task} (hids : (taskIds tasks).Nodup)
    {topo : List String} (htopo : getTopologicalSort tasks = .ok topo) :
    ∀ e ∈ nsEdges tasks topo,
      rankOf tasks topo e.source < rankOf tasks topo e.target := by
  intro e he
  exact aoaEdges_rank_ne hids htopo e (nsEdges_sub he) (nsEdges_ne he)

theorem nsEdges_corank {tasks : List Task} (hids : (taskIds tasks).Nodup)
    {topo : List String} (htopo : getTopologicalSort tasks = .ok topo) :
    ∀ e ∈ nsEdges tasks topo,
      corankOf tasks topo e.target < corankOf tasks topo e.source := by
  intro e he
  have h1 := nsEdges_rank hids htopo e he
  have h2 := idx_lt_of_mem
    (aoaEdges_endpoints_w hids htopo e (nsEdges_sub he)).2
  rw [← rankOf] at h2
  rw [corankOf, corankOf]
  omega

/-- The fixpoint EET of an event, with self-loops removed. -/
def eetFix2 (tasks : List Task) (topo : List String) (v : String) : ℚ :=
  eetIdeal (nsEdges tasks topo) (rankOf tasks topo v) v

theorem eetFix2_arc_ns {tasks : List Task} (hids : (taskIds tasks).Nodup)
    {topo : List String} (htopo : getTopologicalSort tasks = .ok topo)
    {e : AoaEdge} (he : e ∈ nsEdges tasks topo) :
    eetFix2 tasks topo e.source + e.duration ≤
      eetFix2 tasks topo e.target := by
  have hrank := nsEdges_rank hids htopo
  have hlt := hrank e he
  rcases hm : rankOf tasks topo e.target with _ | m
  · rw [hm] at hlt
    omega
  · rw [hm] at hlt
    have htgt : eetFix2 tasks topo e.target =
        (((nsEdges tasks topo).filter (fun d => d.target == e.target)).map
          (fun d => eetIdeal (nsEdges tasks topo) m d.source +
            d.duration)).foldl max 0 := by
      rw [eetFix2, hm, eetIdeal_succ]
    rw [htgt]
    have hmem : eetIdeal (nsEdges tasks topo) m e.source + e.duration ∈
        ((nsEdges tasks topo).filter (fun d => d.target == e.target)).map
          (fun d => eetIdeal (nsEdges tasks topo) m d.source +
            d.duration) :=
      List.mem_map.mpr ⟨e, List.mem_filter.mpr ⟨he, by
        rw [beq_iff_eq]⟩, rfl⟩
    have hstab : eetIdeal (nsEdges tasks topo) m e.source =
        eetFix2 tasks topo e.source := by
      rw [eetFix2]
      exact eetIdeal_stable_of_le hrank (le_refl _) (by omega)
    rw [← hstab]
    exact foldl_max_le_of_mem hmem 0

theorem eetFix2_eq_ns {tasks : List Task} (hids : (taskIds tasks).Nodup)
    {topo : List String} (htopo : getTopologicalSort tasks = .ok topo)
    (v : String) :
    eetFix2 tasks topo v =
      (((nsEdges tasks topo).filter (fun e => e.target == v)).map
        (fun e => eetFix2 tasks topo e.source + e.duration)).foldl max 0 := by
  have hrank := nsEdges_rank hids htopo
  rcases hm : rankOf tasks topo v with _ | m
  · rw [eetFix2, hm, eetIdeal_filter_nil hrank hm]
    rw [show eetIdeal (nsEdges tasks topo) 0 v = 0 from rfl]
    rfl
  · rw [eetFix2, hm, eetIdeal_succ]
    have hcongr : ∀ e ∈ (nsEdges tasks topo).filter
          (fun e => e.target == v),
        eetIdeal (nsEdges tasks topo) m e.source + e.duration =
          eetFix2 tasks topo e.source + e.duration := by
      intro e he
      rcases List.mem_filter.mp he with ⟨heE, htgt⟩
      have htgt' : e.target = v := by
        rw [beq_iff_eq] at htgt
        exact htgt
      have := hrank e heE
      rw [htgt', hm] at this
      show _ = eetIdeal (nsEdges tasks topo) (rankOf tasks topo e.source)
        e.source + e.duration
      rw [eetIdeal_stable_of_le hrank (le_refl _) (by omega)]
    rw [List.map_congr_left hcongr]

theorem eetFix2_arc {tasks : List Task} (hids : (taskIds tasks).Nodup)
    {topo : List String} (htopo : getTopologicalSort tasks = .ok topo)
    {e : AoaEdge} (he : e ∈ aoaEdges tasks topo) :
    eetFix2 tasks topo e.source + e.duration ≤
      eetFix2 tasks topo e.target := by
  by_cases hself : e.source = e.target
  · rw [aoaEdges_self_dur0 e he hself, add_zero, hself]
  · exact eetFix2_arc_ns hids htopo (mem_nsEdges_of_ne he hself)

theorem eetFix2_eq {tasks : List Task} (hids : (taskIds tasks).Nodup)
    {topo : List String} (htopo : getTopologicalSort tasks = .ok topo)
    (v : String) :
    eetFix2 tasks topo v =
      (((aoaEdges tasks topo).filter (fun e => e.target == v)).map
        (fun e => eetFix2 tasks topo e.source + e.duration)).foldl max 0 := by
  refine le_antisymm ?_ ?_
  · -- the fixpoint is attained over the non-self arcs, a sublist
    rcases foldl_max_cases (((nsEdges tasks topo).filter
        (fun e => e.target == v)).map
        (fun e => eetFix2 tasks topo e.source + e.duration)) 0 with h0 | hm
    · rw [eetFix2_eq_ns hids htopo v, h0]
      exact foldl_max_init_le _ 0
    · rw [eetFix2_eq_ns hids htopo v]
      rcases List.mem_map.mp hm with ⟨e, hef, hfe⟩
      rcases List.mem_filter.mp hef with ⟨heNs, htgt⟩
      have hfull : e ∈ (aoaEdges tasks topo).filter
          (fun e => e.target == v) :=
        List.mem_filter.mpr ⟨nsEdges_sub heNs, htgt⟩
      have hcand : eetFix2 tasks topo e.source + e.duration ∈
          ((aoaEdges tasks topo).filter (fun e => e.target == v)).map
            (fun e => eetFix2 tasks topo e.source + e.duration) :=
        List.mem_map.mpr ⟨e, hfull, rfl⟩
      rw [← hfe]
      exact foldl_max_le_of_mem hcand 0
  · refine foldl_max_le ?_ (eetIdeal_nonneg _ _ v)
    intro c hc
    rcases List.mem_map.mp hc with ⟨e, hef, rfl⟩
    rcases List.mem_filter.mp hef with ⟨heE, htgt⟩
    have htgt' : e.target = v := by
      rw [beq_iff_eq] at htgt
      exact htgt
    have := eetFix2_arc hids htopo heE
    rw [htgt'] at this
    exact this

theorem minE_cases : ∀ (x y : Option ℚ), minE x y = x ∨ minE x y = y := by
  intro x y
  cases x with
  | none => exact Or.inr rfl
  | some a =>
    cases y with
    | none => exact Or.inl rfl
    | some b =>
      rcases min_choice a b with h | h
      · exact Or.inl (by rw [minE, h])
      · exact Or.inr (by rw [minE, h])

theorem foldl_minE_cases :
    ∀ (l : List (Option ℚ)) (a : Option ℚ),
      l.foldl minE a = a ∨ l.foldl minE a ∈ l := by
  intro l
  induction l with
  | nil => intro a; exact Or.inl rfl
  | cons x l ih =>
    intro a
    rw [List.foldl_cons]
    rcases ih (minE a x) with h1 | h1
    · rcases minE_cases a x with hm | hm
      · exact Or.inl (by rw [h1, hm])
      · refine Or.inr ?_
        rw [h1, hm]
        exact List.mem_cons_self x l
    · exact Or.inr (List.mem_cons_of_mem x h1)

theorem leE_subE_zero : ∀ (x : Option ℚ), leE x (subE x 0) := by
  intro x
  cases x with
  | none => trivial
  | some a =>
    show a ≤ a - 0
    rw [sub_zero]

/-- The fixpoint LET of an event, with self-loops removed. -/
def letFix2 (tasks : List Task) (topo : List String) (v : String) :
    Option ℚ :=
  letIdeal (nsEdges tasks topo) (initE tasks topo)
    (corankOf tasks topo v) v

theorem letFix2_arc_ns {tasks : List Task} (hids : (taskIds tasks).Nodup)
    {topo : List String} (htopo : getTopologicalSort tasks = .ok topo)
    {e : AoaEdge} (he : e ∈ nsEdges tasks topo) :
    leE (letFix2 tasks topo e.source)
      (subE (letFix2 tasks topo e.target) e.duration) := by
  have hrank := nsEdges_corank hids htopo
  have hlt := hrank e he
  rcases hm : corankOf tasks topo e.source with _ | m
  · rw [hm] at hlt
    omega
  · rw [hm] at hlt
    have hsrc : letFix2 tasks topo e.source =
        (((nsEdges tasks topo).filter (fun d => d.source == e.source)).map
          (fun d => subE (letIdeal (nsEdges tasks topo) (initE tasks topo)
            m d.target) d.duration)).foldl minE
          (initE tasks topo e.source) := by
      rw [letFix2, hm, letIdeal_succ]
    rw [hsrc]
    have hmem : subE (letIdeal (nsEdges tasks topo) (initE tasks topo) m
        e.target) e.duration ∈
        ((nsEdges tasks topo).filter (fun d => d.source == e.source)).map
          (fun d => subE (letIdeal (nsEdges tasks topo) (initE tasks topo)
            m d.target) d.duration) :=
      List.mem_map.mpr ⟨e, List.mem_filter.mpr ⟨he, by rw [beq_iff_eq]⟩, rfl⟩
    have hstab : letIdeal (nsEdges tasks topo) (initE tasks topo) m
        e.target = letFix2 tasks topo e.target := by
      rw [letFix2]
      exact letIdeal_stable_of_le hrank (le_refl _) (by omega)
    rw [← hstab]
    exact foldl_minE_le_of_mem hmem _

theorem letFix2_eq_ns {tasks : List Task} (hids : (taskIds tasks).Nodup)
    {topo : List String} (htopo : getTopologicalSort tasks = .ok topo)
    (v : String) :
    letFix2 tasks topo v =
      (((nsEdges tasks topo).filter (fun e => e.source == v)).map
        (fun e => subE (letFix2 tasks topo e.target) e.duration)).foldl
        minE (initE tasks topo v) := by
  have hrank := nsEdges_corank hids htopo
  rcases hm : corankOf tasks topo v with _ | m
  · rw [letFix2, hm, letIdeal_filter_nil hrank hm]
    rfl
  · rw [letFix2, hm, letIdeal_succ]
    have hcongr : ∀ e ∈ (nsEdges tasks topo).filter
          (fun e => e.source == v),
        subE (letIdeal (nsEdges tasks topo) (initE tasks topo) m
          e.target) e.duration =
          subE (letFix2 tasks topo e.target) e.duration := by
      intro e he
      rcases List.mem_filter.mp he with ⟨heE, hsrc⟩
      have hsrc' : e.source = v := by
        rw [beq_iff_eq] at hsrc
        exact hsrc
      have := hrank e heE
      rw [hsrc', hm] at this
      show subE (letIdeal (nsEdges tasks topo) (initE tasks topo) m
        e.target) e.duration = subE (letIdeal (nsEdges tasks topo)
          (initE tasks topo) (corankOf tasks topo e.target) e.target)
          e.duration
      rw [letIdeal_stable_of_le hrank (le_refl _) (by omega)]
    rw [List.map_congr_left hcongr]

theorem letFix2_arc {tasks : List Task} (hids : (taskIds tasks).Nodup)
    {topo : List String} (htopo : getTopologicalSort tasks = .ok topo)
    {e : AoaEdge} (he : e ∈ aoaEdges tasks topo) :
    leE (letFix2 tasks topo e.source)
      (subE (letFix2 tasks topo e.target) e.duration) := by
  by_cases hself : e.source = e.target
  · rw [aoaEdges_self_dur0 e he hself, ← hself]
    exact leE_subE_zero _
  · exact letFix2_arc_ns hids htopo (mem_nsEdges_of_ne he hself)

theorem letFix2_eq {tasks : List Task} (hids : (taskIds tasks).Nodup)
    {topo : List String} (htopo : getTopologicalSort tasks = .ok topo)
    (v : String) :
    letFix2 tasks topo v =
      (((aoaEdges tasks topo).filter (fun e => e.source == v)).map
        (fun e => subE (letFix2 tasks topo e.target) e.duration)).foldl
        minE (initE tasks topo v) := by
  refine leE_antisymm ?_ ?_
  · -- the fixpoint is below the initialization and every candidate
    refine leE_foldl_minE _ _ _ ?_ ?_
    · rw [letFix2]
      exact letIdeal_le_init _ _ _ v
    · intro c hc
      rcases List.mem_map.mp hc with ⟨e, hef, rfl⟩
      rcases List.mem_filter.mp hef with ⟨heE, hsrc⟩
      have hsrc' : e.source = v := by
        rw [beq_iff_eq] at hsrc
        exact hsrc
      have := letFix2_arc hids htopo heE
      rw [hsrc'] at this
      exact this
  · -- and it is attained over the non-self arcs, a sublist
    rcases foldl_minE_cases (((nsEdges tasks topo).filter
        (fun e => e.source == v)).map
        (fun e => subE (letFix2 tasks topo e.target) e.duration))
        (initE tasks topo v) with h0 | hm
    · rw [letFix2_eq_ns hids htopo v, h0]
      exact foldl_minE_init_le _ _
    · rw [letFix2_eq_ns hids htopo v]
      rcases List.mem_map.mp hm with ⟨e, hef, hfe⟩
      rcases List.mem_filter.mp hef with ⟨heNs, hsrc⟩
      have hfull : e ∈ (aoaEdges tasks topo).filter
          (fun e => e.source == v) :=
        List.mem_filter.mpr ⟨nsEdges_sub heNs, hsrc⟩
      have hcand : subE (letFix2 tasks topo e.target) e.duration ∈
          ((aoaEdges tasks topo).filter (fun e => e.source == v)).map
            (fun e => subE (letFix2 tasks topo e.target) e.duration) :=
        List.mem_map.mpr ⟨e, hfull, rfl⟩
      rw [← hfe]
      exact foldl_minE_le_of_mem hcand _

theorem letFix2_fin {tasks : List Task} (hids : (taskIds tasks).Nodup)
    {topo : List String} (htopo : getTopologicalSort tasks = .ok topo) :
    letFix2 tasks topo "Fin" = some (projectDurationAoa tasks topo) := by
  rw [letFix2_eq hids htopo]
  have hnil : (aoaEdges tasks topo).filter
      (fun e => e.source == "Fin") = [] := by
    rw [List.filter_eq_nil_iff]
    intro e he hc
    rw [beq_iff_eq] at hc
    exact fin_no_outgoing_w hids htopo e he hc
  rw [hnil]
  show initE tasks topo "Fin" = some (projectDurationAoa tasks topo)
  rw [initE, if_pos rfl]


theorem relaxEet_fold_upper_w {tasks : List Task}
    (hids : (taskIds tasks).Nodup) {topo : List String}
    (htopo : getTopologicalSort tasks = .ok topo) :
    ∀ (l : List AoaEdge) (acc : List (String × ℚ)),
      (∀ e ∈ l, e ∈ aoaEdges tasks topo) →
      (∀ v x, alookup acc v = some x → x ≤ eetFix2 tasks topo v) →
      ∀ v x, alookup (l.foldl relaxEetStep acc) v = some x →
        x ≤ eetFix2 tasks topo v := by
  intro l
  induction l with
  | nil => intro acc _ hb v x hx; exact hb v x hx
  | cons e l ih =>
    intro acc hmem hb v x hx
    rw [List.foldl_cons] at hx
    refine ih _ (fun d hd => hmem d (List.mem_cons_of_mem e hd)) ?_ v x hx
    intro w y hy
    have heE := hmem e (List.mem_cons_self e l)
    rw [relaxEetStep] at hy
    rcases ha : alookup acc e.source with _ | a
    · rw [ha] at hy
      exact hb w y hy
    · rcases hbt : alookup acc e.target with _ | b
      · rw [ha, hbt] at hy
        exact hb w y hy
      · rw [ha, hbt] at hy
        have hy2 : alookup (if b < a + e.duration then
            aset acc e.target (a + e.duration) else acc) w = some y := hy
        by_cases h : b < a + e.duration
        · rw [if_pos h] at hy2
          by_cases hw : w = e.target
          · subst hw
            rw [alookup_aset, if_pos rfl, hbt] at hy2
            have : y = a + e.duration := (Option.some.inj hy2).symm
            subst this
            have h1 : a ≤ eetFix2 tasks topo e.source := hb _ a ha
            have h2 := eetFix2_arc hids htopo heE
            linarith
          · rw [alookup_aset_ne _ _ hw] at hy2
            exact hb w y hy2
        · rw [if_neg h] at hy2
          exact hb w y hy2

theorem relaxEetPass_progress_w {tasks : List Task}
    (hids : (taskIds tasks).Nodup) {topo : List String}
    (htopo : getTopologicalSort tasks = .ok topo)
    (k : ℕ) (acc : List (String × ℚ))
    (hkeys : acc.map Prod.fst = eventIds tasks topo)
    (hlow : ∀ v ∈ eventIds tasks topo, ∃ x, alookup acc v = some x ∧
      eetIdeal (nsEdges tasks topo) k v ≤ x) :
    ∀ v ∈ eventIds tasks topo,
      ∃ x, alookup (relaxEetPass (aoaEdges tasks topo) acc) v = some x ∧
        eetIdeal (nsEdges tasks topo) (k + 1) v ≤ x := by
  intro v hv
  rcases hlow v hv with ⟨x0, hx0, hix0⟩
  rcases relaxEet_fold_mono (aoaEdges tasks topo) acc v x0 hx0 with
    ⟨x, hx, hx0x⟩
  refine ⟨x, hx, ?_⟩
  rw [eetIdeal_succ]
  refine foldl_max_le ?_ ?_
  · -- x dominates every incoming candidate over the non-self arcs
    intro c hc
    rcases List.mem_map.mp hc with ⟨e, hef, rfl⟩
    rcases List.mem_filter.mp hef with ⟨heNs, htgt⟩
    have heE : e ∈ aoaEdges tasks topo := nsEdges_sub heNs
    have htgt' : e.target = v := by
      rw [beq_iff_eq] at htgt
      exact htgt
    rcases List.append_of_mem heE with ⟨pre, post, hsplitE⟩
    have hpass : relaxEetPass (aoaEdges tasks topo) acc =
        post.foldl relaxEetStep
          (relaxEetStep (pre.foldl relaxEetStep acc) e) := by
      rw [relaxEetPass, hsplitE, List.foldl_append, List.foldl_cons]
    set acc1 := pre.foldl relaxEetStep acc with hacc1
    have hkeys1 : acc1.map Prod.fst = eventIds tasks topo := by
      rw [hacc1, relaxEet_fold_keys, hkeys]
    have hsrcmem : e.source ∈ eventIds tasks topo :=
      (aoaEdges_endpoints_w hids htopo e heE).1
    have htgtmem : e.target ∈ eventIds tasks topo :=
      (aoaEdges_endpoints_w hids htopo e heE).2
    rcases hlow e.source hsrcmem with ⟨a0, ha0, hia0⟩
    rcases relaxEet_fold_mono pre acc e.source a0 ha0 with ⟨a, ha, ha0a⟩
    rcases alookup_mem_of_key (by rw [hkeys1]; exact htgtmem :
      e.target ∈ acc1.map Prod.fst) with ⟨b, hb⟩
    have hstep : ∃ y, alookup (relaxEetStep acc1 e) e.target = some y ∧
        eetIdeal (nsEdges tasks topo) k e.source + e.duration ≤ y := by
      rw [relaxEetStep, ha, hb]
      show ∃ y, alookup (if b < a + e.duration then
        aset acc1 e.target (a + e.duration) else acc1) e.target =
          some y ∧ _ ≤ y
      by_cases h : b < a + e.duration
      · rw [if_pos h]
        refine ⟨a + e.duration, ?_, by linarith⟩
        rw [alookup_aset, if_pos rfl, hb]
        rfl
      · rw [if_neg h]
        push_neg at h
        exact ⟨b, hb, by linarith⟩
    rcases hstep with ⟨y, hy, hiy⟩
    rcases relaxEet_fold_mono post _ e.target y hy with ⟨z, hz, hyz⟩
    rw [← hpass] at hz
    rw [htgt'] at hz
    rw [relaxEetPass] at hz
    rw [hx] at hz
    have hzx : x = z := Option.some.inj hz
    rw [hzx]
    linarith
  · exact le_trans (eetIdeal_nonneg _ k v) (le_trans hix0 hx0x)

theorem relaxEetIter_lower_w {tasks : List Task}
    (hids : (taskIds tasks).Nodup) {topo : List String}
    (htopo : getTopologicalSort tasks = .ok topo) :
    ∀ (k j : ℕ) (acc : List (String × ℚ)),
      acc.map Prod.fst = eventIds tasks topo →
      (∀ v ∈ eventIds tasks topo, ∃ x, alookup acc v = some x ∧
        eetIdeal (nsEdges tasks topo) j v ≤ x) →
      ∀ v ∈ eventIds tasks topo,
        ∃ x, alookup (relaxEetIter (aoaEdges tasks topo) k acc) v = some x ∧
          eetIdeal (nsEdges tasks topo) (j + k) v ≤ x := by
  intro k
  induction k with
  | zero =>
    intro j acc _ hlow v hv
    exact hlow v hv
  | succ k ih =>
    intro j acc hkeys hlow v hv
    rw [relaxEetIter]
    have hprog := relaxEetPass_progress_w hids htopo j acc hkeys hlow
    have hkeys2 : (relaxEetPass (aoaEdges tasks topo) acc).map Prod.fst =
        eventIds tasks topo := by
      rw [relaxEetPass, relaxEet_fold_keys, hkeys]
    have := ih (j + 1) _ hkeys2 hprog v hv
    rw [show j + 1 + k = j + (k + 1) from by omega] at this
    exact this

theorem relaxEetIter_upper_w {tasks : List Task}
    (hids : (taskIds tasks).Nodup) {topo : List String}
    (htopo : getTopologicalSort tasks = .ok topo) :
    ∀ (k : ℕ) (acc : List (String × ℚ)),
      (∀ v x, alookup acc v = some x → x ≤ eetFix2 tasks topo v) →
      ∀ v x, alookup (relaxEetIter (aoaEdges tasks topo) k acc) v = some x →
        x ≤ eetFix2 tasks topo v := by
  intro k
  induction k with
  | zero => intro acc hb v x hx; exact hb v x hx
  | succ k ih =>
    intro acc hb v x hx
    rw [relaxEetIter] at hx
    refine ih _ ?_ v x hx
    intro w y hy
    exact relaxEet_fold_upper_w hids htopo (aoaEdges tasks topo) acc
      (fun d hd => hd) hb w y hy

theorem eetTable_eq_fix2 {tasks : List Task} (hids : (taskIds tasks).Nodup)
    {topo : List String} (htopo : getTopologicalSort tasks = .ok topo) :
    ∀ v ∈ eventIds tasks topo,
      alookup (eetTable tasks topo) v = some (eetFix2 tasks topo v) := by
  intro v hv
  have hrank := nsEdges_rank hids htopo
  have hkeys0 : ((eventIds tasks topo).map (fun u => (u, (0 : ℚ)))).map
      Prod.fst = eventIds tasks topo := by
    rw [List.map_map]
    show (eventIds tasks topo).map (fun v => v) = eventIds tasks topo
    induction eventIds tasks topo with
    | nil => rfl
    | cons u l ih => rw [List.map_cons, ih]
  have hlow0 : ∀ w ∈ eventIds tasks topo,
      ∃ x, alookup ((eventIds tasks topo).map (fun u => (u, (0 : ℚ)))) w =
        some x ∧ eetIdeal (nsEdges tasks topo) 0 w ≤ x := by
    intro w hw
    exact ⟨0, alookup_map_fn (fun _ => (0 : ℚ)) _ w hw, le_refl 0⟩
  have hlow := relaxEetIter_lower_w hids htopo
    ((eventIds tasks topo).length + 2) 0 _ hkeys0 hlow0 v hv
  have hup := relaxEetIter_upper_w hids htopo
    ((eventIds tasks topo).length + 2) _
    (by
      intro w y hy
      have hw : w ∈ eventIds tasks topo := by
        have := alookup_key_of_some hy
        rw [hkeys0] at this
        exact this
      have hlk := alookup_map_fn (fun _ => (0 : ℚ)) (eventIds tasks topo) w hw
      rw [hy] at hlk
      have hy0 : y = 0 := (Option.some.inj hlk.symm).symm
      rw [hy0]
      show (0 : ℚ) ≤ eetFix2 tasks topo w
      exact eetIdeal_nonneg _ _ w) v
  rcases hlow with ⟨x, hx, hix⟩
  have hxle := hup x hx
  have hstab : eetIdeal (nsEdges tasks topo)
      (0 + ((eventIds tasks topo).length + 2)) v = eetFix2 tasks topo v := by
    rw [eetFix2]
    refine eetIdeal_stable_of_le hrank (le_refl _) ?_
    have := idx_lt_of_mem hv
    rw [rankOf]
    omega
  rw [hstab] at hix
  have hxeq : x = eetFix2 tasks topo v := le_antisymm hxle hix
  rw [eetTable, hx, hxeq]

theorem eetTable_pass_noop2 {tasks : List Task}
    (hids : (taskIds tasks).Nodup) {topo : List String}
    (htopo : getTopologicalSort tasks = .ok topo) :
    relaxEetPass (aoaEdges tasks topo) (eetTable tasks topo) =
      eetTable tasks topo := by
  rw [relaxEetPass]
  refine foldl_fixed _ _ _ ?_
  intro e he
  have hsrc := eetTable_eq_fix2 hids htopo e.source
    (aoaEdges_endpoints_w hids htopo e he).1
  have htgt := eetTable_eq_fix2 hids htopo e.target
    (aoaEdges_endpoints_w hids htopo e he).2
  rw [relaxEetStep, hsrc, htgt]
  show (if eetFix2 tasks topo e.target <
      eetFix2 tasks topo e.source + e.duration then
    aset (eetTable tasks topo) e.target
      (eetFix2 tasks topo e.source + e.duration)
    else eetTable tasks topo) = eetTable tasks topo
  rw [if_neg]
  push_neg
  exact eetFix2_arc hids htopo he

theorem relaxLet_fold_lower_w {tasks : List Task}
    (hids : (taskIds tasks).Nodup) {topo : List String}
    (htopo : getTopologicalSort tasks = .ok topo) :
    ∀ (l : List AoaEdge) (acc : List (String × Option ℚ)),
      (∀ e ∈ l, e ∈ aoaEdges tasks topo) →
      (∀ v x, alookup acc v = some x → leE (letFix2 tasks topo v) x) →
      ∀ v x, alookup (l.foldl relaxLetStep acc) v = some x →
        leE (letFix2 tasks topo v) x := by
  intro l
  induction l with
  | nil => intro acc _ hb v x hx; exact hb v x hx
  | cons e l ih =>
    intro acc hmem hb v x hx
    rw [List.foldl_cons] at hx
    refine ih _ (fun d hd => hmem d (List.mem_cons_of_mem e hd)) ?_ v x hx
    intro w y hy
    have heE := hmem e (List.mem_cons_self e l)
    rw [relaxLetStep] at hy
    rcases ha : alookup acc e.source with _ | lu
    · rw [ha] at hy
      exact hb w y hy
    · rcases hbt : alookup acc e.target with _ | lv
      · rw [ha, hbt] at hy
        exact hb w y hy
      · rw [ha, hbt] at hy
        have hy2 : alookup (if ltE (subE lv e.duration) lu = true then
            aset acc e.source (subE lv e.duration) else acc) w =
              some y := hy
        by_cases h : ltE (subE lv e.duration) lu = true
        · rw [if_pos h] at hy2
          by_cases hw : w = e.source
          · subst hw
            rw [alookup_aset, if_pos rfl, ha] at hy2
            have : y = subE lv e.duration := (Option.some.inj hy2).symm
            subst this
            have h1 : leE (letFix2 tasks topo e.target) lv := hb _ lv hbt
            have h2 := letFix2_arc hids htopo heE
            exact leE_trans h2 (subE_mono e.duration h1)
          · rw [alookup_aset_ne _ _ hw] at hy2
            exact hb w y hy2
        · rw [if_neg h] at hy2
          exact hb w y hy2

theorem relaxLetPass_progress_w {tasks : List Task}
    (hids : (taskIds tasks).Nodup) {topo : List String}
    (htopo : getTopologicalSort tasks = .ok topo)
    (k : ℕ) (acc : List (String × Option ℚ))
    (hkeys : acc.map Prod.fst = eventIds tasks topo)
    (hup : ∀ v ∈ eventIds tasks topo, ∃ x, alookup acc v = some x ∧
      leE x (letIdeal (nsEdges tasks topo) (initE tasks topo) k v)) :
    ∀ v ∈ eventIds tasks topo,
      ∃ x, alookup (relaxLetPass (aoaEdges tasks topo) acc) v = some x ∧
        leE x (letIdeal (nsEdges tasks topo) (initE tasks topo)
          (k + 1) v) := by
  intro v hv
  rcases hup v hv with ⟨x0, hx0, hix0⟩
  rcases relaxLet_fold_mono (aoaEdges tasks topo) acc v x0 hx0 with
    ⟨x, hx, hx0x⟩
  refine ⟨x, hx, ?_⟩
  rw [letIdeal_succ]
  refine leE_foldl_minE _ _ _ ?_ ?_
  · exact leE_trans hx0x (leE_trans hix0 (letIdeal_le_init _ _ k v))
  · intro c hc
    rcases List.mem_map.mp hc with ⟨e, hef, rfl⟩
    rcases List.mem_filter.mp hef with ⟨heNs, hsrc⟩
    have heE : e ∈ aoaEdges tasks topo := nsEdges_sub heNs
    have hsrc' : e.source = v := by
      rw [beq_iff_eq] at hsrc
      exact hsrc
    rcases List.append_of_mem heE with ⟨pre, post, hsplitE⟩
    have hpass : relaxLetPass (aoaEdges tasks topo) acc =
        post.foldl relaxLetStep
          (relaxLetStep (pre.foldl relaxLetStep acc) e) := by
      rw [relaxLetPass, hsplitE, List.foldl_append, List.foldl_cons]
    set acc1 := pre.foldl relaxLetStep acc with hacc1
    have hkeys1 : acc1.map Prod.fst = eventIds tasks topo := by
      rw [hacc1, relaxLet_fold_keys, hkeys]
    have hsrcmem : e.source ∈ eventIds tasks topo :=
      (aoaEdges_endpoints_w hids htopo e heE).1
    have htgtmem : e.target ∈ eventIds tasks topo :=
      (aoaEdges_endpoints_w hids htopo e heE).2
    rcases hup e.target htgtmem with ⟨b0, hb0, hib0⟩
    rcases relaxLet_fold_mono pre acc e.target b0 hb0 with ⟨b, hb, hb0b⟩
    rcases alookup_mem_of_key (by rw [hkeys1]; exact hsrcmem :
      e.source ∈ acc1.map Prod.fst) with ⟨a, ha⟩
    have hbideal : leE b (letIdeal (nsEdges tasks topo) (initE tasks topo)
        k e.target) := leE_trans hb0b hib0
    have hstep : ∃ y, alookup (relaxLetStep acc1 e) e.source = some y ∧
        leE y (subE (letIdeal (nsEdges tasks topo) (initE tasks topo) k
          e.target) e.duration) := by
      rw [relaxLetStep, ha, hb]
      show ∃ y, alookup (if ltE (subE b e.duration) a = true then
        aset acc1 e.source (subE b e.duration) else acc1) e.source =
          some y ∧ leE y _
      by_cases h : ltE (subE b e.duration) a = true
      · rw [if_pos h]
        refine ⟨subE b e.duration, ?_, subE_mono e.duration hbideal⟩
        rw [alookup_aset, if_pos rfl, ha]
        rfl
      · rw [if_neg h]
        have hf : ltE (subE b e.duration) a = false := by
          revert h
          cases ltE (subE b e.duration) a with
          | false => intro _; rfl
          | true => intro h; exact absurd rfl h
        have hle : leE a (subE b e.duration) := (ltE_false_iff _ _).mp hf
        exact ⟨a, ha, leE_trans hle (subE_mono e.duration hbideal)⟩
    rcases hstep with ⟨y, hy, hiy⟩
    rcases relaxLet_fold_mono post _ e.source y hy with ⟨z, hz, hyz⟩
    rw [← hpass] at hz
    rw [hsrc'] at hz
    rw [relaxLetPass] at hz
    rw [hx] at hz
    have hzx : x = z := Option.some.inj hz
    rw [hzx]
    exact leE_trans hyz hiy

theorem relaxLetIter_upper_w {tasks : List Task}
    (hids : (taskIds tasks).Nodup) {topo : List String}
    (htopo : getTopologicalSort tasks = .ok topo) :
    ∀ (k j : ℕ) (acc : List (String × Option ℚ)),
      acc.map Prod.fst = eventIds tasks topo →
      (∀ v ∈ eventIds tasks topo, ∃ x, alookup acc v = some x ∧
        leE x (letIdeal (nsEdges tasks topo) (initE tasks topo) j v)) →
      ∀ v ∈ eventIds tasks topo,
        ∃ x, alookup (relaxLetIter (aoaEdges tasks topo) k acc) v =
          some x ∧
          leE x (letIdeal (nsEdges tasks topo) (initE tasks topo)
            (j + k) v) := by
  intro k
  induction k with
  | zero =>
    intro j acc _ hup v hv
    exact hup v hv
  | succ k ih =>
    intro j acc hkeys hup v hv
    rw [relaxLetIter]
    have hprog := relaxLetPass_progress_w hids htopo j acc hkeys hup
    have hkeys2 : (relaxLetPass (aoaEdges tasks topo) acc).map Prod.fst =
        eventIds tasks topo := by
      rw [relaxLetPass, relaxLet_fold_keys, hkeys]
    have := ih (j + 1) _ hkeys2 hprog v hv
    rw [show j + 1 + k = j + (k + 1) from by omega] at this
    exact this

theorem relaxLetIter_lower_w {tasks : List Task}
    (hids : (taskIds tasks).Nodup) {topo : List String}
    (htopo : getTopologicalSort tasks = .ok topo) :
    ∀ (k : ℕ) (acc : List (String × Option ℚ)),
      (∀ v x, alookup acc v = some x → leE (letFix2 tasks topo v) x) →
      ∀ v x, alookup (relaxLetIter (aoaEdges tasks topo) k acc) v =
        some x → leE (letFix2 tasks topo v) x := by
  intro k
  induction k with
  | zero => intro acc hb v x hx; exact hb v x hx
  | succ k ih =>
    intro acc hb v x hx
    rw [relaxLetIter] at hx
    refine ih _ ?_ v x hx
    intro w y hy
    exact relaxLet_fold_lower_w hids htopo (aoaEdges tasks topo) acc
      (fun d hd => hd) hb w y hy

theorem letTable_eq_fix2 {tasks : List Task} (hids : (taskIds tasks).Nodup)
    {topo : List String} (htopo : getTopologicalSort tasks = .ok topo) :
    ∀ v ∈ eventIds tasks topo,
      alookup (letTable tasks topo) v = some (letFix2 tasks topo v) := by
  intro v hv
  have hrank := nsEdges_corank hids htopo
  have hlt0 : letTable tasks topo =
      relaxLetIter (aoaEdges tasks topo) ((eventIds tasks topo).length + 2)
        ((eventIds tasks topo).map (fun u => (u, initE tasks topo u))) := rfl
  have hkeys0 : (((eventIds tasks topo)).map
      (fun u => (u, initE tasks topo u))).map Prod.fst =
        eventIds tasks topo := by
    rw [List.map_map]
    show (eventIds tasks topo).map (fun v => v) = eventIds tasks topo
    induction eventIds tasks topo with
    | nil => rfl
    | cons u l ih => rw [List.map_cons, ih]
  have hup0 : ∀ w ∈ eventIds tasks topo,
      ∃ x, alookup ((eventIds tasks topo).map
        (fun u => (u, initE tasks topo u))) w = some x ∧
        leE x (letIdeal (nsEdges tasks topo) (initE tasks topo) 0 w) := by
    intro w hw
    exact ⟨initE tasks topo w, alookup_map_fn (initE tasks topo) _ w hw,
      leE_refl _⟩
  have hup := relaxLetIter_upper_w hids htopo
    ((eventIds tasks topo).length + 2) 0 _ hkeys0 hup0 v hv
  have hlow := relaxLetIter_lower_w hids htopo
    ((eventIds tasks topo).length + 2) _
    (by
      intro w y hy
      have hw : w ∈ eventIds tasks topo := by
        have := alookup_key_of_some hy
        rw [hkeys0] at this
        exact this
      have hlk := alookup_map_fn (initE tasks topo) (eventIds tasks topo)
        w hw
      rw [hy] at hlk
      have hy0 : y = initE tasks topo w := (Option.some.inj hlk.symm).symm
      rw [hy0, letFix2]
      exact letIdeal_le_init _ _ _ w) v
  rcases hup with ⟨x, hx, hix⟩
  have hxge := hlow x hx
  have hstab : letIdeal (nsEdges tasks topo) (initE tasks topo)
      (0 + ((eventIds tasks topo).length + 2)) v =
        letFix2 tasks topo v := by
    rw [letFix2]
    refine letIdeal_stable_of_le hrank (le_refl _) ?_
    rw [corankOf]
    omega
  rw [hstab] at hix
  have hxeq : x = letFix2 tasks topo v := leE_antisymm hix hxge
  rw [hlt0, hx, hxeq]

theorem letTable_pass_noop2 {tasks : List Task}
    (hids : (taskIds tasks).Nodup) {topo : List String}
    (htopo : getTopologicalSort tasks = .ok topo) :
    relaxLetPass (aoaEdges tasks topo) (letTable tasks topo) =
      letTable tasks topo := by
  rw [relaxLetPass]
  refine foldl_fixed _ _ _ ?_
  intro e he
  have hsrc := letTable_eq_fix2 hids htopo e.source
    (aoaEdges_endpoints_w hids htopo e he).1
  have htgt := letTable_eq_fix2 hids htopo e.target
    (aoaEdges_endpoints_w hids htopo e he).2
  rw [relaxLetStep, hsrc, htgt]
  have hfalse : ltE (subE (letFix2 tasks topo e.target) e.duration)
      (letFix2 tasks topo e.source) = false :=
    (ltE_false_iff _ _).mpr (letFix2_arc hids htopo he)
  show (if ltE (subE (letFix2 tasks topo e.target) e.duration)
      (letFix2 tasks topo e.source) = true then
    aset (letTable tasks topo) e.source
      (subE (letFix2 tasks topo e.target) e.duration)
    else letTable tasks topo) = letTable tasks topo
  rw [if_neg (fun h => by rw [hfalse] at h; exact Bool.noConfusion h)]

theorem letTable_equations2 {tasks : List Task}
    (hids : (taskIds tasks).Nodup) {topo : List String}
    (htopo : getTopologicalSort tasks = .ok topo) :
    alookup (letTable tasks topo) "Fin" =
      some (some (projectDurationAoa tasks topo)) ∧
    ∀ v ∈ eventIds tasks topo, v ≠ "Fin" →
      ∃ y, alookup (letTable tasks topo) v = some y ∧
        y = (((aoaEdges tasks topo).filter (fun e => e.source == v)).map
          (fun e => subE ((alookup (letTable tasks topo) e.target).getD
            none) e.duration)).foldl minE none := by
  constructor
  · rw [letTable_eq_fix2 hids htopo "Fin" fin_mem_eventIds,
      letFix2_fin hids htopo]
  · intro v hv hvne
    refine ⟨letFix2 tasks topo v, letTable_eq_fix2 hids htopo v hv, ?_⟩
    rw [letFix2_eq hids htopo v]
    have hinit : initE tasks topo v = none := by
      rw [initE, if_neg hvne]
    rw [hinit]
    congr 1
    refine List.map_congr_left ?_
    intro e he
    rcases List.mem_filter.mp he with ⟨heE, _⟩
    rw [letTable_eq_fix2 hids htopo e.target
      (aoaEdges_endpoints_w hids htopo e heE).2]
    rfl


theorem aoaEdges_nil {topo : List String} :
    aoaEdges ([] : List Task) topo = [] := by
  rw [aoaEdges]
  have hb : buildConnect [] topo = ⟨[], []⟩ := by
    rw [buildConnect]
    have hthis : sigList [] topo = dedupF (topo.map (sigOfId [])) := rfl
    have hsig : ∀ u, sigOfId ([] : List Task) u = [] := by
      intro u
      rfl
    have hmap : topo.map (sigOfId []) = topo.map (fun _ => []) := by
      refine List.map_congr_left ?_
      intro u _
      exact hsig u
    rw [hthis, hmap]
    cases topo with
    | nil =>
      rw [List.map_nil, dedupF]
      rfl
    | cons u rest =>
      have hded : dedupF ((u :: rest).map
          (fun _ => ([] : List String))) = [[]] := by
        rw [List.map_cons, dedupF]
        have : ((rest.map (fun _ => ([] : List String))).filter
            (fun y => y ≠ [])) = [] := by
          rw [List.filter_eq_nil_iff]
          intro a ha
          rcases List.mem_map.mp ha with ⟨_, _, rfl⟩
          simp
        rw [this, dedupF]
      rw [hded]
      rfl
  rw [hb]
  rfl

theorem eetIdeal_nil :
    ∀ (k : ℕ) (v : String), eetIdeal ([] : List AoaEdge) k v = 0 := by
  intro k v
  cases k with
  | zero => rfl
  | succ k =>
    rw [eetIdeal_succ]
    rfl

theorem nsEdges_nil {topo : List String} :
    nsEdges ([] : List Task) topo = [] := by
  rw [nsEdges, aoaEdges_nil]
  rfl

theorem exists_outgoing_w {tasks : List Task}
    (hids : (taskIds tasks).Nodup) {topo : List String}
    (htopo : getTopologicalSort tasks = .ok topo) (htasks : tasks ≠ []) :
    ∀ v ∈ eventIds tasks topo, v ≠ "Fin" →
      ∃ e ∈ aoaEdges tasks topo, e.source = v ∧ e.source ≠ e.target := by
  have hfacts := topo_facts hids htopo
  have hreal : ∀ t ∈ tasks, (⟨startNodeOf tasks topo t.id,
      endNodeOf (buildConnect tasks topo) t.id, some t.id, t.duration,
      false⟩ : AoaEdge) ∈ aoaEdges tasks topo := by
    intro t ht
    rw [aoaEdges]
    refine List.mem_append.mpr (Or.inr ?_)
    rw [realEdges_eq_map_w hids htopo]
    exact List.mem_map.mpr ⟨t, ht, rfl⟩
  intro v hv hvne
  rw [eventIds] at hv
  rcases List.mem_cons.mp hv with rfl | hv'
  · -- the start event: the first task of the order has no predecessors
    have hlen := (getTopo_ok_inv hids htopo).2
    have hne : topo ≠ [] := by
      intro h
      rw [h] at hlen
      cases htasksc : tasks with
      | nil => exact htasks htasksc
      | cons a l =>
        rw [htasksc] at hlen
        exact absurd hlen.symm (by simp)
    obtain ⟨u0, rest, htopoc⟩ := List.exists_cons_of_ne_nil hne
    · rcases mem_taskIds.mp (hfacts.2.1 u0
        (htopoc.symm ▸ List.mem_cons_self u0 rest)) with ⟨t0, ht0, ht0id⟩
      have hnopreds : t0.predecessors = [] := by
        rw [List.eq_nil_iff_forall_not_mem]
        intro p hp
        have := (hfacts.2.2.2 t0 ht0 p hp).2.2
        rw [ht0id, htopoc, idx_cons_self] at this
        omega
      have hsig : sigOf t0 = [] := by
        rw [sigOf, hnopreds]
        rfl
      refine ⟨_, hreal t0 ht0, ?_, ?_⟩
      · show startNodeOf tasks topo t0.id = "Start"
        rw [startNodeOf, sigOfId_eq hids ht0, hsig, jid]
        rfl
      · show startNodeOf tasks topo t0.id ≠
          endNodeOf (buildConnect tasks topo) t0.id
        exact real_no_selfloop_w hids htopo ht0
  · rcases List.mem_append.mp hv' with h1 | h1
    · -- a junction: it is the start node of the signature's tasks
      rcases List.mem_map.mp h1 with ⟨s, hs, rfl⟩
      have hsl : s ∈ sigList tasks topo := (List.mem_filter.mp hs).1
      have hsL : s ∈ topo.map (sigOfId tasks) := by
        rw [sigList, mem_dedupF] at hsl
        exact hsl
      rcases List.mem_map.mp hsL with ⟨u, hu, hsu⟩
      rcases mem_taskIds.mp (hfacts.2.1 u hu) with ⟨t, ht, htid⟩
      refine ⟨_, hreal t ht, ?_, ?_⟩
      · show startNodeOf tasks topo t.id = jid tasks topo s
        rw [startNodeOf, ← hsu, htid]
      · show startNodeOf tasks topo t.id ≠
          endNodeOf (buildConnect tasks topo) t.id
        exact real_no_selfloop_w hids htopo ht
    · rcases List.mem_singleton.mp h1 with rfl
      exact absurd rfl hvne

theorem eetFix2_le_fin {tasks : List Task} (hids : (taskIds tasks).Nodup)
    (hdur : ∀ t ∈ tasks, 0 ≤ t.duration) {topo : List String}
    (htopo : getTopologicalSort tasks = .ok topo) :
    ∀ v ∈ eventIds tasks topo,
      eetFix2 tasks topo v ≤ eetFix2 tasks topo "Fin" := by
  by_cases htasks : tasks = []
  · subst htasks
    intro v _
    rw [eetFix2, eetFix2, nsEdges_nil, eetIdeal_nil, eetIdeal_nil]
  · have H : ∀ (d : ℕ), ∀ v ∈ eventIds tasks topo,
        (eventIds tasks topo).length - rankOf tasks topo v ≤ d →
        eetFix2 tasks topo v ≤ eetFix2 tasks topo "Fin" := by
      intro d
      induction d with
      | zero =>
        intro v hv hd
        exfalso
        have := idx_lt_of_mem hv
        rw [← rankOf] at this
        omega
      | succ d ih =>
        intro v hv hd
        by_cases hvf : v = "Fin"
        · rw [hvf]
        · rcases exists_outgoing_w hids htopo htasks v hv hvf with
            ⟨e, heE, hesrc, hene⟩
          have harc := eetFix2_arc hids htopo heE
          have hdnn := aoaEdges_dur_nonneg_w hdur e heE
          have htgtm := (aoaEdges_endpoints_w hids htopo e heE).2
          have hrlt := aoaEdges_rank_ne hids htopo e heE hene
          have hrec : eetFix2 tasks topo e.target ≤
              eetFix2 tasks topo "Fin" := by
            refine ih e.target htgtm ?_
            have := idx_lt_of_mem htgtm
            rw [← rankOf] at this
            rw [hesrc] at hrlt
            omega
          calc eetFix2 tasks topo v ≤ eetFix2 tasks topo v + e.duration := by
                linarith
            _ ≤ eetFix2 tasks topo e.target := by rw [← hesrc]; exact harc
            _ ≤ eetFix2 tasks topo "Fin" := hrec
    intro v hv
    exact H (eventIds tasks topo).length v hv (by omega)

theorem projectDurationAoa_eq_fix2 {tasks : List Task}
    (hids : (taskIds tasks).Nodup) {topo : List String}
    (htopo : getTopologicalSort tasks = .ok topo) :
    projectDurationAoa tasks topo = eetFix2 tasks topo "Fin" := by
  rw [projectDurationAoa,
    eetTable_eq_fix2 hids htopo "Fin" fin_mem_eventIds]
  rfl

/-- C2: over every validated acyclic task set (duplicate-free stored ids;
possibly duplicated predecessor entries), after the `len(events) + 2`
bounded relaxation passes every event's EET satisfies the longest-path
fixpoint equation (maximum over incoming arcs of source EET + arc
duration, `0` with no incoming arc) and is at most the project duration;
the end event's LET is the project duration; every other event's LET
satisfies the minimum over outgoing arcs of target LET − arc duration
(`+∞`, i.e. `none`, with no outgoing arc); and one further relaxation
pass of either kind changes nothing, so `len(events) + 2` passes indeed
suffice to reach the fixpoint. -/
theorem claim_C2 (tasks : List Task)
    (hids : (taskIds tasks).Nodup)
    (hdur : ∀ t ∈ tasks, 0 ≤ t.duration)
    (topo : List String) (htopo : getTopologicalSort tasks = .ok topo) :
    (∀ v ∈ eventIds tasks topo, ∃ x,
      alookup (eetTable tasks topo) v = some x ∧
      x = (((aoaEdges tasks topo).filter (fun e => e.target == v)).map
        (fun e => (alookup (eetTable tasks topo) e.source).getD 0 +
          e.duration)).foldl max 0 ∧
      ((aoaEdges tasks topo).filter (fun e => e.target == v) = [] →
        x = 0) ∧
      x ≤ projectDurationAoa tasks topo) ∧
    alookup (letTable tasks topo) "Fin" =
      some (some (projectDurationAoa tasks topo)) ∧
    (∀ v ∈ eventIds tasks topo, v ≠ "Fin" → ∃ y,
      alookup (letTable tasks topo) v = some y ∧
      y = (((aoaEdges tasks topo).filter (fun e => e.source == v)).map
        (fun e => subE ((alookup (letTable tasks topo) e.target).getD
          none) e.duration)).foldl minE none) ∧
    relaxEetPass (aoaEdges tasks topo) (eetTable tasks topo) =
      eetTable tasks topo ∧
    relaxLetPass (aoaEdges tasks topo) (letTable tasks topo) =
      letTable tasks topo := by
  refine ⟨?_, (letTable_equations2 hids htopo).1,
    (letTable_equations2 hids htopo).2,
    eetTable_pass_noop2 hids htopo,
    letTable_pass_noop2 hids htopo⟩
  intro v hv
  refine ⟨eetFix2 tasks topo v, eetTable_eq_fix2 hids htopo v hv,
    ?_, ?_, ?_⟩
  · rw [eetFix2_eq hids htopo v]
    congr 1
    refine List.map_congr_left ?_
    intro e he
    rcases List.mem_filter.mp he with ⟨heE, _⟩
    rw [eetTable_eq_fix2 hids htopo e.source
      (aoaEdges_endpoints_w hids htopo e heE).1]
    rfl
  · intro hnil
    rw [eetFix2_eq hids htopo v, hnil]
    rfl
  · rw [projectDurationAoa_eq_fix2 hids htopo]
    exact eetFix2_le_fin hids hdur htopo v hv

/-- C2 witness: the hypotheses and conclusion at the duplicated-predecessor
input whose AoA network contains a zero-duration dummy self-loop arc. -/
theorem claim_C2_witness :
    (taskIds dupTasks).Nodup ∧
    (∀ t ∈ dupTasks, 0 ≤ t.duration) ∧
    getTopologicalSort dupTasks = .ok ["A", "B"] ∧
    ((∀ v ∈ eventIds dupTasks ["A", "B"], ∃ x,
      alookup (eetTable dupTasks ["A", "B"]) v = some x ∧
      x = (((aoaEdges dupTasks ["A", "B"]).filter
          (fun e => e.target == v)).map
        (fun e => (alookup (eetTable dupTasks ["A", "B"]) e.source).getD
          0 + e.duration)).foldl max 0 ∧
      ((aoaEdges dupTasks ["A", "B"]).filter
          (fun e => e.target == v) = [] → x = 0) ∧
      x ≤ projectDurationAoa dupTasks ["A", "B"]) ∧
    alookup (letTable dupTasks ["A", "B"]) "Fin" =
      some (some (projectDurationAoa dupTasks ["A", "B"])) ∧
    (∀ v ∈ eventIds dupTasks ["A", "B"], v ≠ "Fin" → ∃ y,
      alookup (letTable dupTasks ["A", "B"]) v = some y ∧
      y = (((aoaEdges dupTasks ["A", "B"]).filter
          (fun e => e.source == v)).map
        (fun e => subE ((alookup (letTable dupTasks ["A", "B"])
          e.target).getD none) e.duration)).foldl minE none) ∧
    relaxEetPass (aoaEdges dupTasks ["A", "B"])
        (eetTable dupTasks ["A", "B"]) =
      eetTable dupTasks ["A", "B"] ∧
    relaxLetPass (aoaEdges dupTasks ["A", "B"])
        (letTable dupTasks ["A", "B"]) =
      letTable dupTasks ["A", "B"]) := by
  have h1 : (taskIds dupTasks).Nodup := by decide
  have h3 : ∀ t ∈ dupTasks, (0 : ℚ) ≤ t.duration := by
    norm_num [dupTasks]
  have htopo : getTopologicalSort dupTasks = .ok ["A", "B"] := by decide
  exact ⟨h1, h3, htopo, claim_C2 dupTasks h1 h3 ["A", "B"] htopo⟩
end PertSpec
